import Mathlib

/-!
# Verification of the graftr checkpoint-tree engine

A shallow embedding of the tree model of `graftr.py` (node classes
`DictNode` / `PartialNode` / `ValueNode`, `Tree` construction from a flat
`state_dict`, path resolution, and the `mv` / `cp` / `rm` shell operations),
together with proofs about round-tripping, guard conditions and invariants.

Modelling conventions:
* Python strings are Lean `String`s; `str.split(sep)` / `'.' in s` /
  `s.startswith(p)` are modelled on the underlying character lists.
* Python `dict`s are insertion-ordered association lists; `d.update(e)` and
  `d[k] = v` keep the position of existing keys and append fresh ones.
* The object graph with parent pointers is modelled as an inductive tree.
  A node is addressed by its path of child names from the root; `..` drops
  the last segment, and the root ("its own parent" in the source) is the
  empty path.  In-place mutation of a child found by `child(name)` is
  modelled by replacing the first child with that name at its position,
  matching the identity-based `list.remove` / attribute writes of the source
  (lookup in the source also always returns the first child with a name).
* Uncontrolled Python exceptions (`AssertionError` from the bare `assert`
  in `_from_state_dict`, `AttributeError` from calling `add_child` on a
  `ValueNode` in `Tree.insert`) are modelled with `Except PyErr`; handled
  failures that the shell reports by printing are ordinary result values.
-/

/-- Opaque leaf value (a tensor or other checkpoint entry); its contents are
irrelevant to the tree engine, so it is modelled as a natural number. -/
abbrev Val := Nat

/-- A value of a flat checkpoint mapping: either a nested mapping (a Python
`dict`, insertion-ordered) or an opaque leaf value. -/
inductive SDVal where
  | vdict : List (String × SDVal) → SDVal
  | vleaf : Val → SDVal

/-- A Python `dict` mapping flat keys to values, as an ordered association
list. -/
abbrev PyDict := List (String × SDVal)

/-- Python `sep.join(parts)` on character lists. -/
def joinChars (sep : Char) (parts : List (List Char)) : List Char :=
  [sep].intercalate parts

/-- Python `name.split('.')` (`'.'` is never empty, so the corner cases of
`str.split` with no argument do not arise): split on every dot, keeping
empty chunks, `"".split('.') == ['']`. -/
def splitDot (s : String) : List String :=
  (s.data.splitOn '.').map fun l => ⟨l⟩

/-- Python `'.'.join(parts)`; proof-side inverse of `splitDot`. -/
def joinDot (parts : List String) : String :=
  ⟨joinChars '.' (parts.map String.data)⟩

/-- Python `path.split('/')`. -/
def splitSlash (s : String) : List String :=
  (s.data.splitOn '/').map fun l => ⟨l⟩

/-- Python `'/'.join(parts)`. -/
def joinSlash (parts : List String) : String :=
  ⟨joinChars '/' (parts.map String.data)⟩

/-- Python `'.' in name`. -/
def hasDot (s : String) : Bool :=
  s.data.contains '.'

/-- Python `s.startswith(p)`. -/
def startsWithS (p s : String) : Bool :=
  p.data.isPrefixOf s.data

theorem joinDot_splitDot (s : String) : joinDot (splitDot s) = s := by
  unfold joinDot splitDot joinChars
  rw [List.map_map]
  have h : (String.data ∘ fun l : List Char => (⟨l⟩ : String)) = id := rfl
  rw [h, List.map_id, List.intercalate_splitOn]

/-- Peeling one chunk off an intercalation with at least two chunks. -/
theorem intercalate_cons_cons (sep : Char) (x y : List Char)
    (t : List (List Char)) :
    [sep].intercalate (x :: y :: t) = x ++ [sep] ++ [sep].intercalate (y :: t) := by
  simp only [List.intercalate, List.intersperse_cons_cons, List.flatten_cons,
    List.append_assoc]

/-- `joinDot` on a chunk list with at least two chunks peels off the head. -/
theorem joinDot_cons_cons (a b : String) (t : List String) :
    joinDot (a :: b :: t) = a ++ "." ++ joinDot (b :: t) := by
  apply String.ext
  show List.intercalate ['.'] (a.data :: b.data :: t.map String.data)
      = (a ++ "." ++ joinDot (b :: t)).data
  show List.intercalate ['.'] (a.data :: b.data :: t.map String.data)
      = a.data ++ ['.'] ++ List.intercalate ['.'] (b.data :: t.map String.data)
  exact intercalate_cons_cons '.' _ _ _

/-! ## The node model (`_Node`, `_DirNode`, `DictNode`, `PartialNode`,
`ValueNode`) -/

/-- Tree node.  `DictNode` is a Group (one level of a nested-mapping
namespace), `PartialNode` is a JoinedGroup (synthesized by splitting a
dot-joined key), `ValueNode` is a Leaf holding one opaque value.  Children
are kept in insertion order, as in the Python lists. -/
inductive Node where
  | DictNode : String → List Node → Node
  | PartialNode : String → List Node → Node
  | ValueNode : String → Val → Node

/-- `self.name`. -/
def Node.name : Node → String
  | .DictNode nm _ => nm
  | .PartialNode nm _ => nm
  | .ValueNode nm _ => nm

/-- `self.children` (`ValueNode` has no such attribute in the source; it is
modelled as `[]`, and the one place where the source would hit the missing
attribute — `Tree.insert` descending into a leaf — raises explicitly). -/
def Node.children : Node → List Node
  | .DictNode _ cs => cs
  | .PartialNode _ cs => cs
  | .ValueNode _ _ => []

/-- `is_directory` property. -/
def Node.is_directory : Node → Bool
  | .DictNode _ _ => true
  | .PartialNode _ _ => true
  | .ValueNode _ _ => false

/-- `isinstance(node, PartialNode)`. -/
def Node.isPartialNode : Node → Bool
  | .PartialNode _ _ => true
  | _ => false

/-- Replace a directory node's child list. -/
def Node.withChildren : Node → List Node → Node
  | .DictNode nm _, cs => .DictNode nm cs
  | .PartialNode nm _, cs => .PartialNode nm cs
  | .ValueNode nm v, _ => .ValueNode nm v

/-- `self.name = nm`. -/
def Node.setName : Node → String → Node
  | .DictNode _ cs, nm => .DictNode nm cs
  | .PartialNode _ cs, nm => .PartialNode nm cs
  | .ValueNode _ v, nm => .ValueNode nm v

/-- `_DirNode.add_child`: append, with no name-collision check. -/
def Node.add_child (n c : Node) : Node :=
  n.withChildren (n.children ++ [c])

/-- `child(name)`: first child whose name matches; `None` on a leaf. -/
def Node.child (n : Node) (nm : String) : Option Node :=
  n.children.find? fun c => c.name == nm

/-- Replace the first child named `nm` (in-place mutation of the object
returned by `child(name)`). -/
def replaceChild (cs : List Node) (nm : String) (c' : Node) : List Node :=
  match cs with
  | [] => []
  | c :: rest =>
    if c.name == nm then c' :: rest else c :: replaceChild rest nm c'

/-- `children.remove(node)` where `node` is the first child named `nm`. -/
def removeChild (cs : List Node) (nm : String) : List Node :=
  match cs with
  | [] => []
  | c :: rest =>
    if c.name == nm then rest else c :: removeChild rest nm

def Node.replace_child (n : Node) (nm : String) (c' : Node) : Node :=
  n.withChildren (replaceChild n.children nm c')

/-! ## Python dict operations used by `state_dict` -/

/-- `d[k]` (first binding; the dicts built by the engine bind each key once). -/
def lookupD (d : PyDict) (k : String) : Option SDVal :=
  match d with
  | [] => none
  | (k', v) :: rest => if k' = k then some v else lookupD rest k

/-- `d[k] = v`: overwrite in place if the key is present, else append. -/
def update1 (d : PyDict) (k : String) (v : SDVal) : PyDict :=
  match d with
  | [] => [(k, v)]
  | (k', v') :: rest =>
    if k' = k then (k, v) :: rest else (k', v') :: update1 rest k v

/-- `d.update(e)`. -/
def dictUpdate (d e : PyDict) : PyDict :=
  e.foldl (fun acc p => update1 acc p.1 p.2) d

/-! ## Serialization (`state_dict` methods) -/

mutual

/-- `state_dict()` of a NON-root node.  `DictNode`: merge the children's
contributions and wrap them under the node's own name.  `PartialNode`: merge
and re-prefix every key with `"<name>."`.  `ValueNode`: `{name: value}`.
(The root `DictNode` returns its merged mapping unwrapped; see
`root_state_dict`.) -/
def Node.state_dict : Node → PyDict
  | .DictNode nm cs => [(nm, .vdict (state_dict_children cs))]
  | .PartialNode nm cs =>
    (state_dict_children cs).map fun p => (nm ++ "." ++ p.1, p.2)
  | .ValueNode nm v => [(nm, .vleaf v)]

/-- `ret = dict(); for child in children: ret.update(child.state_dict())`. -/
def state_dict_children : List Node → PyDict
  | [] => []
  | c :: cs => state_dict_go c.state_dict cs

/-- Tail of the update loop, with the accumulated dict so far. -/
def state_dict_go : PyDict → List Node → PyDict
  | acc, [] => acc
  | acc, c :: cs => state_dict_go (dictUpdate acc c.state_dict) cs

end

/-- `state_dict()` of the root (`self == self.parent`): the merged children
mapping with no wrapping key.  This is what `save` serializes. -/
def root_state_dict (root : Node) : PyDict :=
  state_dict_children root.children

/-! ## Building the tree (`Tree._from_state_dict`) -/

/-- Uncontrolled Python exceptions of the engine, plus the `MalformedInput`
fault the specification names for build-time collisions (the source never
produces it as a value; the constructor exists so that the specified
behaviour can be stated). -/
inductive PyErr where
  | attributeError   -- `ValueNode` has no `add_child` (hit by `Tree.insert`)
  | assertionError   -- `assert isinstance(next, PartialNode)` in build
  | malformedInput   -- named by the spec; never produced by the source

/-- The `elif '.' in name` branch of `_from_state_dict`: walk the chunks
`chunks[:-1]` from `parent`, reusing an existing child when present (and
asserting it is a `PartialNode`), creating a fresh `PartialNode` otherwise,
then attach `ValueNode(chunks[-1], value)` to the final group. -/
def insert_dotted (parent : Node) (chunks : List String) (x : Val) :
    Except PyErr Node :=
  match chunks with
  | [] => pure parent   -- unreachable: `split` never returns an empty list
  | [last] => pure (parent.add_child (.ValueNode last x))
  | chunk :: rest =>
    match parent.child chunk with
    | none => do
      let sub ← insert_dotted (.PartialNode chunk []) rest x
      pure (parent.add_child sub)
    | some next =>
      match next with
      | .PartialNode nm cs => do
        let sub ← insert_dotted (.PartialNode nm cs) rest x
        pure (parent.replace_child chunk sub)
      | _ => throw .assertionError

mutual

/-- One iteration of the stack loop of `_from_state_dict`, for the entry
`(v, name, parent)`: a `dict` value becomes a `DictNode` (its items are
pushed and, being on top of the stack, fully processed before anything
else); a dotted name becomes a `PartialNode` chain; otherwise a `ValueNode`
is attached directly. -/
def build_item (parent : Node) (name : String) (v : SDVal) :
    Except PyErr Node :=
  match v with
  | .vdict items => do
    let node ← build_items (.DictNode name []) items
    pure (parent.add_child node)
  | .vleaf x =>
    if hasDot name then insert_dotted parent (splitDot name) x
    else pure (parent.add_child (.ValueNode name x))

/-- Entries are pushed in mapping order and popped LIFO, so the items of a
mapping are processed last-first: recurse on the tail first, then process
the head into the resulting parent. -/
def build_items (parent : Node) : List (String × SDVal) → Except PyErr Node
  | [] => pure parent
  | (name, v) :: rest => do
    let parent' ← build_items parent rest
    build_item parent' name v

end

/-- `Tree._from_state_dict`: build the whole tree under the root
`DictNode(None, '')`. -/
def Tree.from_state_dict (sd : PyDict) : Except PyErr Node :=
  build_items (.DictNode "" []) sd

/-! ## Path resolution (`full_name`, `Tree.resolve`, `Tree.resolve_path`) -/

/-- `full_name` of the node at path `p`: `'/' + '/'.join(names root→node)`;
the root's full name is `/`. -/
def fullNameOf (p : List String) : String :=
  "/" ++ joinSlash p

/-- Look the node up at a canonical path (a chain of `child` lookups). -/
def nodeAt (root : Node) : List String → Option Node
  | [] => some root
  | s :: rest =>
    match root.child s with
    | some c => nodeAt c rest
    | none => none

/-- The segment loop of `Tree.resolve`, tracking the current node by its
canonical position `cur`: `''` and `.` are skipped, `..` moves to the parent
(dropping the last segment; a no-op at the root, whose parent is itself),
any other segment must be an existing child. -/
def resolveGo (root : Node) : List String → List String → Option (List String)
  | cur, [] => some cur
  | cur, e :: rest =>
    if e = "" ∨ e = "." then resolveGo root cur rest
    else if e = ".." then resolveGo root cur.dropLast rest
    else
      match (nodeAt root cur).bind fun n => n.child e with
      | some _ => resolveGo root (cur ++ [e]) rest
      | none => none

/-- `Tree.resolve(path, node)`: resolve `path` starting from the root when it
begins with `/`, from `cwd` otherwise; returns the canonical position of the
resolved node together with the node. -/
def Tree.resolve (root : Node) (cwd : List String) (path : String) :
    Option (List String × Node) :=
  let start := if startsWithS "/" path then [] else cwd
  match resolveGo root start (splitSlash path) with
  | some p => (nodeAt root p).map fun n => (p, n)
  | none => none

/-- The canonicalization loop of `Tree.resolve_path`: `''`/`.` are dropped,
`..` pops the last canonical segment if any (it cannot go above `/`). -/
def canonParts : List String → List String → List String
  | acc, [] => acc
  | acc, e :: rest =>
    if e = "" ∨ e = "." then canonParts acc rest
    else if e = ".." then canonParts acc.dropLast rest
    else canonParts (acc ++ [e]) rest

/-- `Tree.resolve_path(path, node)`: purely lexical canonicalization; a
relative path is first prefixed with the segments of the current node's
full name (`node.full_name.split('/')[1:]`). -/
def Tree.resolve_path (cwd : List String) (path : String) : String :=
  let parts := splitSlash path
  let parts :=
    if ¬ startsWithS "/" path then
      (splitSlash (fullNameOf cwd)).drop 1 ++ parts
    else parts
  fullNameOf (canonParts [] parts)

/-! ## `_dirname` / `_basename` -/

/-- Run-collapsing loop for `re.sub(r'/+', '/', path)`; the flag records
whether the previous kept character was a `/`. -/
def collapseGo : Bool → List Char → List Char
  | _, [] => []
  | prevSlash, c :: rest =>
    if c = '/' then
      if prevSlash then collapseGo true rest
      else '/' :: collapseGo true rest
    else c :: collapseGo false rest

/-- `re.sub(r'/+', '/', path)`. -/
def collapseSlashes (l : List Char) : List Char :=
  collapseGo false l

/-- `_dirname(path)`. -/
def dirname (path : String) : String :=
  let parts :=
    (((collapseSlashes path.data).splitOn '/').map
      fun l => (⟨l⟩ : String)).dropLast
  if parts = [""] then "/" else joinSlash parts

/-- `_basename(path)`. -/
def basename (path : String) : String :=
  (((collapseSlashes path.data).splitOn '/').map
    fun l => (⟨l⟩ : String)).getLastD ""

/-! ## `Tree.insert` -/

/-- The walk of `Tree.insert`, from the current node: empty segments are
skipped; an existing child is descended into (its later in-place mutation
modelled by `replace_child`); a missing child is created as a `PartialNode`;
finally `node` is attached to the last group reached.  Adding a child to a
`ValueNode` (which, inheriting from `_Node`, has neither `children` nor
`add_child`) raises `AttributeError` — an uncontrolled exception.  A raise
can only happen before any fresh `PartialNode` has been attached: once one
is created, all deeper segments are fresh `PartialNode`s too, so an
erroring `insert` has not changed the tree. -/
def insertGo (cur : Node) (parts : List String) (node : Node) :
    Except PyErr Node :=
  match parts with
  | [] =>
    match cur with
    | .ValueNode _ _ => throw .attributeError
    | _ => pure (cur.add_child node)
  | e :: rest =>
    if e = "" then insertGo cur rest node
    else
      match cur.child e with
      | some next => do
        let next' ← insertGo next rest node
        pure (cur.replace_child e next')
      | none =>
        match cur with
        | .ValueNode _ _ => throw .attributeError
        | _ => do
          let sub ← insertGo (.PartialNode e []) rest node
          pure (cur.add_child sub)

/-- `Tree.insert(path, node)`. -/
def Tree.insert (root : Node) (path : String) (node : Node) :
    Except PyErr Node :=
  insertGo root (splitSlash path) node

/-! ## `rm` with pruning (`CheckpointShell._rm_node`) -/

/-- `_rm_node`, path-addressed: detach the node at the given path from its
parent (`node.parent.children.remove(node)`), then walk upward pruning every
now-childless `PartialNode` ancestor (`while len(node.children) == 0 and
isinstance(node, PartialNode) and not node.is_root`).  In the recursion a
child that comes back childless and is a `PartialNode` is removed from its
parent in turn; the root is never pruned. -/
def rmNode (n : Node) : List String → Node
  | [] => n
  | [nm] => n.withChildren (removeChild n.children nm)
  | nm :: rest =>
    match n.child nm with
    | none => n   -- unreachable for a resolved path
    | some c =>
      let c' := rmNode c rest
      if c'.children.isEmpty && c'.isPartialNode then
        n.withChildren (removeChild n.children nm)
      else
        n.withChildren (replaceChild n.children nm c')

/-! ## The shell commands `mv`, `cp`, `rm` -/

/-- Outcome of a shell mutation command. -/
inductive OpOut where
  | ok            -- performed; `_dirty` is set
  | notFound      -- `'SRC' not found.`
  | noop          -- source full path equals destination: silent return
  | selfSubtree   -- `cannot move/copy ... to a subdirectory of itself`
  | overwrite     -- `cannot overwrite ...`
  | rootViolation -- `rm: cannot remove root directory.`
  | exc : PyErr → OpOut  -- uncontrolled exception escaping the command

/-- Attach `c` as a new last child of the node at `p`, if `p` still denotes
a node. -/
def addChildAt (root : Node) (p : List String) (c : Node) : Option Node :=
  match p with
  | [] => some (root.add_child c)
  | nm :: rest =>
    match root.child nm with
    | none => none
    | some ch => (addChildAt ch rest c).map (root.replace_child nm)

/-- `_Node.clone` as seen by the tree model: `deepcopy` produces an
independent copy with equal contents, so the clone is the same tree value,
the optional rename applying to the copy.  (The heap-level behaviour of
`clone` — parent pointer saved, nulled and restored — is modelled separately
by `cloneH`.) -/
def cloneNode (n : Node) (newName : Option String) : Node :=
  match newName with
  | some nm => n.setName nm
  | none => n

/-- `CheckpointShell.do_mv` (regex argument parsing aside): resolve the
source, lexically canonicalize the destination, and apply the no-op,
self-subtree and leaf-overwrite guards in that order; then either reparent
the source under an existing directory, or split the destination into
dirname/basename, insert and rename.  The removal (with pruning) of the
source happens before the attachment, exactly as in the source.  Returns
the outcome and the tree afterwards (for an escaping exception, the tree at
the moment it is raised). -/
def do_mv (root : Node) (cwd : List String) (src dst : String) :
    OpOut × Node :=
  match Tree.resolve root cwd src with
  | none => (.notFound, root)
  | some (sp, srcNode) =>
    let dest := Tree.resolve_path cwd dst
    let destR := Tree.resolve root cwd dest
    let srcFull := fullNameOf sp
    if srcFull = dest then (.noop, root)
    else if startsWithS (srcFull ++ "/") (dest ++ "/") then
      (.selfSubtree, root)
    else
      match destR with
      | some (dp, destNode) =>
        if destNode.is_directory then
          let t1 := rmNode root sp
          -- `dest_node.add_child(src_node)`: if pruning at the old location
          -- detached the destination node itself, the attachment happens on
          -- a node no longer reachable from the root, and the tree rooted
          -- at the root is just `t1`.
          match addChildAt t1 dp srcNode with
          | some t2 => (.ok, t2)
          | none => (.ok, t1)
        else (.overwrite, root)
      | none =>
        let destDir := dirname dest
        let destName := basename dest
        let t1 := rmNode root sp
        -- `insert(dest_dir, src_node)` followed by `src_node.name =
        -- dest_name`: nothing reads the node's name in between, so the
        -- rename is applied before attaching.
        match Tree.insert t1 destDir (srcNode.setName destName) with
        | .ok t2 => (.ok, t2)
        | .error e => (.exc e, t1)

/-- `CheckpointShell.do_cp`: same resolution and guards as `do_mv`, but the
source is cloned instead of detached and the original is left in place. -/
def do_cp (root : Node) (cwd : List String) (src dst : String) :
    OpOut × Node :=
  match Tree.resolve root cwd src with
  | none => (.notFound, root)
  | some (sp, srcNode) =>
    let dest := Tree.resolve_path cwd dst
    let srcFull := fullNameOf sp
    if srcFull = dest then (.noop, root)
    else if startsWithS (srcFull ++ "/") (dest ++ "/") then
      (.selfSubtree, root)
    else
      match Tree.resolve root cwd dest with
      | some (dp, destNode) =>
        if destNode.is_directory then
          match addChildAt root dp (cloneNode srcNode none) with
          | some t2 => (.ok, t2)
          | none => (.ok, root)   -- unreachable: `dp` was just resolved
        else (.overwrite, root)
      | none =>
        let destDir := dirname dest
        let destName := basename dest
        match Tree.insert root destDir (cloneNode srcNode (some destName)) with
        | .ok t2 => (.ok, t2)
        | .error e => (.exc e, root)

/-- `CheckpointShell.do_rm` (regex argument parsing aside). -/
def do_rm (root : Node) (cwd : List String) (path : String) :
    OpOut × Node :=
  match Tree.resolve root cwd path with
  | none => (.notFound, root)
  | some (p, _) =>
    if p.isEmpty then (.rootViolation, root)
    else (.ok, rmNode root p)

/-! ## Basic lemmas about the model -/

theorem Tree.resolve_nodeAt {root : Node} {cwd : List String} {path : String}
    {p : List String} {n : Node} (h : Tree.resolve root cwd path = some (p, n)) :
    nodeAt root p = some n := by
  unfold Tree.resolve at h
  simp only [] at h
  split at h
  case _ q hg =>
    cases hn : nodeAt root q with
    | none => rw [hn] at h; exact absurd h (by simp)
    | some m =>
      rw [hn] at h
      simp only [Option.map_some', Option.some.injEq, Prod.mk.injEq] at h
      obtain ⟨h1, h2⟩ := h
      rw [← h1, hn, h2]
  case _ => exact absurd h (by simp)

theorem startsWithS_ne {a b : String}
    (h : startsWithS (a ++ "/") b = true) : a ≠ b := by
  intro he
  subst he
  unfold startsWithS at h
  have hp := List.isPrefixOf_iff_prefix.mp h
  have hl := hp.length_le
  have hd : (a ++ "/").data = a.data ++ ['/'] := rfl
  rw [hd] at hl
  simp only [List.length_append, List.length_singleton] at hl
  omega

theorem startsWithS_extend {a b : String}
    (h : startsWithS a b = true) : startsWithS a (b ++ "/") = true := by
  unfold startsWithS at h ⊢
  have hp := List.isPrefixOf_iff_prefix.mp h
  exact List.isPrefixOf_iff_prefix.mpr
    (hp.trans (show b.data <+: (b ++ "/").data from List.prefix_append _ _))

/-! ## C2: self-subtree guard for `mv` and `cp` -/

/-- **C2** (self-subtree guard).  For every tree, every resolvable source
path and every destination path whose lexical canonicalization starts with
the source node's full name followed by `/`, both `mv` and `cp` fail with
the self-subtree violation (`cannot move/copy ... to a subdirectory of
itself`) and return the tree completely unchanged. -/
theorem mv_cp_self_subtree_guard
    (root : Node) (cwd : List String) (src dst : String)
    (sp : List String) (sn : Node)
    (hsrc : Tree.resolve root cwd src = some (sp, sn))
    (hpre : startsWithS (fullNameOf sp ++ "/") (Tree.resolve_path cwd dst) = true) :
    do_mv root cwd src dst = (.selfSubtree, root) ∧
    do_cp root cwd src dst = (.selfSubtree, root) := by
  have hne : fullNameOf sp ≠ Tree.resolve_path cwd dst := startsWithS_ne hpre
  have hsw : startsWithS (fullNameOf sp ++ "/")
      (Tree.resolve_path cwd dst ++ "/") = true := startsWithS_extend hpre
  constructor
  · unfold do_mv
    rw [hsrc]
    simp only [hne, hsw, if_false, if_true, ite_false, ite_true]
  · unfold do_cp
    rw [hsrc]
    simp only [hne, hsw, if_false, if_true, ite_false, ite_true]

/-- Witness for C2 on the tree `{"a": {"b": 1}}`, `mv /a /a/b/c`. -/
theorem mv_cp_self_subtree_guard_witness :
    do_mv (.DictNode "" [.DictNode "a" [.ValueNode "b" 1]]) [] "/a" "/a/b/c"
      = (.selfSubtree, .DictNode "" [.DictNode "a" [.ValueNode "b" 1]]) ∧
    do_cp (.DictNode "" [.DictNode "a" [.ValueNode "b" 1]]) [] "/a" "/a/b/c"
      = (.selfSubtree, .DictNode "" [.DictNode "a" [.ValueNode "b" 1]]) :=
  mv_cp_self_subtree_guard (.DictNode "" [.DictNode "a" [.ValueNode "b" 1]])
    [] "/a" "/a/b/c" ["a"] (.DictNode "a" [.ValueNode "b" 1]) rfl rfl

/-! ## C5: overwrite guard -/

/-- **C5, counterexample.**  On `{"a": {"b": 1}}` with `mv /a /a/b`, the
destination `/a/b` differs from the source's full path `/a` and resolves to
an existing Leaf, yet `mv` (and likewise `cp`) fails with the self-subtree
violation — not the overwrite violation — because the self-subtree check
runs first.  The claim that every such destination yields
`OverwriteViolation` is therefore false. -/
theorem overwrite_guard_counterexample :
    Tree.resolve (.DictNode "" [.DictNode "a" [.ValueNode "b" 1]]) []
        "/a/b" = some (["a", "b"], .ValueNode "b" 1) ∧
    fullNameOf ["a"] ≠ Tree.resolve_path [] "/a/b" ∧
    do_mv (.DictNode "" [.DictNode "a" [.ValueNode "b" 1]]) [] "/a" "/a/b"
      = (.selfSubtree, .DictNode "" [.DictNode "a" [.ValueNode "b" 1]]) ∧
    do_cp (.DictNode "" [.DictNode "a" [.ValueNode "b" 1]]) [] "/a" "/a/b"
      = (.selfSubtree, .DictNode "" [.DictNode "a" [.ValueNode "b" 1]]) ∧
    OpOut.selfSubtree ≠ OpOut.overwrite := by
  exact ⟨rfl, by decide, rfl, rfl, by simp⟩

/-- **C5, amended** (overwrite guard).  For every resolvable source and
every destination that is different from the source's full path, is *not*
below the source (otherwise the self-subtree guard fires first), and
resolves to an existing Leaf, both `mv` and `cp` fail with the overwrite
violation and leave the tree untouched. -/
theorem mv_cp_overwrite_guard
    (root : Node) (cwd : List String) (src dst : String)
    (sp : List String) (sn : Node) (dp : List String) (nm : String) (v : Val)
    (hsrc : Tree.resolve root cwd src = some (sp, sn))
    (hdst : Tree.resolve root cwd (Tree.resolve_path cwd dst)
      = some (dp, .ValueNode nm v))
    (hne : fullNameOf sp ≠ Tree.resolve_path cwd dst)
    (hnsub : startsWithS (fullNameOf sp ++ "/")
      (Tree.resolve_path cwd dst ++ "/") = false) :
    do_mv root cwd src dst = (.overwrite, root) ∧
    do_cp root cwd src dst = (.overwrite, root) := by
  constructor
  · unfold do_mv
    rw [hsrc]
    simp only [hne, hnsub, hdst, Node.is_directory, ite_false, if_false,
      Bool.false_eq_true, reduceIte]
  · unfold do_cp
    rw [hsrc]
    simp only [hne, hnsub, hdst, Node.is_directory, ite_false, if_false,
      Bool.false_eq_true, reduceIte]

/-- Witness for the amended C5 on `{"a": {"b": 1}, "c": 2}`, `mv /c /a/b`. -/
theorem mv_cp_overwrite_guard_witness :
    do_mv (.DictNode "" [.DictNode "a" [.ValueNode "b" 1], .ValueNode "c" 2])
        [] "/c" "/a/b"
      = (.overwrite,
         .DictNode "" [.DictNode "a" [.ValueNode "b" 1], .ValueNode "c" 2]) ∧
    do_cp (.DictNode "" [.DictNode "a" [.ValueNode "b" 1], .ValueNode "c" 2])
        [] "/c" "/a/b"
      = (.overwrite,
         .DictNode "" [.DictNode "a" [.ValueNode "b" 1], .ValueNode "c" 2]) :=
  mv_cp_overwrite_guard
    (.DictNode "" [.DictNode "a" [.ValueNode "b" 1], .ValueNode "c" 2])
    [] "/c" "/a/b" ["c"] (.ValueNode "c" 2) ["a", "b"] "b" 1 rfl rfl
    (by decide) rfl

/-! ## C4: atomicity of failing mutations -/

/-- **C4** (failure of atomicity; the code, not the claim, is at fault).
On `{"x": 1, "a": 2}`, `mv /x /a/b` first detaches `/x` (with pruning) and
only then calls `Tree.insert("/a", ...)`, which walks into the Leaf `/a`
and raises an uncontrolled `AttributeError` (a `ValueNode` has no
`add_child`).  The command neither succeeds nor reports a failure value,
and the tree after the exception has lost `/x`: a failing operation *has*
mutated the tree, contradicting the validate-before-mutate design. -/
theorem mv_failure_mutates_tree :
    do_mv (.DictNode "" [.ValueNode "x" 1, .ValueNode "a" 2]) [] "/x" "/a/b"
      = (.exc .attributeError, .DictNode "" [.ValueNode "a" 2]) ∧
    Node.DictNode "" [.ValueNode "a" 2]
      ≠ .DictNode "" [.ValueNode "x" 1, .ValueNode "a" 2] := by
  refine ⟨rfl, ?_⟩
  intro h
  obtain ⟨-, h2⟩ := Node.DictNode.injEq .. ▸ h
  exact absurd (congrArg List.length h2) (by simp)

/-! ## C7: `Tree.insert` through an existing Leaf -/

/-- **C7** (the claim is right, the code is wrong).  Inserting at a group
path whose traversed segment `/a` already exists as a Leaf makes
`Tree.insert` call `add_child` on a `ValueNode`; since `_Node` defines no
`add_child`, Python raises an uncontrolled `AttributeError` instead of
reporting a failure value.  The tree is unchanged at that point (no fresh
`PartialNode` has been attached), but the operation terminates
uncontrolledly. -/
theorem insert_through_leaf_raises :
    Tree.insert (.DictNode "" [.ValueNode "a" 1]) "/a/b" (.ValueNode "z" 5)
      = .error .attributeError ∧
    Tree.insert (.DictNode "" [.ValueNode "a" 1]) "/a" (.ValueNode "z" 5)
      = .error .attributeError := ⟨rfl, rfl⟩

/-! ## C8: build-time dotted-key collision -/

/-- **C8, counterexample.**  On the input `{"a.b": 2, "a": 1}` (in that
insertion order, so that `"a"` is popped from the stack first), the
dot-split segment `a` of `"a.b"` collides with the Leaf built from `"a"`;
`_from_state_dict` fails via its bare `assert isinstance(next,
PartialNode)` — an uncontrolled `AssertionError` — and not with a reported
`MalformedInput` value as the claim states. -/
theorem build_collision_counterexample :
    Tree.from_state_dict [("a.b", .vleaf 2), ("a", .vleaf 1)]
      = .error .assertionError ∧
    (Except.error PyErr.assertionError : Except PyErr Node)
      ≠ .error .malformedInput := by
  refine ⟨rfl, ?_⟩
  intro h
  exact absurd (Except.error.inj h) (by simp)

/-- **C8, amended.**  When a dot-split non-final segment of a key collides
with a Leaf created from an earlier-processed key — here `{"a.b": y,
"a": x}`, for arbitrary leaf values `x` and `y` — build fails by raising
`AssertionError` (uncontrolled termination), not with a `MalformedInput`
error value. -/
theorem build_collision_asserts (x y : Val) :
    Tree.from_state_dict [("a.b", .vleaf y), ("a", .vleaf x)]
      = .error .assertionError := rfl

/-! ## C6: sibling-name uniqueness -/

mutual

/-- Sibling names are pairwise distinct throughout the tree. -/
def uniqNames : Node → Bool
  | .ValueNode _ _ => true
  | .DictNode _ cs => uniqList cs
  | .PartialNode _ cs => uniqList cs

def uniqList : List Node → Bool
  | [] => true
  | c :: cs =>
    uniqNames c && !(cs.any fun d => d.name == c.name) && uniqList cs

end

/-- **C6, counterexample.**  On `{"b": {"a": 7}, "a": 1}` the tree has
unique sibling names, but `mv /a /b` — moving into an existing directory
that already contains a child named `a` — appends blindly
(`add_child` has no collision check) and produces two siblings named `a`.
`build` offers no guarantee either: `{"a": {"x": 1}, "a.b": 2}` (the
dotted key processed first, LIFO) builds a root with two children named
`a` — a `PartialNode` from the dotted split and a `DictNode` from the
nested mapping, attached with no collision check. -/
theorem mv_duplicate_siblings_counterexample :
    uniqNames (.DictNode "" [.ValueNode "a" 1, .DictNode "b" [.ValueNode "a" 7]])
      = true ∧
    do_mv (.DictNode "" [.ValueNode "a" 1, .DictNode "b" [.ValueNode "a" 7]])
        [] "/a" "/b"
      = (.ok, .DictNode "" [.DictNode "b" [.ValueNode "a" 7, .ValueNode "a" 1]]) ∧
    uniqNames (.DictNode "" [.DictNode "b" [.ValueNode "a" 7, .ValueNode "a" 1]])
      = false ∧
    Tree.from_state_dict
        [("a", .vdict [("x", .vleaf 1)]), ("a.b", .vleaf 2)]
      = .ok (.DictNode "" [.PartialNode "a" [.ValueNode "b" 2],
          .DictNode "a" [.ValueNode "x" 1]]) ∧
    uniqNames (.DictNode "" [.PartialNode "a" [.ValueNode "b" 2],
        .DictNode "a" [.ValueNode "x" 1]])
      = false := ⟨rfl, rfl, rfl, rfl, rfl⟩

/-! ## C3: delete with `PartialNode` pruning -/

theorem find?_removeChild_ne {cs : List Node} {nm s : String} (h : s ≠ nm) :
    (removeChild cs nm).find? (fun c => c.name == s)
      = cs.find? fun c => c.name == s := by
  induction cs with
  | nil => rfl
  | cons c rest ih =>
    by_cases hc : c.name = nm
    · rw [show removeChild (c :: rest) nm = rest by simp [removeChild, hc]]
      rw [List.find?_cons_of_neg _ (by simp [hc, Ne.symm h])]
    · rw [show removeChild (c :: rest) nm = c :: removeChild rest nm by
        simp [removeChild, hc]]
      cases hcs : (c.name == s) with
      | true =>
        rw [List.find?_cons_of_pos _ (by simp [hcs]),
          List.find?_cons_of_pos _ (by simp [hcs])]
      | false =>
        rw [List.find?_cons_of_neg _ (by simp [hcs]),
          List.find?_cons_of_neg _ (by simp [hcs]), ih]

theorem find?_replaceChild_ne {cs : List Node} {nm s : String} {c' : Node}
    (h : s ≠ nm) (hn : c'.name = nm) :
    (replaceChild cs nm c').find? (fun c => c.name == s)
      = cs.find? fun c => c.name == s := by
  induction cs with
  | nil => rfl
  | cons c rest ih =>
    by_cases hc : c.name = nm
    · rw [show replaceChild (c :: rest) nm c' = c' :: rest by
        simp [replaceChild, hc]]
      rw [List.find?_cons_of_neg _ (by simp [hn, Ne.symm h]),
        List.find?_cons_of_neg _ (by simp [hc, Ne.symm h])]
    · rw [show replaceChild (c :: rest) nm c' = c :: replaceChild rest nm c' by
        simp [replaceChild, hc]]
      cases hcs : (c.name == s) with
      | true =>
        rw [List.find?_cons_of_pos _ (by simp [hcs]),
          List.find?_cons_of_pos _ (by simp [hcs])]
      | false =>
        rw [List.find?_cons_of_neg _ (by simp [hcs]),
          List.find?_cons_of_neg _ (by simp [hcs]), ih]

theorem find?_replaceChild_eq {cs : List Node} {nm : String} {c c' : Node}
    (h : cs.find? (fun d => d.name == nm) = some c) (hn : c'.name = nm) :
    (replaceChild cs nm c').find? (fun d => d.name == nm) = some c' := by
  induction cs with
  | nil => simp at h
  | cons d rest ih =>
    by_cases hd : d.name = nm
    · rw [show replaceChild (d :: rest) nm c' = c' :: rest by
        simp [replaceChild, hd]]
      rw [List.find?_cons_of_pos _ (by simp [hn])]
    · rw [show replaceChild (d :: rest) nm c' = d :: replaceChild rest nm c' by
        simp [replaceChild, hd]]
      rw [List.find?_cons_of_neg _ (by simp [hd])]
      rw [List.find?_cons_of_neg _ (by simp [hd])] at h
      exact ih h

theorem rmNode_name (n : Node) (p : List String) :
    (rmNode n p).name = n.name := by
  unfold rmNode
  split
  · rfl
  · cases n <;> rfl
  · split
    · rfl
    · simp only []
      split <;> (cases n <;> rfl)

theorem nodeAt_nil (n : Node) : nodeAt n [] = some n := rfl

theorem nodeAt_cons (n : Node) (s : String) (q : List String) :
    nodeAt n (s :: q)
      = match n.child s with
        | some c => nodeAt c q
        | none => none := rfl

theorem Node.child_name {n : Node} {nm : String} {c : Node}
    (h : n.child nm = some c) : c.name = nm := by
  have := List.find?_some h
  simpa using this

theorem child_withChildren_removeChild {root : Node} {nm₀ s : String}
    (hs : s ≠ nm₀) :
    (root.withChildren (removeChild root.children nm₀)).child s
      = root.child s := by
  cases root with
  | ValueNode nm v => rfl
  | DictNode nm cs => exact find?_removeChild_ne hs
  | PartialNode nm cs => exact find?_removeChild_ne hs

theorem child_withChildren_replaceChild {root : Node} {nm₀ s : String}
    {c' : Node} (hs : s ≠ nm₀) (hn : c'.name = nm₀) :
    (root.withChildren (replaceChild root.children nm₀ c')).child s
      = root.child s := by
  cases root with
  | ValueNode nm v => rfl
  | DictNode nm cs => exact find?_replaceChild_ne hs hn
  | PartialNode nm cs => exact find?_replaceChild_ne hs hn

theorem child_withChildren_replaceChild_eq {root : Node} {nm₀ : String}
    {c c' : Node} (h : root.child nm₀ = some c) (hn : c'.name = nm₀) :
    (root.withChildren (replaceChild root.children nm₀ c')).child nm₀
      = some c' := by
  cases root with
  | ValueNode nm v => exact absurd h (by simp [Node.child, Node.children])
  | DictNode nm cs => exact find?_replaceChild_eq h hn
  | PartialNode nm cs => exact find?_replaceChild_eq h hn

theorem nodeAt_cons_some {n : Node} {s : String} {q : List String} {c : Node}
    (h : n.child s = some c) : nodeAt n (s :: q) = nodeAt c q := by
  rw [nodeAt_cons, h]

theorem nodeAt_cons_none {n : Node} {s : String} {q : List String}
    (h : n.child s = none) : nodeAt n (s :: q) = none := by
  rw [nodeAt_cons, h]

theorem rmNode_cons_cons_none {n : Node} {a b : String} {t : List String}
    (h : n.child a = none) : rmNode n (a :: b :: t) = n := by
  show (match n.child a with
    | none => n
    | some c =>
      if (rmNode c (b :: t)).children.isEmpty
          && (rmNode c (b :: t)).isPartialNode then
        n.withChildren (removeChild n.children a)
      else n.withChildren (replaceChild n.children a (rmNode c (b :: t)))) = n
  rw [h]

theorem rmNode_cons_cons_some {n : Node} {a b : String} {t : List String}
    {c : Node} (h : n.child a = some c) :
    rmNode n (a :: b :: t)
      = if (rmNode c (b :: t)).children.isEmpty
            && (rmNode c (b :: t)).isPartialNode then
          n.withChildren (removeChild n.children a)
        else n.withChildren (replaceChild n.children a (rmNode c (b :: t))) := by
  show (match n.child a with
    | none => n
    | some c =>
      if (rmNode c (b :: t)).children.isEmpty
          && (rmNode c (b :: t)).isPartialNode then
        n.withChildren (removeChild n.children a)
      else n.withChildren (replaceChild n.children a (rmNode c (b :: t)))) = _
  rw [h]

/-- A node that still resolves some path to a `DictNode` cannot satisfy the
pruning condition (childless `PartialNode`). -/
theorem not_prunable_of_nodeAt_dict {m : Node} {q : List String} {nm : String}
    {cs : List Node} (h : nodeAt m q = some (.DictNode nm cs)) :
    (m.children.isEmpty && m.isPartialNode) = false := by
  cases q with
  | nil =>
    rw [nodeAt_nil] at h
    cases h
    simp [Node.isPartialNode]
  | cons s qrest =>
    rw [nodeAt_cons] at h
    cases hc : m.child s with
    | none => rw [hc] at h; exact absurd h (by simp)
    | some c =>
      have hne : m.children ≠ [] := by
        intro he
        unfold Node.child at hc
        rw [he] at hc
        exact absurd hc (by simp)
      simp [List.isEmpty_iff, hne]

/-- `rm` never removes or retypes a `DictNode` other than its own target:
any `DictNode` whose path is not an extension of the removed path survives
with its name and kind (only its child list may change along the removal
path). -/
theorem rmNode_preserves_dict_nodes (p : List String) :
    ∀ (root : Node) (q : List String) (nm : String) (cs : List Node),
      nodeAt root q = some (.DictNode nm cs) → ¬ p <+: q →
      ∃ cs', nodeAt (rmNode root p) q = some (.DictNode nm cs') := by
  induction p with
  | nil => exact fun root q nm cs _ hnp => absurd List.nil_prefix hnp
  | cons nm₀ rest ih =>
    intro root q nm cs hq hnp
    cases rest with
    | nil =>
      rw [show rmNode root [nm₀]
        = root.withChildren (removeChild root.children nm₀) from rfl]
      cases q with
      | nil =>
        rw [nodeAt_nil] at hq
        cases hq
        exact ⟨_, rfl⟩
      | cons s qrest =>
        have hs : s ≠ nm₀ := by
          intro he
          exact hnp (by simp [he, List.cons_prefix_cons])
        cases hc : root.child s with
        | none => rw [nodeAt_cons_none hc] at hq; exact absurd hq (by simp)
        | some c =>
          rw [nodeAt_cons_some hc] at hq
          refine ⟨cs, ?_⟩
          rw [nodeAt_cons, child_withChildren_removeChild hs, hc]
          exact hq
    | cons r rs =>
      cases hc0 : root.child nm₀ with
      | none => rw [rmNode_cons_cons_none hc0]; exact ⟨cs, hq⟩
      | some c =>
        have hcname : c.name = nm₀ := Node.child_name hc0
        have hname : (rmNode c (r :: rs)).name = nm₀ := by
          rw [rmNode_name]; exact hcname
        rw [rmNode_cons_cons_some hc0]
        cases q with
        | nil =>
          rw [nodeAt_nil] at hq
          cases hq
          by_cases hcond : ((rmNode c (r :: rs)).children.isEmpty
              && (rmNode c (r :: rs)).isPartialNode) = true
          · rw [if_pos hcond]; exact ⟨_, rfl⟩
          · rw [if_neg hcond]; exact ⟨_, rfl⟩
        | cons s qrest =>
          by_cases hs : s = nm₀
          · subst hs
            have hrq : ¬ (r :: rs) <+: qrest := by
              intro hpre
              exact hnp (List.cons_prefix_cons.mpr ⟨rfl, hpre⟩)
            rw [nodeAt_cons_some hc0] at hq
            obtain ⟨cs', hcs'⟩ := ih c qrest nm cs hq hrq
            rw [if_neg (by rw [not_prunable_of_nodeAt_dict hcs']; simp)]
            refine ⟨cs', ?_⟩
            rw [nodeAt_cons_some (child_withChildren_replaceChild_eq hc0 hname)]
            exact hcs'
          · cases hc : root.child s with
            | none => rw [nodeAt_cons_none hc] at hq; exact absurd hq (by simp)
            | some d =>
              rw [nodeAt_cons_some hc] at hq
              refine ⟨cs, ?_⟩
              by_cases hcond : ((rmNode c (r :: rs)).children.isEmpty
                  && (rmNode c (r :: rs)).isPartialNode) = true
              · rw [if_pos hcond, nodeAt_cons,
                  child_withChildren_removeChild hs, hc]
                exact hq
              · rw [if_neg hcond, nodeAt_cons,
                  child_withChildren_replaceChild hs hname, hc]
                exact hq

theorem do_rm_resolved {root : Node} {cwd : List String} {path : String}
    {p : List String} {n : Node}
    (h : Tree.resolve root cwd path = some (p, n)) :
    do_rm root cwd path
      = if p.isEmpty then (.rootViolation, root) else (.ok, rmNode root p) := by
  show (match Tree.resolve root cwd path with
    | none => ((.notFound, root) : OpOut × Node)
    | some (p, _) =>
      if p.isEmpty then (.rootViolation, root) else (.ok, rmNode root p)) = _
  rw [h]

/-- **C3** (delete pruning).  `rm` on a resolvable non-root node performs
exactly `rmNode` — detach, then prune now-childless `PartialNode` ancestors
bottom-up, stopping at the first non-empty or non-`PartialNode` ancestor or
at the root; `DictNode` (Group) ancestors are never auto-pruned (second
conjunct).  In particular, on the tree built from
`{"a.b.c": 1, "a.b.d": 2}`, `rm /a/b/c` leaves `/a/b/d` intact and keeps
`/a/b`, and a subsequent `rm /a/b/d` prunes `/a/b` and `/a`, leaving the
root empty. -/
theorem rm_pruning_behaviour :
    (∀ (root : Node) (cwd : List String) (path : String)
        (p : List String) (n : Node),
      Tree.resolve root cwd path = some (p, n) → p ≠ [] →
      do_rm root cwd path = (.ok, rmNode root p)) ∧
    (∀ (root : Node) (p q : List String) (nm : String) (cs : List Node),
      nodeAt root q = some (.DictNode nm cs) → ¬ p <+: q →
      ∃ cs', nodeAt (rmNode root p) q = some (.DictNode nm cs')) ∧
    Tree.from_state_dict [("a.b.c", .vleaf 1), ("a.b.d", .vleaf 2)]
      = .ok (.DictNode "" [.PartialNode "a" [.PartialNode "b"
          [.ValueNode "d" 2, .ValueNode "c" 1]]]) ∧
    do_rm (.DictNode "" [.PartialNode "a" [.PartialNode "b"
        [.ValueNode "d" 2, .ValueNode "c" 1]]]) [] "/a/b/c"
      = (.ok, .DictNode "" [.PartialNode "a" [.PartialNode "b"
          [.ValueNode "d" 2]]]) ∧
    nodeAt (.DictNode "" [.PartialNode "a" [.PartialNode "b"
        [.ValueNode "d" 2]]]) ["a", "b", "d"] = some (.ValueNode "d" 2) ∧
    do_rm (.DictNode "" [.PartialNode "a" [.PartialNode "b"
        [.ValueNode "d" 2]]]) [] "/a/b/d"
      = (.ok, .DictNode "" []) := by
  refine ⟨?_, ?_, rfl, rfl, rfl, rfl⟩
  · intro root cwd path p n h hp
    rw [do_rm_resolved h, if_neg (by simp [List.isEmpty_iff, hp])]
  · exact fun root p q nm cs h hnp =>
      rmNode_preserves_dict_nodes p root q nm cs h hnp

/-- Witness for C3: instantiating both universally quantified conjuncts on
the claim's own tree and on the root `DictNode`. -/
theorem rm_pruning_behaviour_witness :
    do_rm (.DictNode "" [.PartialNode "a" [.PartialNode "b"
        [.ValueNode "d" 2, .ValueNode "c" 1]]]) [] "/a/b/c"
      = (.ok, rmNode (.DictNode "" [.PartialNode "a" [.PartialNode "b"
          [.ValueNode "d" 2, .ValueNode "c" 1]]]) ["a", "b", "c"]) ∧
    ∃ cs', nodeAt (rmNode (.DictNode "" [.PartialNode "a" [.PartialNode "b"
        [.ValueNode "d" 2, .ValueNode "c" 1]]]) ["a", "b", "c"]) []
      = some (.DictNode "" cs') :=
  ⟨rm_pruning_behaviour.1 _ [] "/a/b/c" ["a", "b", "c"] (.ValueNode "c" 1)
      rfl (by simp),
   rm_pruning_behaviour.2.1 _ ["a", "b", "c"] [] ""
      [.PartialNode "a" [.PartialNode "b" [.ValueNode "d" 2, .ValueNode "c" 1]]]
      rfl (by simp)⟩

/-! ## C10: heap-level model of `_Node.clone`

`clone` temporarily mutates the original node's `parent` attribute, which
the tree-level functional model cannot observe.  This section models the
Python object graph explicitly: a heap is a list of node records addressed
by their index. -/

/-- A node record in the heap model: `parent` is `none` exactly when the
attribute holds Python `None` (as happens transiently inside `clone`);
"the root is its own parent" is `parent = some` of the record's own index.
`value` is `some` for `ValueNode`s. -/
structure HNode where
  parent : Option Nat
  name : String
  childIds : List Nat
  value : Option Val

mutual

/-- `deepcopy(self)` with `self.parent == None`: the reachable object graph
is exactly the subtree below `self` (children lists, and parent pointers
that stay inside the subtree), so the copy allocates one fresh record per
subtree node — appended at the end of the heap — wiring each copy's parent
to its copy-parent and the root copy's parent to `None`.  `fuel` bounds the
recursion (one unit per copied node suffices); the Python recursion
terminates because the object graph below a node is a finite tree. -/
def copySub : Nat → List HNode → Nat → Option Nat → Option (List HNode × Nat)
  | 0, _, _, _ => none
  | fuel + 1, h, src, np =>
    match h[src]? with
    | none => none
    | some sn =>
      let cid := h.length
      let h1 := h ++ [{ sn with parent := np, childIds := [] }]
      match copyKids fuel h1 sn.childIds cid with
      | none => none
      | some (h2, kids) =>
        some (h2.set cid { sn with parent := np, childIds := kids }, cid)

/-- Copy each child in order, with the (already allocated) copy of the
parent as the new parent. -/
def copyKids : Nat → List HNode → List Nat → Nat →
    Option (List HNode × List Nat)
  | _, h, [], _ => some (h, [])
  | 0, _, _ :: _, _ => none
  | fuel + 1, h, k :: ks, np =>
    match copySub fuel h k (some np) with
    | none => none
    | some (h1, c) =>
      match copyKids fuel h1 ks np with
      | none => none
      | some (h2, cs) => some (h2, c :: cs)

end

/-- `_Node.clone(self, clone_parent, name=None)` on the heap, line by line:
save `self.parent`; `self.parent = None`; `clone = deepcopy(self)`;
`clone.parent = clone_parent`; restore `self.parent = parent`; if a name
was given, `clone.name = name`.  Returns the new heap and the clone's
index. -/
def cloneH (h : List HNode) (nid : Nat) (cloneParent : Option Nat)
    (newName : Option String) : Option (List HNode × Nat) :=
  match h[nid]? with
  | none => none
  | some n =>
    let saved := n.parent
    let h1 := h.set nid { n with parent := none }
    match copySub (h1.length + 1) h1 nid none with
    | none => none
    | some (h2, cid) =>
      match h2[cid]? with
      | none => none
      | some c =>
        let h3 := h2.set cid { c with parent := cloneParent }
        match h3[nid]? with
        | none => none
        | some nOrig =>
          let h4 := h3.set nid { nOrig with parent := saved }
          match newName with
          | some nm =>
            match h4[cid]? with
            | none => none
            | some cr => some (h4.set cid { cr with name := nm }, cid)
          | none => some (h4, cid)


/-- Frame property of `deepcopy`: it only appends fresh records; every
pre-existing heap slot is untouched, and the copy's index is the old heap
size. -/
theorem copy_frame (fuel : Nat) :
    (∀ (h : List HNode) (src : Nat) (np : Option Nat)
        (h2 : List HNode) (cid : Nat),
      copySub fuel h src np = some (h2, cid) →
      (∀ i, i < h.length → h2[i]? = h[i]?) ∧ h.length < h2.length
        ∧ cid = h.length) ∧
    (∀ (ks : List Nat) (h : List HNode) (np : Nat)
        (h2 : List HNode) (cs : List Nat),
      copyKids fuel h ks np = some (h2, cs) →
      (∀ i, i < h.length → h2[i]? = h[i]?) ∧ h.length ≤ h2.length) := by
  induction fuel with
  | zero =>
    refine ⟨fun h src np h2 cid hc => absurd hc (by simp [copySub]), ?_⟩
    intro ks h np h2 cs hc
    cases ks with
    | nil =>
      rw [show copyKids 0 h [] np = some (h, []) from rfl] at hc
      simp only [Option.some.injEq, Prod.mk.injEq] at hc
      obtain ⟨rfl, rfl⟩ := hc
      exact ⟨fun i _ => rfl, le_refl _⟩
    | cons k ks =>
      rw [show copyKids 0 h (k :: ks) np = none from rfl] at hc
      exact absurd hc (by simp)
  | succ fuel ih =>
    constructor
    · intro h src np h2 cid hc
      rw [show copySub (fuel + 1) h src np
        = (match h[src]? with
          | none => none
          | some sn =>
            match copyKids fuel
                (h ++ [{ sn with parent := np, childIds := [] }])
                sn.childIds h.length with
            | none => none
            | some (h2, kids) =>
              some (h2.set h.length { sn with parent := np, childIds := kids },
                h.length)) from rfl] at hc
      split at hc
      · exact absurd hc (by simp)
      · next sn hs =>
        split at hc
        · exact absurd hc (by simp)
        · next h2' kids hk =>
          simp only [Option.some.injEq, Prod.mk.injEq] at hc
          obtain ⟨rfl, rfl⟩ := hc
          obtain ⟨hfr, hlen⟩ := ih.2 sn.childIds _ h.length h2' kids hk
          have hlen1 : h.length + 1 ≤ h2'.length := by simpa using hlen
          refine ⟨?_, ?_, rfl⟩
          · intro i hi
            rw [List.getElem?_set_ne (by omega : h.length ≠ i),
              hfr i (by simp; omega)]
            exact List.getElem?_append_left hi
          · simp only [List.length_set]
            omega
    · intro ks h np h2 cs hc
      cases ks with
      | nil =>
        rw [show copyKids (fuel + 1) h [] np = some (h, []) from rfl] at hc
        simp only [Option.some.injEq, Prod.mk.injEq] at hc
        obtain ⟨rfl, rfl⟩ := hc
        exact ⟨fun i _ => rfl, le_refl _⟩
      | cons k ks =>
        rw [show copyKids (fuel + 1) h (k :: ks) np
          = (match copySub fuel h k (some np) with
            | none => none
            | some (h1, c) =>
              match copyKids fuel h1 ks np with
              | none => none
              | some (h2, cs) => some (h2, c :: cs)) from rfl] at hc
        split at hc
        · exact absurd hc (by simp)
        · next h1 c h1c =>
          split at hc
          · exact absurd hc (by simp)
          · next h2' cs' h2c =>
            simp only [Option.some.injEq, Prod.mk.injEq] at hc
            obtain ⟨rfl, rfl⟩ := hc
            obtain ⟨hfr1, hlt1, -⟩ := ih.1 h k (some np) h1 c h1c
            obtain ⟨hfr2, hle2⟩ := ih.2 ks h1 np h2' cs' h2c
            refine ⟨?_, by omega⟩
            intro i hi
            rw [hfr2 i (by omega), hfr1 i hi]

/-- **C10** (frame property of `clone`).  Whenever
`clone(clone_parent, name)` succeeds, every pre-existing heap record —
including the cloned node itself, whose `parent` is transiently set to
`None` and restored before returning — is exactly as before the call, the
clone is a fresh record (its index is the old heap size), and the clone's
parent is `clone_parent`. -/
theorem clone_frame_effect
    (h : List HNode) (nid : Nat) (cloneParent : Option Nat)
    (newName : Option String) (h' : List HNode) (cid : Nat)
    (hc : cloneH h nid cloneParent newName = some (h', cid)) :
    (∀ i, i < h.length → h'[i]? = h[i]?) ∧
    cid = h.length ∧
    ∃ c, h'[cid]? = some c ∧ c.parent = cloneParent := by
  unfold cloneH at hc
  simp only [] at hc
  split at hc
  · exact absurd hc (by simp)
  · next n hn =>
    have hnlt : nid < h.length := by
      obtain ⟨hlt, -⟩ := List.getElem?_eq_some_iff.mp hn
      exact hlt
    split at hc
    · exact absurd hc (by simp)
    · next h2 cid' hcs =>
      obtain ⟨hfr, hlt2, hcid⟩ :=
        (copy_frame _).1 _ nid none h2 cid' hcs
      rw [List.length_set] at hfr hlt2 hcid
      have hn1 : h2[nid]? = some { n with parent := none } := by
        rw [hfr nid hnlt]
        exact List.getElem?_set_eq hnlt
      split at hc
      · exact absurd hc (by simp)
      · next c hc2 =>
        have hcidlt : cid' < h2.length := by
          obtain ⟨hlt, -⟩ := List.getElem?_eq_some_iff.mp hc2
          exact hlt
        have hne : nid ≠ cid' := by omega
        split at hc
        · exact absurd hc (by simp)
        · next nOrig hn3 =>
          -- the record read back at `nid` is the transiently modified one
          have hnOrig : nOrig = { n with parent := none } := by
            rw [List.getElem?_set_ne (Ne.symm hne), hn1] at hn3
            exact (Option.some.injEq _ _ ▸ hn3.symm)
          -- restoring the parent gives back the original record
          have hrestore :
              ({ nOrig with parent := n.parent } : HNode) = n := by
            rw [hnOrig]
          -- the common frame for all pre-existing slots, after the restore
          have hframe4 : ∀ i, i < h.length →
              ((h2.set cid' { c with parent := cloneParent }).set nid
                { nOrig with parent := n.parent })[i]? = h[i]? := by
            intro i hi
            by_cases hinid : i = nid
            · subst hinid
              rw [List.getElem?_set_eq (by simp [List.length_set]; omega),
                hrestore, hn]
            · rw [List.getElem?_set_ne (fun hh => hinid hh.symm),
                List.getElem?_set_ne (by omega : cid' ≠ i), hfr i hi,
                List.getElem?_set_ne (fun hh => hinid hh.symm)]
          have hclone4 :
              ((h2.set cid' { c with parent := cloneParent }).set nid
                { nOrig with parent := n.parent })[cid']?
              = some { c with parent := cloneParent } := by
            rw [List.getElem?_set_ne hne]
            exact List.getElem?_set_eq hcidlt
          split at hc
          · next nm =>
            split at hc
            · exact absurd hc (by simp)
            · next cr hcr =>
              simp only [Option.some.injEq, Prod.mk.injEq] at hc
              obtain ⟨rfl, rfl⟩ := hc
              have hcrv : cr = { c with parent := cloneParent } := by
                rw [hclone4] at hcr
                exact (Option.some.injEq _ _ ▸ hcr.symm)
              refine ⟨?_, hcid, ?_⟩
              · intro i hi
                rw [List.getElem?_set_ne (by omega : cid' ≠ i)]
                exact hframe4 i hi
              · refine ⟨{ cr with name := nm }, ?_, by rw [hcrv]⟩
                exact List.getElem?_set_eq (by simp [List.length_set]; omega)
          · simp only [Option.some.injEq, Prod.mk.injEq] at hc
            obtain ⟨rfl, rfl⟩ := hc
            exact ⟨hframe4, hcid,
              ⟨{ c with parent := cloneParent }, hclone4, rfl⟩⟩

/-- Witness for C10: cloning the leaf `x` of a two-node heap under the root
with a rename. -/
theorem clone_frame_effect_witness :
    (∀ i, i < 2 →
      ([⟨some 0, "", [1], none⟩, ⟨some 0, "x", [], some 5⟩,
        ⟨some 0, "y", [], some 5⟩] : List HNode)[i]?
        = ([⟨some 0, "", [1], none⟩, ⟨some 0, "x", [], some 5⟩] :
            List HNode)[i]?) ∧
    (2 : Nat) = 2 ∧
    ∃ c, ([⟨some 0, "", [1], none⟩, ⟨some 0, "x", [], some 5⟩,
        ⟨some 0, "y", [], some 5⟩] : List HNode)[(2 : Nat)]? = some c
      ∧ c.parent = some 0 :=
  clone_frame_effect
    [⟨some 0, "", [1], none⟩, ⟨some 0, "x", [], some 5⟩] 1 (some 0)
    (some "y")
    [⟨some 0, "", [1], none⟩, ⟨some 0, "x", [], some 5⟩,
      ⟨some 0, "y", [], some 5⟩] 2 rfl

/-! ## Canonical paths: string-level toolkit -/

theorem not_mem_of_mem_splitOn {α : Type} [DecidableEq α] (sep : α) :
    ∀ (l : List α) (c : List α), c ∈ l.splitOn sep → sep ∉ c := by
  intro l
  induction l with
  | nil =>
    intro c hc
    simp only [List.splitOn_nil, List.mem_singleton] at hc
    simp [hc]
  | cons a t ih =>
    intro c hc
    rw [List.splitOn, List.splitOnP_cons] at hc
    by_cases ha : a = sep
    · rw [if_pos (by simp [ha])] at hc
      rcases List.mem_cons.mp hc with h | h
      · simp [h]
      · exact ih c h
    · rw [if_neg (by simp [ha])] at hc
      cases hs : t.splitOnP (· == sep) with
      | nil => exact absurd hs (List.splitOnP_ne_nil _ t)
      | cons hd tl =>
        rw [hs] at hc
        simp only [List.modifyHead, List.mem_cons] at hc
        rcases hc with h | h
        · subst h
          intro hmem
          rcases List.mem_cons.mp hmem with h | h
          · exact ha h.symm
          · exact ih hd (by rw [List.splitOn, hs]; exact List.mem_cons_self _ _) h
        · exact ih c (by rw [List.splitOn, hs]; exact List.mem_cons_of_mem _ h)

/-- Every segment produced by `splitSlash` is slash-free. -/
theorem splitSlash_no_slash {s : String} {e : String} (h : e ∈ splitSlash s) :
    '/' ∉ e.data := by
  unfold splitSlash at h
  obtain ⟨c, hc, rfl⟩ := List.mem_map.mp h
  exact not_mem_of_mem_splitOn '/' s.data c hc

/-- Members of the canonicalized segment list come from the member pool of
the input (or the accumulator) and are none of `""`, `"."`, `".."`. -/
theorem canonParts_cons (acc : List String) (p : String)
    (rest : List String) :
    canonParts acc (p :: rest)
      = if p = "" ∨ p = "." then canonParts acc rest
        else if p = ".." then canonParts acc.dropLast rest
        else canonParts (acc ++ [p]) rest := rfl

theorem mem_canonParts :
    ∀ (parts acc : List String) (e : String), e ∈ canonParts acc parts →
      e ∈ acc ∨ (e ∈ parts ∧ ¬(e = "" ∨ e = ".") ∧ e ≠ "..") := by
  intro parts
  induction parts with
  | nil =>
    intro acc e he
    rw [show canonParts acc [] = acc from rfl] at he
    exact Or.inl he
  | cons p rest ih =>
    intro acc e he
    by_cases h1 : p = "" ∨ p = "."
    · rw [canonParts_cons, if_pos h1] at he
      rcases ih acc e he with h | ⟨hm, hx⟩
      · exact Or.inl h
      · exact Or.inr ⟨List.mem_cons_of_mem _ hm, hx⟩
    · by_cases h2 : p = ".."
      · rw [canonParts_cons, if_neg h1, if_pos h2] at he
        rcases ih acc.dropLast e he with h | ⟨hm, hx⟩
        · exact Or.inl ((List.dropLast_prefix acc).subset h)
        · exact Or.inr ⟨List.mem_cons_of_mem _ hm, hx⟩
      · rw [canonParts_cons, if_neg h1, if_neg h2] at he
        rcases ih (acc ++ [p]) e he with h | ⟨hm, hx⟩
        · rcases List.mem_append.mp h with h | h
          · exact Or.inl h
          · rw [List.mem_singleton] at h
            subst h
            exact Or.inr ⟨List.mem_cons_self _ _, h1, h2⟩
        · exact Or.inr ⟨List.mem_cons_of_mem _ hm, hx⟩

/-- `splitSlash` of a canonical full name (`'/' + '/'.join(ps)` with
nonempty segments... slash-freeness suffices here) gives back `""`
followed by the segments. -/
theorem splitSlash_fullNameOf (ps : List String) (hne : ps ≠ [])
    (h2 : ∀ e ∈ ps, '/' ∉ e.data) :
    splitSlash (fullNameOf ps) = "" :: ps := by
  unfold splitSlash
  have hdata : (fullNameOf ps).data
      = '/' :: List.intercalate ['/'] (ps.map String.data) := rfl
  rw [hdata]
  rw [show ('/' :: List.intercalate ['/'] (ps.map String.data)).splitOn '/'
      = [] :: (List.intercalate ['/'] (ps.map String.data)).splitOn '/' by
    rw [List.splitOn, List.splitOnP_cons, if_pos (by simp)]; rfl]
  rw [List.splitOn_intercalate (ps.map String.data) '/'
    (by intro l hl
        obtain ⟨e, he, rfl⟩ := List.mem_map.mp hl
        exact h2 e he)
    (by simpa using hne)]
  simp only [List.map_cons, List.map_map]
  rw [show (String.mk ∘ String.data) = id from rfl, List.map_id]

/-- All canonical segments of `Tree.resolve_path` are nontrivial and
slash-free, and the result is their full name. -/
theorem resolve_path_spec (cwd : List String) (dst : String) :
    ∃ cps, Tree.resolve_path cwd dst = fullNameOf cps ∧
      ∀ e ∈ cps, ¬(e = "" ∨ e = ".") ∧ e ≠ ".." ∧ '/' ∉ e.data := by
  refine ⟨canonParts []
    (if ¬ startsWithS "/" dst then
      (splitSlash (fullNameOf cwd)).drop 1 ++ splitSlash dst
     else splitSlash dst), rfl, ?_⟩
  intro e he
  rcases mem_canonParts _ [] e he with h | ⟨hm, hx1, hx2⟩
  · simp at h
  · refine ⟨hx1, hx2, ?_⟩
    split at hm
    · rcases List.mem_append.mp hm with h | h
      · exact splitSlash_no_slash (List.drop_subset _ _ h)
      · exact splitSlash_no_slash h
    · exact splitSlash_no_slash hm

theorem nodeAt_append (root : Node) (p q : List String) :
    nodeAt root (p ++ q) = (nodeAt root p).bind fun n => nodeAt n q := by
  induction p generalizing root with
  | nil => rfl
  | cons s rest ih =>
    rw [List.cons_append]
    cases hc : root.child s with
    | none => rw [nodeAt_cons_none hc, nodeAt_cons_none hc]; rfl
    | some c => rw [nodeAt_cons_some hc, nodeAt_cons_some hc]; exact ih c

theorem resolveGo_cons (root : Node) (cur : List String) (e : String)
    (rest : List String) :
    resolveGo root cur (e :: rest)
      = if e = "" ∨ e = "." then resolveGo root cur rest
        else if e = ".." then resolveGo root cur.dropLast rest
        else
          match (nodeAt root cur).bind fun n => n.child e with
          | some _ => resolveGo root (cur ++ [e]) rest
          | none => none := rfl

/-- On nontrivial segments (no `""`/`.`/`..`) resolution is a plain child
walk from the current node. -/
theorem resolveGo_canonical (segs : List String)
    (hseg : ∀ e ∈ segs, ¬(e = "" ∨ e = ".") ∧ e ≠ "..") :
    ∀ (root : Node) (cur : List String) (n : Node), nodeAt root cur = some n →
    resolveGo root cur segs = (nodeAt n segs).map fun _ => cur ++ segs := by
  induction segs with
  | nil =>
    intro root cur n h
    rw [nodeAt_nil]
    show some cur = some (cur ++ [])
    simp
  | cons e rest ih =>
    intro root cur n h
    obtain ⟨h1, h2⟩ := hseg e (List.mem_cons_self _ _)
    rw [resolveGo_cons, if_neg h1, if_neg h2, h]
    show (match n.child e with
      | some _ => resolveGo root (cur ++ [e]) rest
      | none => none) = _
    cases hc : n.child e with
    | none => rw [nodeAt_cons_none hc]; rfl
    | some c =>
      have hcp : nodeAt root (cur ++ [e]) = some c := by
        rw [nodeAt_append, h]
        show nodeAt n [e] = some c
        rw [nodeAt_cons_some hc]
        rfl
      rw [ih (fun x hx => hseg x (List.mem_cons_of_mem _ hx)) root
        (cur ++ [e]) c hcp, nodeAt_cons_some hc]
      cases nodeAt c rest <;> simp

theorem startsWithS_fullNameOf (ps : List String) :
    startsWithS "/" (fullNameOf ps) = true := by
  show (List.isPrefixOf ['/'] ('/' :: List.intercalate ['/'] (ps.map String.data))) = true
  simp [List.isPrefixOf]

/-- Resolving a canonical full name from anywhere is the plain child walk
along its segments from the root. -/
theorem resolve_canonical (root : Node) (cwd : List String)
    (cps : List String)
    (hseg : ∀ e ∈ cps, ¬(e = "" ∨ e = ".") ∧ e ≠ ".." ∧ '/' ∉ e.data)
    (hne : cps ≠ []) :
    Tree.resolve root cwd (fullNameOf cps)
      = (nodeAt root cps).map fun n => (cps, n) := by
  unfold Tree.resolve
  simp only [startsWithS_fullNameOf, if_true, ite_true]
  rw [splitSlash_fullNameOf cps hne (fun e he => (hseg e he).2.2),
    resolveGo_cons, if_pos (by simp),
    resolveGo_canonical cps (fun e he => ⟨(hseg e he).1, (hseg e he).2.1⟩)
      root [] root rfl]
  cases hn : nodeAt root cps with
  | none => rfl
  | some m => simp [hn]

theorem resolve_slash (root : Node) (cwd : List String) :
    Tree.resolve root cwd "/" = some ([], root) := rfl

/-! Canonical full names have no doubled slashes, so `re.sub(r'/+', '/', .)`
is the identity on them and `_dirname`/`_basename` compute drop-last and
last of the segment list. -/

theorem chain'_of_no_slash {seg : List Char} (h : '/' ∉ seg)
    {t : List Char} (ht : List.Chain' (fun a b => ¬(a = '/' ∧ b = '/')) t) :
    List.Chain' (fun a b => ¬(a = '/' ∧ b = '/')) (seg ++ t) := by
  induction seg with
  | nil => exact ht
  | cons x xs ih =>
    rw [List.cons_append, List.chain'_cons']
    refine ⟨fun y _ hxy => ?_, ih (fun hm => h (List.mem_cons_of_mem _ hm))⟩
    exact h (hxy.1 ▸ List.mem_cons_self _ _)

theorem chain'_canonical (ps : List String)
    (h1 : ∀ e ∈ ps, e.data ≠ []) (h2 : ∀ e ∈ ps, '/' ∉ e.data) :
    List.Chain' (fun a b => ¬(a = '/' ∧ b = '/'))
      ('/' :: List.intercalate ['/'] (ps.map String.data)) := by
  induction ps with
  | nil => exact List.chain'_singleton _
  | cons p rest ih =>
    have hpne : p.data ≠ [] := h1 p (List.mem_cons_self _ _)
    have hpns : '/' ∉ p.data := h2 p (List.mem_cons_self _ _)
    have hchainp : List.Chain' (fun a b => ¬(a = '/' ∧ b = '/')) p.data := by
      have hx : List.Chain' (fun a b => ¬(a = '/' ∧ b = '/')) (p.data ++ []) :=
        chain'_of_no_slash hpns List.chain'_nil
      simpa using hx
    cases rest with
    | nil =>
      have hsing : List.intercalate ['/'] (List.map String.data [p])
          = p.data := by
        simp [List.intercalate]
      rw [hsing, List.chain'_cons']
      exact ⟨fun y hy hxy => hpns (hxy.2 ▸ List.mem_of_mem_head? hy), hchainp⟩
    | cons q rest' =>
      have hI : List.intercalate ['/'] (List.map String.data (p :: q :: rest'))
          = p.data ++ ['/']
            ++ List.intercalate ['/'] (List.map String.data (q :: rest')) := by
        rw [show List.map String.data (p :: q :: rest')
            = p.data :: q.data :: rest'.map String.data from rfl,
          intercalate_cons_cons]
        rfl
      rw [hI]
      have hsplit : ('/' :: (p.data ++ ['/']
          ++ List.intercalate ['/'] (List.map String.data (q :: rest'))))
          = ('/' :: p.data)
            ++ ('/' :: List.intercalate ['/']
              (List.map String.data (q :: rest'))) := by
        simp
      rw [hsplit, List.chain'_append]
      refine ⟨?_, ?_, ?_⟩
      · rw [List.chain'_cons']
        exact ⟨fun y hy hxy => hpns (hxy.2 ▸ List.mem_of_mem_head? hy), hchainp⟩
      · exact ih (fun e he => h1 e (List.mem_cons_of_mem _ he))
          (fun e he => h2 e (List.mem_cons_of_mem _ he))
      · intro x hx y hy hxy
        apply hpns
        rw [hxy.1] at hx
        cases hd : p.data with
        | nil => exact absurd hd hpne
        | cons d ds =>
          rw [hd, List.getLast?_cons_cons] at hx
          exact List.mem_of_mem_getLast? hx

theorem collapseGo_noop :
    ∀ (l : List Char) (prev : Bool),
      List.Chain' (fun a b => ¬(a = '/' ∧ b = '/')) l →
      (prev = true → ∀ c, l.head? = some c → c ≠ '/') →
      collapseGo prev l = l := by
  intro l
  induction l with
  | nil => intro prev _ _; rfl
  | cons c rest ih =>
    intro prev hch hh
    show (if c = '/' then
        (if prev then collapseGo true rest else '/' :: collapseGo true rest)
      else c :: collapseGo false rest) = c :: rest
    by_cases hc : c = '/'
    · subst hc
      have hprev : prev = false := by
        cases prev with
        | false => rfl
        | true => exact absurd rfl (hh rfl '/' rfl)
      subst hprev
      rw [if_pos rfl, if_neg (by simp)]
      refine congrArg _ (ih true ((List.chain'_cons'.mp hch).2) ?_)
      intro _ d hd he
      exact (List.chain'_cons'.mp hch).1 d hd ⟨rfl, he⟩
    · rw [if_neg hc]
      exact congrArg _ (ih false ((List.chain'_cons'.mp hch).2)
        (fun h => absurd h (by simp)))

theorem collapseSlashes_fullNameOf (ps : List String)
    (h1 : ∀ e ∈ ps, e.data ≠ []) (h2 : ∀ e ∈ ps, '/' ∉ e.data) :
    collapseSlashes (fullNameOf ps).data = (fullNameOf ps).data :=
  collapseGo_noop _ false (chain'_canonical ps h1 h2) (fun h => absurd h (by simp))

theorem joinSlash_empty_cons (xs : List String) (hne : xs ≠ []) :
    joinSlash ("" :: xs) = fullNameOf xs := by
  cases xs with
  | nil => exact absurd rfl hne
  | cons x t =>
    apply String.ext
    show List.intercalate ['/'] ([] :: (x :: t).map String.data)
      = '/' :: List.intercalate ['/'] ((x :: t).map String.data)
    rw [List.map_cons, intercalate_cons_cons]
    rfl

theorem dirname_fullNameOf (ps : List String) (hne : ps ≠ [])
    (h1 : ∀ e ∈ ps, e.data ≠ []) (h2 : ∀ e ∈ ps, '/' ∉ e.data) :
    dirname (fullNameOf ps) = fullNameOf ps.dropLast := by
  unfold dirname
  rw [collapseSlashes_fullNameOf ps h1 h2]
  rw [show (((fullNameOf ps).data.splitOn '/').map fun l => (⟨l⟩ : String))
      = splitSlash (fullNameOf ps) from rfl]
  rw [splitSlash_fullNameOf ps hne h2]
  cases ps with
  | nil => exact absurd rfl hne
  | cons p t =>
    cases t with
    | nil => rfl
    | cons q t' =>
      rw [show ("" :: p :: q :: t').dropLast = "" :: (p :: q :: t').dropLast
        from rfl]
      rw [if_neg (by
        rw [List.dropLast_cons₂]
        simp)]
      exact joinSlash_empty_cons _ (by rw [List.dropLast_cons₂]; simp)

theorem basename_fullNameOf (ps : List String) (hne : ps ≠ [])
    (h1 : ∀ e ∈ ps, e.data ≠ []) (h2 : ∀ e ∈ ps, '/' ∉ e.data) :
    basename (fullNameOf ps) = ps.getLastD "" := by
  unfold basename
  rw [collapseSlashes_fullNameOf ps h1 h2]
  rw [show (((fullNameOf ps).data.splitOn '/').map fun l => (⟨l⟩ : String))
      = splitSlash (fullNameOf ps) from rfl]
  rw [splitSlash_fullNameOf ps hne h2]
  exact List.getLastD_cons _ _ _

/-! ## Preservation lemmas for attach/insert/value mutation -/

theorem Node.name_withChildren (n : Node) (cs : List Node) :
    (n.withChildren cs).name = n.name := by
  cases n <;> rfl

theorem Node.name_add_child (n c : Node) : (n.add_child c).name = n.name :=
  Node.name_withChildren _ _

theorem Node.name_setName (n : Node) (nm : String) :
    (n.setName nm).name = nm := by
  cases n <;> rfl

theorem Node.children_withChildren {n : Node} (hd : n.is_directory = true)
    (cs : List Node) : (n.withChildren cs).children = cs := by
  cases n with
  | ValueNode nm v => exact absurd hd (by simp [Node.is_directory])
  | DictNode nm cs0 => rfl
  | PartialNode nm cs0 => rfl

theorem child_add_child_found {n c : Node} {s : String} {x : Node}
    (h : n.child s = some x) : (n.add_child c).child s = some x := by
  cases n with
  | ValueNode nm v => exact absurd h (by simp [Node.child, Node.children])
  | DictNode nm cs =>
    show ((cs ++ [c]).find? fun d => d.name == s) = some x
    rw [List.find?_append, show (cs.find? fun d => d.name == s) = some x from h]
    rfl
  | PartialNode nm cs =>
    show ((cs ++ [c]).find? fun d => d.name == s) = some x
    rw [List.find?_append, show (cs.find? fun d => d.name == s) = some x from h]
    rfl

theorem child_add_child_none {n c : Node} {s : String}
    (hd : n.is_directory = true) (h : n.child s = none) :
    (n.add_child c).child s
      = if c.name == s then some c else none := by
  cases n with
  | ValueNode nm v => exact absurd hd (by simp [Node.is_directory])
  | DictNode nm cs =>
    show ((cs ++ [c]).find? fun d => d.name == s) = _
    rw [List.find?_append, show (cs.find? fun d => d.name == s) = none from h]
    show ([c].find? fun d => d.name == s) = _
    rw [List.find?_cons]
    cases hc : (c.name == s) <;> rfl
  | PartialNode nm cs =>
    show ((cs ++ [c]).find? fun d => d.name == s) = _
    rw [List.find?_append, show (cs.find? fun d => d.name == s) = none from h]
    show ([c].find? fun d => d.name == s) = _
    rw [List.find?_cons]
    cases hc : (c.name == s) <;> rfl

theorem addChildAt_cons_some {root : Node} {nm : String} {rest : List String}
    {ch : Node} (hc : root.child nm = some ch) (c : Node) :
    addChildAt root (nm :: rest) c
      = (addChildAt ch rest c).map (root.replace_child nm) := by
  show (match root.child nm with
    | none => none
    | some ch => (addChildAt ch rest c).map (root.replace_child nm)) = _
  rw [hc]

theorem addChildAt_isSome {root : Node} {dp : List String} {d : Node}
    (h : nodeAt root dp = some d) (c : Node) :
    ∃ t', addChildAt root dp c = some t' := by
  induction dp generalizing root with
  | nil => exact ⟨root.add_child c, rfl⟩
  | cons nm rest ih =>
    cases hc : root.child nm with
    | none => rw [nodeAt_cons_none hc] at h; exact absurd h (by simp)
    | some ch =>
      rw [nodeAt_cons_some hc] at h
      obtain ⟨t', ht'⟩ := ih h
      refine ⟨root.replace_child nm t', ?_⟩
      rw [addChildAt_cons_some hc, ht']
      rfl

theorem addChildAt_name {root : Node} {dp : List String} {c : Node}
    {t' : Node} (h : addChildAt root dp c = some t') :
    t'.name = root.name := by
  cases dp with
  | nil =>
    rw [show addChildAt root [] c = some (root.add_child c) from rfl] at h
    cases h
    exact Node.name_add_child _ _
  | cons nm rest =>
    cases hc : root.child nm with
    | none =>
      rw [show addChildAt root (nm :: rest) c
        = (match root.child nm with
          | none => none
          | some ch => (addChildAt ch rest c).map (root.replace_child nm))
        from rfl, hc] at h
      exact absurd h (by simp)
    | some ch =>
      rw [addChildAt_cons_some hc] at h
      cases ha : addChildAt ch rest c with
      | none => rw [ha] at h; exact absurd h (by simp)
      | some u =>
        rw [ha] at h
        simp only [Option.map_some', Option.some.injEq] at h
        rw [← h]
        exact Node.name_withChildren _ _

/-- Attaching a child at `dp` does not change the node (with its whole
subtree) found at any path that is not a prefix of `dp`. -/
theorem addChildAt_preserves {dp : List String} :
    ∀ {root t' : Node} {c : Node}, addChildAt root dp c = some t' →
    ∀ q m, nodeAt root q = some m → ¬ q <+: dp → nodeAt t' q = some m := by
  induction dp with
  | nil =>
    intro root t' c h q m hq hnp
    cases q with
    | nil => exact absurd List.nil_prefix hnp
    | cons s qrest =>
      rw [show addChildAt root [] c = some (root.add_child c) from rfl] at h
      cases h
      cases hc : root.child s with
      | none => rw [nodeAt_cons_none hc] at hq; exact absurd hq (by simp)
      | some x =>
        rw [nodeAt_cons_some hc] at hq
        rw [nodeAt_cons_some (child_add_child_found hc)]
        exact hq
  | cons nm rest ih =>
    intro root t' c h q m hq hnp
    cases hc : root.child nm with
    | none =>
      rw [show addChildAt root (nm :: rest) c
        = (match root.child nm with
          | none => none
          | some ch => (addChildAt ch rest c).map (root.replace_child nm))
        from rfl, hc] at h
      exact absurd h (by simp)
    | some ch =>
      rw [addChildAt_cons_some hc] at h
      cases ha : addChildAt ch rest c with
      | none => rw [ha] at h; exact absurd h (by simp)
      | some u =>
        rw [ha] at h
        simp only [Option.map_some', Option.some.injEq] at h
        subst h
        have hun : u.name = nm := by
          rw [addChildAt_name ha]
          exact Node.child_name hc
        cases q with
        | nil => exact absurd List.nil_prefix hnp
        | cons s qrest =>
          by_cases hs : s = nm
          · subst hs
            have hnp' : ¬ qrest <+: rest := fun hpre =>
              hnp (List.cons_prefix_cons.mpr ⟨rfl, hpre⟩)
            rw [nodeAt_cons_some hc] at hq
            rw [nodeAt_cons_some (show (root.replace_child s u).child s = some u
              from child_withChildren_replaceChild_eq hc hun)]
            exact ih ha qrest m hq hnp'
          · cases hcs : root.child s with
            | none => rw [nodeAt_cons_none hcs] at hq; exact absurd hq (by simp)
            | some x =>
              rw [nodeAt_cons_some hcs] at hq
              rw [nodeAt_cons_some (by
                rw [show Node.replace_child root nm u
                  = root.withChildren (replaceChild root.children nm u)
                  from rfl, child_withChildren_replaceChild hs hun]
                exact hcs)]
              exact hq

theorem addChildAt_isSome_pres {dp : List String} :
    ∀ {root t' c : Node}, addChildAt root dp c = some t' →
    ∀ q, (nodeAt root q).isSome → (nodeAt t' q).isSome := by
  induction dp with
  | nil =>
    intro root t' c h q hq
    rw [show addChildAt root [] c = some (root.add_child c) from rfl] at h
    cases h
    cases q with
    | nil => simp [nodeAt_nil]
    | cons s qrest =>
      cases hc : root.child s with
      | none => rw [nodeAt_cons_none hc] at hq; simp at hq
      | some x =>
        rw [nodeAt_cons_some hc] at hq
        rw [nodeAt_cons_some (child_add_child_found hc)]
        exact hq
  | cons nm rest ih =>
    intro root t' c h q hq
    cases hc : root.child nm with
    | none =>
      rw [show addChildAt root (nm :: rest) c
        = (match root.child nm with
          | none => none
          | some ch => (addChildAt ch rest c).map (root.replace_child nm))
        from rfl, hc] at h
      exact absurd h (by simp)
    | some ch =>
      rw [addChildAt_cons_some hc] at h
      cases ha : addChildAt ch rest c with
      | none => rw [ha] at h; exact absurd h (by simp)
      | some u =>
        rw [ha] at h
        simp only [Option.map_some', Option.some.injEq] at h
        subst h
        have hun : u.name = nm := by
          rw [addChildAt_name ha]; exact Node.child_name hc
        cases q with
        | nil => simp [nodeAt_nil]
        | cons s qrest =>
          by_cases hs : s = nm
          · subst hs
            rw [nodeAt_cons_some hc] at hq
            rw [nodeAt_cons_some (show (root.replace_child s u).child s = some u
              from child_withChildren_replaceChild_eq hc hun)]
            exact ih ha qrest hq
          · cases hcs : root.child s with
            | none => rw [nodeAt_cons_none hcs] at hq; simp at hq
            | some x =>
              rw [nodeAt_cons_some hcs] at hq
              rw [nodeAt_cons_some (show (root.replace_child nm u).child s
                = some x by
                rw [show Node.replace_child root nm u
                  = root.withChildren (replaceChild root.children nm u)
                  from rfl, child_withChildren_replaceChild hs hun]
                exact hcs)]
              exact hq

/-- Attaching a fresh-named child under the directory at `dp` makes it
resolvable at `dp ++ [name]`. -/
theorem addChildAt_new {dp : List String} :
    ∀ {root d c t' : Node}, nodeAt root dp = some d →
    d.is_directory = true → d.child c.name = none →
    addChildAt root dp c = some t' →
    nodeAt t' (dp ++ [c.name]) = some c := by
  induction dp with
  | nil =>
    intro root d c t' hd hdir hnone h
    rw [nodeAt_nil] at hd
    cases hd
    rw [show addChildAt root [] c = some (root.add_child c) from rfl] at h
    cases h
    have hch : (root.add_child c).child c.name = some c := by
      rw [child_add_child_none hdir hnone]
      simp
    rw [List.nil_append, nodeAt_cons_some hch]
    exact nodeAt_nil c
  | cons nm rest ih =>
    intro root d c t' hd hdir hnone h
    cases hc : root.child nm with
    | none => rw [nodeAt_cons_none hc] at hd; exact absurd hd (by simp)
    | some ch =>
      rw [nodeAt_cons_some hc] at hd
      rw [addChildAt_cons_some hc] at h
      cases ha : addChildAt ch rest c with
      | none => rw [ha] at h; exact absurd h (by simp)
      | some u =>
        rw [ha] at h
        simp only [Option.map_some', Option.some.injEq] at h
        subst h
        have hun : u.name = nm := by
          rw [addChildAt_name ha]; exact Node.child_name hc
        rw [List.cons_append,
          nodeAt_cons_some (show (root.replace_child nm u).child nm = some u
            from child_withChildren_replaceChild_eq hc hun)]
        exact ih hd hdir hnone ha

theorem insertGo_cons (cur : Node) (e : String) (rest : List String)
    (node : Node) :
    insertGo cur (e :: rest) node
      = if e = "" then insertGo cur rest node
        else
          match cur.child e with
          | some next =>
            (insertGo next rest node).map (cur.replace_child e)
          | none =>
            match cur with
            | .ValueNode _ _ => throw .attributeError
            | _ => (insertGo (.PartialNode e []) rest node).map cur.add_child := by
  show (if e = "" then insertGo cur rest node
    else
      match cur.child e with
      | some next => do
        let next' ← insertGo next rest node
        pure (cur.replace_child e next')
      | none =>
        match cur with
        | .ValueNode _ _ => throw PyErr.attributeError
        | _ => do
          let sub ← insertGo (.PartialNode e []) rest node
          pure (cur.add_child sub)) = _
  by_cases he : e = ""
  · rw [if_pos he, if_pos he]
  · rw [if_neg he, if_neg he]
    cases hc : cur.child e with
    | none =>
      cases cur with
      | ValueNode nm v => rfl
      | DictNode nm cs =>
        cases insertGo (.PartialNode e []) rest node <;> rfl
      | PartialNode nm cs =>
        cases insertGo (.PartialNode e []) rest node <;> rfl
    | some next =>
      cases insertGo next rest node <;> rfl

theorem insertGo_nil_dir {cur : Node} (hd : cur.is_directory = true)
    (node : Node) : insertGo cur [] node = .ok (cur.add_child node) := by
  cases cur with
  | ValueNode nm v => exact absurd hd (by simp [Node.is_directory])
  | DictNode nm cs => rfl
  | PartialNode nm cs => rfl

theorem insertGo_ok_dir :
    ∀ {parts : List String} {cur node t' : Node},
      insertGo cur parts node = .ok t' → cur.is_directory = true := by
  intro parts
  induction parts with
  | nil =>
    intro cur node t' h
    cases cur with
    | DictNode nm cs => rfl
    | PartialNode nm cs => rfl
    | ValueNode nm v => exact absurd h (by simp [insertGo])
  | cons e rest ih =>
    intro cur node t' h
    cases cur with
    | DictNode nm cs => rfl
    | PartialNode nm cs => rfl
    | ValueNode nm v =>
      rw [insertGo_cons] at h
      by_cases he : e = ""
      · rw [if_pos he] at h
        exact ih h
      · rw [if_neg he,
          show (Node.ValueNode nm v).child e = none from rfl] at h
        exact absurd h (by simp)

theorem insertGo_name :
    ∀ {parts : List String} {cur node t' : Node},
      insertGo cur parts node = .ok t' → t'.name = cur.name := by
  intro parts
  induction parts with
  | nil =>
    intro cur node t' h
    rw [insertGo_nil_dir (insertGo_ok_dir h)] at h
    cases h
    exact Node.name_add_child _ _
  | cons e rest ih =>
    intro cur node t' h
    rw [insertGo_cons] at h
    by_cases he : e = ""
    · rw [if_pos he] at h
      exact ih h
    · rw [if_neg he] at h
      cases hc : cur.child e with
      | some next =>
        rw [hc] at h
        have h2 : (insertGo next rest node).map (cur.replace_child e)
            = .ok t' := h
        cases hi : insertGo next rest node with
        | error err => rw [hi] at h2; exact absurd h2 (by simp [Except.map])
        | ok next' =>
          rw [hi] at h2
          simp only [Except.map, Except.ok.injEq] at h2
          rw [← h2]
          exact Node.name_withChildren _ _
      | none =>
        rw [hc] at h
        cases cur with
        | ValueNode nm v => exact absurd h (by simp)
        | DictNode nm cs =>
          cases hi : insertGo (.PartialNode e []) rest node with
          | error err => rw [hi] at h; exact absurd h (by simp [Except.map])
          | ok sub =>
            rw [hi] at h
            simp only [Except.map, Except.ok.injEq] at h
            rw [← h]
            rfl
        | PartialNode nm cs =>
          cases hi : insertGo (.PartialNode e []) rest node with
          | error err => rw [hi] at h; exact absurd h (by simp [Except.map])
          | ok sub =>
            rw [hi] at h
            simp only [Except.map, Except.ok.injEq] at h
            rw [← h]
            rfl

/-- `insert` does not change the node found at any path that is not a
prefix of its (nonempty-segment) walk. -/
theorem insertGo_preserves :
    ∀ {parts : List String} {cur node t' : Node},
      insertGo cur parts node = .ok t' →
      ∀ q m, nodeAt cur q = some m →
        ¬ q <+: parts.filter (fun e => e != "") → nodeAt t' q = some m := by
  intro parts
  induction parts with
  | nil =>
    intro cur node t' h q m hq hnp
    rw [insertGo_nil_dir (insertGo_ok_dir h)] at h
    cases h
    cases q with
    | nil => exact absurd List.nil_prefix hnp
    | cons s qrest =>
      cases hc : cur.child s with
      | none => rw [nodeAt_cons_none hc] at hq; exact absurd hq (by simp)
      | some x =>
        rw [nodeAt_cons_some hc] at hq
        rw [nodeAt_cons_some (child_add_child_found hc)]
        exact hq
  | cons e rest ih =>
    intro cur node t' h q m hq hnp
    rw [insertGo_cons] at h
    by_cases he : e = ""
    · rw [if_pos he] at h
      refine ih h q m hq ?_
      rw [show (e :: rest).filter (fun e => e != "")
        = rest.filter (fun e => e != "") by simp [he]] at hnp
      exact hnp
    · rw [if_neg he] at h
      have hfil : (e :: rest).filter (fun e => e != "")
          = e :: rest.filter (fun e => e != "") := by
        simp [he]
      rw [hfil] at hnp
      cases hc : cur.child e with
      | some next =>
        rw [hc] at h
        have h2 : (insertGo next rest node).map (cur.replace_child e)
            = .ok t' := h
        cases hi : insertGo next rest node with
        | error err => rw [hi] at h2; exact absurd h2 (by simp [Except.map])
        | ok next' =>
          rw [hi] at h2
          simp only [Except.map, Except.ok.injEq] at h2
          subst h2
          have hnn : next'.name = e := by
            rw [insertGo_name hi]; exact Node.child_name hc
          cases q with
          | nil => exact absurd List.nil_prefix hnp
          | cons s qrest =>
            by_cases hs : s = e
            · subst hs
              rw [nodeAt_cons_some hc] at hq
              rw [nodeAt_cons_some
                (show (cur.replace_child s next').child s = some next'
                  from child_withChildren_replaceChild_eq hc hnn)]
              exact ih hi qrest m hq (fun hpre =>
                hnp (List.cons_prefix_cons.mpr ⟨rfl, hpre⟩))
            · cases hcs : cur.child s with
              | none => rw [nodeAt_cons_none hcs] at hq; exact absurd hq (by simp)
              | some x =>
                rw [nodeAt_cons_some hcs] at hq
                rw [nodeAt_cons_some (show (cur.replace_child e next').child s
                  = some x by
                  rw [show Node.replace_child cur e next'
                    = cur.withChildren (replaceChild cur.children e next')
                    from rfl, child_withChildren_replaceChild hs hnn]
                  exact hcs)]
                exact hq
      | none =>
        rw [hc] at h
        have hdir : cur.is_directory = true := by
          cases cur with
          | ValueNode nm v => exact absurd h (by simp)
          | DictNode nm cs => rfl
          | PartialNode nm cs => rfl
        have h' : (insertGo (.PartialNode e []) rest node).map cur.add_child
            = .ok t' := by
          cases cur with
          | ValueNode nm v => exact absurd h (by simp)
          | DictNode nm cs => exact h
          | PartialNode nm cs => exact h
        cases hi : insertGo (.PartialNode e []) rest node with
        | error err => rw [hi] at h'; exact absurd h' (by simp [Except.map])
        | ok sub =>
          rw [hi] at h'
          simp only [Except.map, Except.ok.injEq] at h'
          subst h'
          cases q with
          | nil => exact absurd List.nil_prefix hnp
          | cons s qrest =>
            cases hcs : cur.child s with
            | none => rw [nodeAt_cons_none hcs] at hq; exact absurd hq (by simp)
            | some x =>
              rw [nodeAt_cons_some hcs] at hq
              rw [nodeAt_cons_some (child_add_child_found hcs)]
              exact hq

/-- `insert` never loses an existing node: resolvable paths stay
resolvable. -/
theorem insertGo_isSome :
    ∀ {parts : List String} {cur node t' : Node},
      insertGo cur parts node = .ok t' →
      ∀ q, (nodeAt cur q).isSome → (nodeAt t' q).isSome := by
  intro parts
  induction parts with
  | nil =>
    intro cur node t' h q hq
    rw [insertGo_nil_dir (insertGo_ok_dir h)] at h
    cases h
    cases q with
    | nil => simp [nodeAt_nil]
    | cons s qrest =>
      cases hc : cur.child s with
      | none => rw [nodeAt_cons_none hc] at hq; simp at hq
      | some x =>
        rw [nodeAt_cons_some hc] at hq
        rw [nodeAt_cons_some (child_add_child_found hc)]
        exact hq
  | cons e rest ih =>
    intro cur node t' h q hq
    rw [insertGo_cons] at h
    by_cases he : e = ""
    · rw [if_pos he] at h
      exact ih h q hq
    · rw [if_neg he] at h
      cases hc : cur.child e with
      | some next =>
        rw [hc] at h
        have h2 : (insertGo next rest node).map (cur.replace_child e)
            = .ok t' := h
        cases hi : insertGo next rest node with
        | error err => rw [hi] at h2; exact absurd h2 (by simp [Except.map])
        | ok next' =>
          rw [hi] at h2
          simp only [Except.map, Except.ok.injEq] at h2
          subst h2
          have hnn : next'.name = e := by
            rw [insertGo_name hi]; exact Node.child_name hc
          cases q with
          | nil => simp [nodeAt_nil]
          | cons s qrest =>
            by_cases hs : s = e
            · subst hs
              rw [nodeAt_cons_some hc] at hq
              rw [nodeAt_cons_some
                (show (cur.replace_child s next').child s = some next'
                  from child_withChildren_replaceChild_eq hc hnn)]
              exact ih hi qrest hq
            · cases hcs : cur.child s with
              | none => rw [nodeAt_cons_none hcs] at hq; simp at hq
              | some x =>
                rw [nodeAt_cons_some hcs] at hq
                rw [nodeAt_cons_some (show (cur.replace_child e next').child s
                  = some x by
                  rw [show Node.replace_child cur e next'
                    = cur.withChildren (replaceChild cur.children e next')
                    from rfl, child_withChildren_replaceChild hs hnn]
                  exact hcs)]
                exact hq
      | none =>
        rw [hc] at h
        have h' : (insertGo (.PartialNode e []) rest node).map cur.add_child
            = .ok t' := by
          cases cur with
          | ValueNode nm v => exact absurd h (by simp)
          | DictNode nm cs => exact h
          | PartialNode nm cs => exact h
        cases hi : insertGo (.PartialNode e []) rest node with
        | error err => rw [hi] at h'; exact absurd h' (by simp [Except.map])
        | ok sub =>
          rw [hi] at h'
          simp only [Except.map, Except.ok.injEq] at h'
          subst h'
          cases q with
          | nil => simp [nodeAt_nil]
          | cons s qrest =>
            cases hcs : cur.child s with
            | none => rw [nodeAt_cons_none hcs] at hq; simp at hq
            | some x =>
              rw [nodeAt_cons_some hcs] at hq
              rw [nodeAt_cons_some (child_add_child_found hcs)]
              exact hq

/-- The node attached by a successful `insert` is resolvable at the walked
path followed by its name, provided nothing was there before. -/
theorem insertGo_attach :
    ∀ {parts : List String} {cur node t' : Node},
      insertGo cur parts node = .ok t' →
      nodeAt cur (parts.filter (fun e => e != "") ++ [node.name]) = none →
      nodeAt t' (parts.filter (fun e => e != "") ++ [node.name])
        = some node := by
  intro parts
  induction parts with
  | nil =>
    intro cur node t' h hfresh
    have hdir := insertGo_ok_dir h
    rw [insertGo_nil_dir hdir] at h
    cases h
    rw [show List.filter (fun e => e != "") ([] : List String) = []
      from rfl, List.nil_append] at hfresh ⊢
    have hcn : cur.child node.name = none := by
      cases hcc : cur.child node.name with
      | none => rfl
      | some x =>
        rw [nodeAt_cons_some hcc, nodeAt_nil] at hfresh
        exact absurd hfresh (by simp)
    have hch : (cur.add_child node).child node.name = some node := by
      rw [child_add_child_none hdir hcn]
      simp
    rw [nodeAt_cons_some hch]
    exact nodeAt_nil node
  | cons e rest ih =>
    intro cur node t' h hfresh
    rw [insertGo_cons] at h
    by_cases he : e = ""
    · rw [if_pos he] at h
      have hf : (e :: rest).filter (fun e => e != "")
          = rest.filter (fun e => e != "") := by simp [he]
      rw [hf] at hfresh ⊢
      exact ih h hfresh
    · rw [if_neg he] at h
      have hf : (e :: rest).filter (fun e => e != "")
          = e :: rest.filter (fun e => e != "") := by simp [he]
      rw [hf, List.cons_append] at hfresh ⊢
      cases hc : cur.child e with
      | some next =>
        rw [hc] at h
        have h2 : (insertGo next rest node).map (cur.replace_child e)
            = .ok t' := h
        cases hi : insertGo next rest node with
        | error err => rw [hi] at h2; exact absurd h2 (by simp [Except.map])
        | ok next' =>
          rw [hi] at h2
          simp only [Except.map, Except.ok.injEq] at h2
          subst h2
          have hnn : next'.name = e := by
            rw [insertGo_name hi]; exact Node.child_name hc
          rw [nodeAt_cons_some hc] at hfresh
          rw [nodeAt_cons_some
            (show (cur.replace_child e next').child e = some next'
              from child_withChildren_replaceChild_eq hc hnn)]
          exact ih hi hfresh
      | none =>
        rw [hc] at h
        have hdir : cur.is_directory = true := by
          cases cur with
          | ValueNode nm v => exact absurd h (by simp)
          | DictNode nm cs => rfl
          | PartialNode nm cs => rfl
        have h' : (insertGo (.PartialNode e []) rest node).map cur.add_child
            = .ok t' := by
          cases cur with
          | ValueNode nm v => exact absurd h (by simp)
          | DictNode nm cs => exact h
          | PartialNode nm cs => exact h
        cases hi : insertGo (.PartialNode e []) rest node with
        | error err => rw [hi] at h'; exact absurd h' (by simp [Except.map])
        | ok sub =>
          rw [hi] at h'
          simp only [Except.map, Except.ok.injEq] at h'
          subst h'
          have hsn : sub.name = e := insertGo_name hi
          have hch : (cur.add_child sub).child e = some sub := by
            rw [child_add_child_none hdir hc, hsn]
            simp
          rw [nodeAt_cons_some hch]
          refine ih hi ?_
          cases hfr : rest.filter (fun e => e != "") ++ [node.name] with
          | nil => exact absurd hfr (by simp)
          | cons z zs =>
            exact nodeAt_cons_none
              (show (Node.PartialNode e []).child z = none from rfl)

/-! ## Value mutation (the shell writing a Leaf's `value` attribute) -/

/-- Overwrite the value of the Leaf at the given path (as the shell's
expression evaluator `child.value = value`, or `device`'s
`v.value = v.value.to(device)`, does); no-op if the path misses or points
to a group. -/
def setValueAt (n : Node) : List String → Val → Node
  | [], w =>
    match n with
    | .ValueNode nm _ => .ValueNode nm w
    | other => other
  | nm :: rest, w =>
    match n.child nm with
    | some c => n.replace_child nm (setValueAt c rest w)
    | none => n

theorem setValueAt_name (n : Node) (p : List String) (w : Val) :
    (setValueAt n p w).name = n.name := by
  cases p with
  | nil => cases n <;> rfl
  | cons nm rest =>
    show (match n.child nm with
      | some c => n.replace_child nm (setValueAt c rest w)
      | none => n).name = n.name
    cases hc : n.child nm with
    | none => rfl
    | some c => exact Node.name_withChildren _ _

/-- Writing a value at `π` does not change the node found at any path that
diverges from `π` (neither is a prefix of the other). -/
theorem setValueAt_frame :
    ∀ (π : List String) (n : Node) (q : List String) (w : Val),
      ¬ π <+: q → ¬ q <+: π →
      nodeAt (setValueAt n π w) q = nodeAt n q := by
  intro π
  induction π with
  | nil => exact fun n q w hpq _ => absurd List.nil_prefix hpq
  | cons a π' ih =>
    intro n q w hpq hqp
    cases q with
    | nil => exact absurd List.nil_prefix hqp
    | cons b q' =>
      rw [show setValueAt n (a :: π') w
        = (match n.child a with
          | some c => n.replace_child a (setValueAt c π' w)
          | none => n) from rfl]
      cases hc : n.child a with
      | none => rfl
      | some c =>
        have hcn : (setValueAt c π' w).name = a := by
          rw [setValueAt_name]; exact Node.child_name hc
        by_cases hab : b = a
        · subst hab
          have h1 : ¬ π' <+: q' := fun hh =>
            hpq (List.cons_prefix_cons.mpr ⟨rfl, hh⟩)
          have h2 : ¬ q' <+: π' := fun hh =>
            hqp (List.cons_prefix_cons.mpr ⟨rfl, hh⟩)
          rw [nodeAt_cons_some
            (show (n.replace_child b (setValueAt c π' w)).child b
              = some (setValueAt c π' w)
              from child_withChildren_replaceChild_eq hc hcn),
            nodeAt_cons_some hc]
          exact ih c q' w h1 h2
        · rw [nodeAt_cons,
            show (n.replace_child a (setValueAt c π' w)).child b = n.child b
            from child_withChildren_replaceChild hab hcn, ← nodeAt_cons]

/-- A prefix of a resolvable path is resolvable. -/
theorem nodeAt_prefix_isSome {root : Node} :
    ∀ {p q : List String}, q <+: p → (nodeAt root p).isSome →
      (nodeAt root q).isSome := by
  intro p q hq hp
  obtain ⟨r, rfl⟩ := hq
  rw [nodeAt_append] at hp
  cases hn : nodeAt root q with
  | none => rw [hn] at hp; simp at hp
  | some m => simp

/-! ## C9: copy independence of `cp` -/

theorem Node.setName_self (n : Node) : n.setName n.name = n := by
  cases n <;> rfl

theorem data_ne_of_ne_empty {e : String} (h : e ≠ "") : e.data ≠ [] := by
  intro hd
  apply h
  apply String.ext
  exact hd

/-- Intercalation of a concatenation of two nonempty chunk lists. -/
theorem intercalate_append_chunks (sep : Char) :
    ∀ (as bs : List (List Char)), as ≠ [] → bs ≠ [] →
      [sep].intercalate (as ++ bs)
        = [sep].intercalate as ++ [sep] ++ [sep].intercalate bs := by
  intro as
  induction as with
  | nil => intro bs h _; exact absurd rfl h
  | cons a as' ih =>
    intro bs _ hbs
    cases as' with
    | nil =>
      cases bs with
      | nil => exact absurd rfl hbs
      | cons b bs' =>
        rw [show ([a] ++ b :: bs') = a :: b :: bs' from rfl,
          intercalate_cons_cons]
        simp [List.intercalate]
    | cons a' as'' =>
      rw [show ((a :: a' :: as'') ++ bs) = a :: a' :: (as'' ++ bs) from rfl,
        intercalate_cons_cons,
        show (a' :: (as'' ++ bs)) = (a' :: as'') ++ bs from rfl,
        ih bs (by simp) hbs, intercalate_cons_cons]
      simp [List.append_assoc]

/-- A nonempty canonical path's full name, slash-terminated, is a string
prefix of the full name of any proper extension of the path. -/
theorem startsWithS_fullNameOf_append (sp extra : List String)
    (hsp : sp ≠ []) (hex : extra ≠ []) :
    startsWithS (fullNameOf sp ++ "/") (fullNameOf (sp ++ extra) ++ "/")
      = true := by
  unfold startsWithS
  rw [List.isPrefixOf_iff_prefix]
  have hd1 : (fullNameOf sp ++ "/").data
      = '/' :: (['/'].intercalate (sp.map String.data) ++ ['/']) := rfl
  have hd2 : (fullNameOf (sp ++ extra) ++ "/").data
      = '/' :: (['/'].intercalate ((sp ++ extra).map String.data) ++ ['/']) :=
    rfl
  rw [hd1, hd2, List.map_append,
    intercalate_append_chunks '/' (sp.map String.data)
      (extra.map String.data) (by simpa using hsp) (by simpa using hex)]
  refine List.cons_prefix_cons.mpr ⟨rfl, ?_⟩
  have h := List.prefix_append
    (['/'].intercalate (sp.map String.data) ++ ['/'])
    (['/'].intercalate (extra.map String.data) ++ ['/'])
  rw [List.append_assoc]
  exact h

/-- Two diverging paths stay diverging under arbitrary extension. -/
theorem prefix_diverge_extend {α : Type} :
    ∀ (p₁ p₂ a b : List α), ¬ p₁ <+: p₂ → ¬ p₂ <+: p₁ →
      ¬ (p₁ ++ a) <+: (p₂ ++ b) := by
  intro p₁
  induction p₁ with
  | nil => intro p₂ a b h₁ _ _; exact h₁ List.nil_prefix
  | cons x p₁' ih =>
    intro p₂ a b h₁ h₂ hc
    cases p₂ with
    | nil => exact h₂ List.nil_prefix
    | cons y p₂' =>
      rw [List.cons_append, List.cons_append, List.cons_prefix_cons] at hc
      obtain ⟨rfl, hc'⟩ := hc
      exact ih p₂' a b
        (fun hh => h₁ (List.cons_prefix_cons.mpr ⟨rfl, hh⟩))
        (fun hh => h₂ (List.cons_prefix_cons.mpr ⟨rfl, hh⟩)) hc'

theorem dropLast_append_getLastD {α : Type} (l : List α) (d : α)
    (h : l ≠ []) : l.dropLast ++ [l.getLastD d] = l := by
  rw [List.getLastD_eq_getLast?, List.getLast?_eq_getLast l h,
    Option.getD_some]
  exact List.dropLast_append_getLast h

/-- `do_cp` with the source resolution discharged. -/
theorem do_cp_eq {root : Node} {cwd : List String} {src dst : String}
    {sp : List String} {sn : Node}
    (hsrc : Tree.resolve root cwd src = some (sp, sn)) :
    do_cp root cwd src dst =
      (if fullNameOf sp = Tree.resolve_path cwd dst then (.noop, root)
       else if startsWithS (fullNameOf sp ++ "/")
           (Tree.resolve_path cwd dst ++ "/") then
         (.selfSubtree, root)
       else
         match Tree.resolve root cwd (Tree.resolve_path cwd dst) with
         | some (dp, destNode) =>
           if destNode.is_directory then
             match addChildAt root dp (cloneNode sn none) with
             | some t2 => (.ok, t2)
             | none => (.ok, root)
           else (.overwrite, root)
         | none =>
           match Tree.insert root (dirname (Tree.resolve_path cwd dst))
               (cloneNode sn (some (basename (Tree.resolve_path cwd dst)))) with
           | .ok t2 => (.ok, t2)
           | .error e => (.exc e, root)) := by
  unfold do_cp
  rw [hsrc]

/-- **C9, counterexample.**  `cp / /c` on the tree `{"x": 1}`: the source
resolves (to the root itself) and the copy succeeds, yet the original
resolved source node is not left untouched — the clone is attached below
it, so its child list grows from one child to two.  The guard
`dest.startswith(src_full + '/')` misfires at the root because
`src_full + '/'` is `"//"`, which no canonical destination starts with. -/
theorem cp_independence_counterexample :
    Tree.resolve (.DictNode "" [.ValueNode "x" 1]) [] "/"
        = some ([], .DictNode "" [.ValueNode "x" 1]) ∧
    do_cp (.DictNode "" [.ValueNode "x" 1]) [] "/" "/c"
      = (.ok, .DictNode "" [.ValueNode "x" 1,
          .DictNode "c" [.ValueNode "x" 1]]) ∧
    (Node.DictNode "" [.ValueNode "x" 1,
        .DictNode "c" [.ValueNode "x" 1]]).children.length
      ≠ (Node.DictNode "" [.ValueNode "x" 1]).children.length := by
  refine ⟨rfl, rfl, by simp [Node.children]⟩

/-! ## C6 (amended): sibling-name uniqueness preservation -/

theorem uniqList_cons (c : Node) (cs : List Node) :
    uniqList (c :: cs)
      = (uniqNames c && !(cs.any fun d => d.name == c.name)
          && uniqList cs) := rfl

theorem uniqList_cons_iff {c : Node} {cs : List Node} :
    uniqList (c :: cs) = true ↔
      uniqNames c = true ∧ (cs.any fun d => d.name == c.name) = false ∧
        uniqList cs = true := by
  rw [uniqList_cons]
  simp [Bool.and_assoc]

theorem uniqList_mem : ∀ {cs : List Node} {c : Node},
    uniqList cs = true → c ∈ cs → uniqNames c = true := by
  intro cs
  induction cs with
  | nil => intro c _ hm; exact absurd hm (by simp)
  | cons x rest ih =>
    intro c h hm
    obtain ⟨h1, _, h3⟩ := uniqList_cons_iff.mp h
    rcases List.mem_cons.mp hm with rfl | hm'
    · exact h1
    · exact ih h3 hm'

theorem uniqList_children {n : Node} (h : uniqNames n = true) :
    uniqList n.children = true := by
  cases n with
  | ValueNode nm v => rfl
  | DictNode nm cs => exact h
  | PartialNode nm cs => exact h

theorem uniq_withChildren {n : Node} {cs : List Node}
    (h : uniqList cs = true) : uniqNames (n.withChildren cs) = true := by
  cases n with
  | ValueNode nm v => rfl
  | DictNode nm cs₀ => exact h
  | PartialNode nm cs₀ => exact h

theorem uniq_child {n : Node} {s : String} {c : Node}
    (h : uniqNames n = true) (hc : n.child s = some c) :
    uniqNames c = true :=
  uniqList_mem (uniqList_children h) (List.mem_of_find?_eq_some hc)

theorem uniq_nodeAt : ∀ {q : List String} {n m : Node},
    uniqNames n = true → nodeAt n q = some m → uniqNames m = true := by
  intro q
  induction q with
  | nil => intro n m h hq; rw [nodeAt_nil] at hq; cases hq; exact h
  | cons s rest ih =>
    intro n m h hq
    cases hc : n.child s with
    | none => rw [nodeAt_cons_none hc] at hq; exact absurd hq (by simp)
    | some c => rw [nodeAt_cons_some hc] at hq; exact ih (uniq_child h hc) hq

theorem uniqNames_setName (n : Node) (nm : String) :
    uniqNames (n.setName nm) = uniqNames n := by
  cases n <;> rfl

/-- Appending a fresh-named child keeps the sibling list duplicate-free. -/
theorem uniqList_append_fresh : ∀ {cs : List Node} {c : Node},
    uniqList cs = true → uniqNames c = true →
    (∀ d ∈ cs, d.name ≠ c.name) → uniqList (cs ++ [c]) = true := by
  intro cs
  induction cs with
  | nil =>
    intro c _ hc _
    exact uniqList_cons_iff.mpr ⟨hc, by simp, rfl⟩
  | cons x rest ih =>
    intro c h hc hf
    obtain ⟨h1, h2, h3⟩ := uniqList_cons_iff.mp h
    refine uniqList_cons_iff.mpr ⟨h1, ?_, ih h3 hc (fun d hd => hf d (by simp [hd]))⟩
    rw [List.any_eq_false]
    intro d hd
    rcases List.mem_append.mp hd with hd' | hd'
    · exact (List.any_eq_false.mp h2) d hd'
    · rw [List.mem_singleton.mp hd']
      intro he
      have hcx : c.name = x.name := by simpa using he
      exact hf x (by simp) hcx.symm

theorem removeChild_sublist (cs : List Node) (nm : String) :
    List.Sublist (removeChild cs nm) cs := by
  induction cs with
  | nil => exact List.Sublist.refl _
  | cons x rest ih =>
    show List.Sublist (if x.name == nm then rest else x :: removeChild rest nm) (x :: rest)
    by_cases hx : (x.name == nm) = true
    · rw [if_pos hx]; exact List.sublist_cons_self _ _
    · rw [if_neg hx]; exact List.Sublist.cons₂ x ih

/-- Duplicate-freedom restricts to any sublist of the sibling list. -/
theorem uniqList_sublist : ∀ {ds cs : List Node}, List.Sublist ds cs →
    uniqList cs = true → uniqList ds = true := by
  intro ds cs hsub
  induction hsub with
  | slnil => intro h; exact h
  | cons c _ ih =>
    intro h
    exact ih (uniqList_cons_iff.mp h).2.2
  | cons₂ c hsub' ih =>
    intro h
    obtain ⟨h1, h2, h3⟩ := uniqList_cons_iff.mp h
    refine uniqList_cons_iff.mpr ⟨h1, ?_, ih h3⟩
    rw [List.any_eq_false]
    intro d hd
    exact (List.any_eq_false.mp h2) d (hsub'.subset hd)

theorem uniqList_removeChild {cs : List Node} {nm : String}
    (h : uniqList cs = true) : uniqList (removeChild cs nm) = true :=
  uniqList_sublist (removeChild_sublist cs nm) h

/-- Under duplicate-freedom, removing the child named `nm` leaves no child
named `nm`. -/
theorem child_removeChild_self : ∀ {cs : List Node} {nm : String},
    uniqList cs = true →
    (removeChild cs nm).find? (fun c => c.name == nm) = none := by
  intro cs
  induction cs with
  | nil => intro nm _; rfl
  | cons x rest ih =>
    intro nm h
    obtain ⟨h1, h2, h3⟩ := uniqList_cons_iff.mp h
    show (if x.name == nm then rest else x :: removeChild rest nm).find?
        (fun c => c.name == nm) = none
    by_cases hx : (x.name == nm) = true
    · rw [if_pos hx]
      rw [List.find?_eq_none]
      intro d hd he
      have h1' : d.name = nm := by simpa using he
      have h2' : x.name = nm := by simpa using hx
      have hdx : (d.name == x.name) = true := by
        rw [h1', h2']; exact beq_self_eq_true _
      exact absurd ((List.any_eq_true).mpr ⟨d, hd, hdx⟩)
        (by rw [h2]; simp)
    · rw [if_neg hx]
      rw [List.find?_cons_of_neg _ (by simpa using hx)]
      exact ih h3

theorem mem_replaceChild : ∀ {cs : List Node} {nm : String} {c' d : Node},
    d ∈ replaceChild cs nm c' → d ∈ cs ∨ d = c' := by
  intro cs
  induction cs with
  | nil => intro nm c' d hd; exact absurd hd (by simp [replaceChild])
  | cons x rest ih =>
    intro nm c' d hd
    rw [show replaceChild (x :: rest) nm c'
      = (if x.name == nm then c' :: rest else x :: replaceChild rest nm c')
      from rfl] at hd
    by_cases hx : (x.name == nm) = true
    · rw [if_pos hx] at hd
      rcases List.mem_cons.mp hd with rfl | hd'
      · exact Or.inr rfl
      · exact Or.inl (List.mem_cons_of_mem _ hd')
    · rw [if_neg hx] at hd
      rcases List.mem_cons.mp hd with rfl | hd'
      · exact Or.inl (List.mem_cons_self _ _)
      · rcases ih hd' with hm | he
        · exact Or.inl (List.mem_cons_of_mem _ hm)
        · exact Or.inr he

theorem uniqList_replaceChild : ∀ {cs : List Node} {nm : String} {c' : Node},
    uniqList cs = true → uniqNames c' = true → c'.name = nm →
    uniqList (replaceChild cs nm c') = true := by
  intro cs
  induction cs with
  | nil => intro nm c' _ _ _; rfl
  | cons x rest ih =>
    intro nm c' h hc' hn
    obtain ⟨h1, h2, h3⟩ := uniqList_cons_iff.mp h
    rw [show replaceChild (x :: rest) nm c'
      = (if x.name == nm then c' :: rest else x :: replaceChild rest nm c')
      from rfl]
    by_cases hx : (x.name == nm) = true
    · rw [if_pos hx]
      refine uniqList_cons_iff.mpr ⟨hc', ?_, h3⟩
      have hxe : x.name = nm := by simpa using hx
      rw [show c'.name = x.name by rw [hn, hxe]]
      exact h2
    · rw [if_neg hx]
      refine uniqList_cons_iff.mpr ⟨h1, ?_, ih h3 hc' hn⟩
      rw [List.any_eq_false]
      intro d hd
      rcases mem_replaceChild hd with hm | rfl
      · exact (List.any_eq_false.mp h2) d hm
      · intro he
        have : d.name = x.name := by simpa using he
        rw [hn] at this
        exact hx (by rw [← this]; exact beq_self_eq_true _)

theorem uniq_add_child {n c : Node} (h : uniqNames n = true)
    (hc : uniqNames c = true) (hf : n.child c.name = none) :
    uniqNames (n.add_child c) = true := by
  refine uniq_withChildren (uniqList_append_fresh (uniqList_children h) hc ?_)
  intro d hd he
  have := List.find?_eq_none.mp hf d hd
  exact this (by rw [he]; exact beq_self_eq_true _)

theorem uniq_replace_child {n : Node} {nm : String} {c' : Node}
    (h : uniqNames n = true) (hc' : uniqNames c' = true)
    (hn : c'.name = nm) : uniqNames (n.replace_child nm c') = true :=
  uniq_withChildren (uniqList_replaceChild (uniqList_children h) hc' hn)

/-- `_rm_node` (detach plus pruning) preserves sibling-name uniqueness. -/
theorem rmNode_uniq : ∀ (p : List String) (n : Node),
    uniqNames n = true → uniqNames (rmNode n p) = true := by
  intro p
  induction p with
  | nil => intro n h; exact h
  | cons nm rest ih =>
    intro n h
    cases rest with
    | nil =>
      show uniqNames (n.withChildren (removeChild n.children nm)) = true
      exact uniq_withChildren (uniqList_removeChild (uniqList_children h))
    | cons r rest' =>
      cases hc : n.child nm with
      | none => rw [rmNode_cons_cons_none hc]; exact h
      | some c =>
        rw [rmNode_cons_cons_some hc]
        by_cases hp : ((rmNode c (r :: rest')).children.isEmpty
            && (rmNode c (r :: rest')).isPartialNode) = true
        · rw [if_pos hp]
          exact uniq_withChildren (uniqList_removeChild (uniqList_children h))
        · rw [if_neg hp]
          exact uniq_withChildren (uniqList_replaceChild (uniqList_children h)
            (ih c (uniq_child h hc))
            (by rw [rmNode_name]; exact Node.child_name hc))

theorem child_removeChild_none {root : Node} {nm s : String}
    (h : root.child s = none) :
    (root.withChildren (removeChild root.children nm)).child s = none := by
  cases root with
  | ValueNode n v => rfl
  | DictNode n cs =>
    show (removeChild cs nm).find? (fun c => c.name == s) = none
    rw [List.find?_eq_none]
    intro d hd
    exact (List.find?_eq_none.mp h) d ((removeChild_sublist cs nm).subset hd)
  | PartialNode n cs =>
    show (removeChild cs nm).find? (fun c => c.name == s) = none
    rw [List.find?_eq_none]
    intro d hd
    exact (List.find?_eq_none.mp h) d ((removeChild_sublist cs nm).subset hd)

theorem child_withChildren_removeChild_self {root : Node} {nm : String}
    (h : uniqNames root = true) :
    (root.withChildren (removeChild root.children nm)).child nm = none := by
  cases root with
  | ValueNode n v => rfl
  | DictNode n cs => exact child_removeChild_self h
  | PartialNode n cs => exact child_removeChild_self h

/-- In a duplicate-free tree, `_rm_node` never makes a missing child name
appear: a node that had no child named `s` either disappears or still has
no child named `s`. -/
theorem rmNode_child_none : ∀ (p : List String) (n : Node),
    uniqNames n = true →
    ∀ (q : List String) (s : String) (m : Node),
      nodeAt n q = some m → m.child s = none →
      nodeAt (rmNode n p) q = none ∨
      ∃ m', nodeAt (rmNode n p) q = some m' ∧ m'.child s = none := by
  intro p
  induction p with
  | nil =>
    intro n _ q s m hq hs
    exact Or.inr ⟨m, hq, hs⟩
  | cons nm rest ih =>
    intro n hu q s m hq hs
    cases rest with
    | nil =>
      have hr : rmNode n [nm] = n.withChildren (removeChild n.children nm) :=
        rfl
      rw [hr]
      cases q with
      | nil =>
        rw [nodeAt_nil] at hq
        cases hq
        exact Or.inr ⟨_, nodeAt_nil _, child_removeChild_none hs⟩
      | cons a q' =>
        by_cases ha : a = nm
        · subst ha
          left
          rw [nodeAt_cons_none (child_withChildren_removeChild_self hu)]
        · cases hca : n.child a with
          | none => rw [nodeAt_cons_none hca] at hq; exact absurd hq (by simp)
          | some cc =>
            rw [nodeAt_cons_some hca] at hq
            right
            refine ⟨m, ?_, hs⟩
            rw [nodeAt_cons_some
              (show (n.withChildren (removeChild n.children nm)).child a
                  = some cc by
                rw [child_withChildren_removeChild ha]; exact hca)]
            exact hq
    | cons r rest' =>
      cases hc : n.child nm with
      | none =>
        rw [rmNode_cons_cons_none hc]
        exact Or.inr ⟨m, hq, hs⟩
      | some c =>
        rw [rmNode_cons_cons_some hc]
        by_cases hp : ((rmNode c (r :: rest')).children.isEmpty
            && (rmNode c (r :: rest')).isPartialNode) = true
        · rw [if_pos hp]
          cases q with
          | nil =>
            rw [nodeAt_nil] at hq
            cases hq
            exact Or.inr ⟨_, nodeAt_nil _, child_removeChild_none hs⟩
          | cons a q' =>
            by_cases ha : a = nm
            · subst ha
              left
              rw [nodeAt_cons_none (child_withChildren_removeChild_self hu)]
            · cases hca : n.child a with
              | none =>
                rw [nodeAt_cons_none hca] at hq; exact absurd hq (by simp)
              | some cc =>
                rw [nodeAt_cons_some hca] at hq
                right
                refine ⟨m, ?_, hs⟩
                rw [nodeAt_cons_some
                  (show (n.withChildren (removeChild n.children nm)).child a
                      = some cc by
                    rw [child_withChildren_removeChild ha]; exact hca)]
                exact hq
        · rw [if_neg hp]
          have hcn : (rmNode c (r :: rest')).name = nm := by
            rw [rmNode_name]; exact Node.child_name hc
          cases q with
          | nil =>
            rw [nodeAt_nil] at hq
            cases hq
            have hsnm : s ≠ nm := by
              intro he; rw [he, hc] at hs; exact absurd hs (by simp)
            right
            refine ⟨_, nodeAt_nil _, ?_⟩
            rw [child_withChildren_replaceChild hsnm hcn]
            exact hs
          | cons a q' =>
            by_cases ha : a = nm
            · subst ha
              rw [nodeAt_cons_some hc] at hq
              rw [nodeAt_cons_some
                (child_withChildren_replaceChild_eq hc hcn)]
              exact ih c (uniq_child hu hc) q' s m hq hs
            · cases hca : n.child a with
              | none =>
                rw [nodeAt_cons_none hca] at hq; exact absurd hq (by simp)
              | some cc =>
                rw [nodeAt_cons_some hca] at hq
                right
                refine ⟨m, ?_, hs⟩
                rw [nodeAt_cons_some
                  (show (n.withChildren (replaceChild n.children nm
                      (rmNode c (r :: rest')))).child a = some cc by
                    rw [child_withChildren_replaceChild ha hcn]; exact hca)]
                exact hq

theorem nodeAt_none_decomp : ∀ (q : List String) (n : Node),
    nodeAt n q = none →
    ∃ q₁ s q₂, q = q₁ ++ s :: q₂ ∧
      ∃ m, nodeAt n q₁ = some m ∧ m.child s = none := by
  intro q
  induction q with
  | nil => intro n h; rw [nodeAt_nil] at h; exact absurd h (by simp)
  | cons a q' ih =>
    intro n h
    cases hc : n.child a with
    | none => exact ⟨[], a, q', rfl, n, nodeAt_nil n, hc⟩
    | some c =>
      rw [nodeAt_cons_some hc] at h
      obtain ⟨q₁, s, q₂, rfl, m, hm, hms⟩ := ih c h
      exact ⟨a :: q₁, s, q₂, rfl, m, by rw [nodeAt_cons_some hc]; exact hm,
        hms⟩

/-- In a duplicate-free tree, `_rm_node` keeps unresolvable paths
unresolvable. -/
theorem rmNode_nodeAt_none {p : List String} {n : Node}
    (hu : uniqNames n = true) {q : List String}
    (h : nodeAt n q = none) : nodeAt (rmNode n p) q = none := by
  obtain ⟨q₁, s, q₂, rfl, m, hm, hms⟩ := nodeAt_none_decomp q n h
  rcases rmNode_child_none p n hu q₁ s m hm hms with h1 | ⟨m', hm', hms'⟩
  · rw [show q₁ ++ s :: q₂ = (q₁ ++ [s]) ++ q₂ by
      rw [List.append_assoc]; rfl, nodeAt_append, nodeAt_append, h1]
    rfl
  · rw [show q₁ ++ s :: q₂ = (q₁ ++ [s]) ++ q₂ by
      rw [List.append_assoc]; rfl, nodeAt_append, nodeAt_append, hm']
    rw [show ((some m').bind fun n => nodeAt n [s])
      = nodeAt m' [s] from rfl, nodeAt_cons_none hms']
    rfl

/-- Attaching a node with a name fresh in the target directory preserves
uniqueness. -/
theorem addChildAt_uniq : ∀ {dp : List String} {root c t' : Node},
    addChildAt root dp c = some t' → uniqNames root = true →
    uniqNames c = true →
    (∀ m, nodeAt root dp = some m → m.child c.name = none) →
    uniqNames t' = true := by
  intro dp
  induction dp with
  | nil =>
    intro root c t' h hu hc hf
    rw [show addChildAt root [] c = some (root.add_child c) from rfl] at h
    cases h
    exact uniq_add_child hu hc (hf root (nodeAt_nil root))
  | cons nm rest ih =>
    intro root c t' h hu hc hf
    cases hcn : root.child nm with
    | none => rw [show addChildAt root (nm :: rest) c
        = match root.child nm with
          | none => none
          | some ch => (addChildAt ch rest c).map (root.replace_child nm)
        from rfl, hcn] at h; exact absurd h (by simp)
    | some ch =>
      rw [addChildAt_cons_some hcn] at h
      cases ha : addChildAt ch rest c with
      | none => rw [ha] at h; exact absurd h (by simp)
      | some u =>
        rw [ha] at h
        simp only [Option.map_some', Option.some.injEq] at h
        subst h
        refine uniq_replace_child hu
          (ih ha (uniq_child hu hcn) hc ?_) ?_
        · intro m hm
          exact hf m (by rw [nodeAt_cons_some hcn]; exact hm)
        · rw [addChildAt_name ha]
          exact Node.child_name hcn

theorem nodeAt_partial_nil_append (e : String) :
    ∀ (p : List String) (x : String),
      nodeAt (.PartialNode e []) (p ++ [x]) = none := by
  intro p x
  cases p with
  | nil => rfl
  | cons a t => rfl

/-- `insert` preserves sibling-name uniqueness when the inserted node's
name does not yet exist in the directory the walk attaches it to. -/
theorem insertGo_uniq :
    ∀ {parts : List String} {cur node t' : Node},
      insertGo cur parts node = .ok t' →
      uniqNames cur = true → uniqNames node = true →
      nodeAt cur (parts.filter (fun e => e != "") ++ [node.name]) = none →
      uniqNames t' = true := by
  intro parts
  induction parts with
  | nil =>
    intro cur node t' h hu hn hfresh
    have hdir := insertGo_ok_dir h
    rw [insertGo_nil_dir hdir] at h
    cases h
    rw [show List.filter (fun e => e != "") ([] : List String) = []
      from rfl, List.nil_append] at hfresh
    have hcn : cur.child node.name = none := by
      cases hcc : cur.child node.name with
      | none => rfl
      | some x =>
        rw [nodeAt_cons_some hcc, nodeAt_nil] at hfresh
        exact absurd hfresh (by simp)
    exact uniq_add_child hu hn hcn
  | cons e rest ih =>
    intro cur node t' h hu hn hfresh
    rw [insertGo_cons] at h
    by_cases he : e = ""
    · rw [if_pos he] at h
      have hf : (e :: rest).filter (fun e => e != "")
          = rest.filter (fun e => e != "") := by simp [he]
      rw [hf] at hfresh
      exact ih h hu hn hfresh
    · rw [if_neg he] at h
      have hf : (e :: rest).filter (fun e => e != "")
          = e :: rest.filter (fun e => e != "") := by simp [he]
      rw [hf, List.cons_append] at hfresh
      cases hc : cur.child e with
      | some next =>
        rw [hc] at h
        have h2 : (insertGo next rest node).map (cur.replace_child e)
            = .ok t' := h
        cases hi : insertGo next rest node with
        | error err => rw [hi] at h2; exact absurd h2 (by simp [Except.map])
        | ok next' =>
          rw [hi] at h2
          simp only [Except.map, Except.ok.injEq] at h2
          subst h2
          have hnn : next'.name = e := by
            rw [insertGo_name hi]; exact Node.child_name hc
          rw [nodeAt_cons_some hc] at hfresh
          exact uniq_replace_child hu
            (ih hi (uniq_child hu hc) hn hfresh) hnn
      | none =>
        rw [hc] at h
        have hdir : cur.is_directory = true := by
          cases cur with
          | ValueNode nm v => exact absurd h (by simp)
          | DictNode nm cs => rfl
          | PartialNode nm cs => rfl
        have h' : (insertGo (.PartialNode e []) rest node).map cur.add_child
            = .ok t' := by
          cases cur with
          | ValueNode nm v => exact absurd h (by simp)
          | DictNode nm cs => exact h
          | PartialNode nm cs => exact h
        cases hi : insertGo (.PartialNode e []) rest node with
        | error err => rw [hi] at h'; exact absurd h' (by simp [Except.map])
        | ok sub =>
          rw [hi] at h'
          simp only [Except.map, Except.ok.injEq] at h'
          subst h'
          have hsn : sub.name = e := insertGo_name hi
          have hsu : uniqNames sub = true :=
            ih hi rfl hn (nodeAt_partial_nil_append e _ node.name)
          refine uniq_add_child hu hsu ?_
          rw [hsn]
          exact hc

/-- The insert walk of a canonical full name: leading empty segment
filtered away. -/
theorem filter_splitSlash_fullNameOf (ps : List String)
    (h1 : ∀ e ∈ ps, e.data ≠ []) (h2 : ∀ e ∈ ps, '/' ∉ e.data) :
    (splitSlash (fullNameOf ps)).filter (fun e => e != "") = ps := by
  cases hps : ps with
  | nil => rfl
  | cons p t =>
    rw [splitSlash_fullNameOf (p :: t) (by simp) (by rw [← hps]; exact h2),
      List.filter_cons, if_neg (by decide)]
    refine List.filter_eq_self.mpr (fun a ha => ?_)
    have hane : a ≠ "" := fun h =>
      h1 a (by rw [hps]; exact ha) (by rw [h])
    simp only [bne_iff_ne, ne_eq]
    exact hane

/-- `do_mv` with the source resolution discharged. -/
theorem do_mv_eq {root : Node} {cwd : List String} {src dst : String}
    {sp : List String} {sn : Node}
    (hsrc : Tree.resolve root cwd src = some (sp, sn)) :
    do_mv root cwd src dst =
      (if fullNameOf sp = Tree.resolve_path cwd dst then (.noop, root)
       else if startsWithS (fullNameOf sp ++ "/")
           (Tree.resolve_path cwd dst ++ "/") then
         (.selfSubtree, root)
       else
         match Tree.resolve root cwd (Tree.resolve_path cwd dst) with
         | some (dp, destNode) =>
           if destNode.is_directory then
             match addChildAt (rmNode root sp) dp sn with
             | some t2 => (.ok, t2)
             | none => (.ok, rmNode root sp)
           else (.overwrite, root)
         | none =>
           match Tree.insert (rmNode root sp)
               (dirname (Tree.resolve_path cwd dst))
               (sn.setName (basename (Tree.resolve_path cwd dst))) with
           | .ok t2 => (.ok, t2)
           | .error e => (.exc e, rmNode root sp)) := by
  unfold do_mv
  rw [hsrc]

/-- **C6 (amended): sibling-name uniqueness.**  `rm` always preserves the
property that the children of every Group/JoinedGroup have pairwise
distinct names.  `insert`, `cp` and `mv` preserve it provided the directory
receiving the attached node has no child with the attached node's name
(`add_child` itself never checks for collisions): for `insert`, the
attach path extended by the node's name must resolve to nothing; for `cp`
and `mv`, if the canonicalized destination resolves, the resolved
destination node must have no child named like the source. -/
theorem sibling_uniqueness_preservation :
    (∀ (root : Node) (cwd : List String) (path : String)
        (out : OpOut) (root' : Node), uniqNames root = true →
      do_rm root cwd path = (out, root') → uniqNames root' = true) ∧
    (∀ (root : Node) (path : String) (node t' : Node),
      uniqNames root = true → uniqNames node = true →
      nodeAt root ((splitSlash path).filter (fun e => e != "")
        ++ [node.name]) = none →
      Tree.insert root path node = .ok t' → uniqNames t' = true) ∧
    (∀ (root : Node) (cwd : List String) (src dst : String)
        (sp : List String) (sn root' : Node), uniqNames root = true →
      Tree.resolve root cwd src = some (sp, sn) →
      (∀ dp dn, Tree.resolve root cwd (Tree.resolve_path cwd dst)
          = some (dp, dn) → dn.child sn.name = none) →
      do_cp root cwd src dst = (.ok, root') → uniqNames root' = true) ∧
    (∀ (root : Node) (cwd : List String) (src dst : String)
        (sp : List String) (sn root' : Node), uniqNames root = true →
      Tree.resolve root cwd src = some (sp, sn) →
      (∀ dp dn, Tree.resolve root cwd (Tree.resolve_path cwd dst)
          = some (dp, dn) → dn.child sn.name = none) →
      do_mv root cwd src dst = (.ok, root') → uniqNames root' = true) := by
  refine ⟨?_, ?_, ?_, ?_⟩
  · -- rm
    intro root cwd path out root' hu hrm
    unfold do_rm at hrm
    cases hr : Tree.resolve root cwd path with
    | none =>
      rw [hr] at hrm
      have hrm2 : ((.notFound, root) : OpOut × Node) = (out, root') := hrm
      have heq2 : _ = root' := congrArg Prod.snd hrm2
      rw [← heq2]
      exact hu
    | some pr =>
      obtain ⟨p, n⟩ := pr
      rw [hr] at hrm
      have hrm2 : (if p.isEmpty then ((.rootViolation, root) : OpOut × Node)
          else (.ok, rmNode root p)) = (out, root') := hrm
      by_cases hp : p.isEmpty = true
      · rw [if_pos hp] at hrm2
        have heq2 : _ = root' := congrArg Prod.snd hrm2
        rw [← heq2]
        exact hu
      · rw [if_neg hp] at hrm2
        have heq2 : _ = root' := congrArg Prod.snd hrm2
        rw [← heq2]
        exact rmNode_uniq p root hu
  · -- insert
    intro root path node t' hu hn hfresh hins
    exact insertGo_uniq hins hu hn hfresh
  · -- cp
    intro root cwd src dst sp sn root' hu hsrc hfresh hcp
    have hsn : nodeAt root sp = some sn := Tree.resolve_nodeAt hsrc
    have hsnu : uniqNames sn = true := uniq_nodeAt hu hsn
    obtain ⟨cps, hdest, hprops⟩ := resolve_path_spec cwd dst
    rw [do_cp_eq hsrc, hdest] at hcp
    by_cases hq1 : fullNameOf sp = fullNameOf cps
    · rw [if_pos hq1] at hcp; simp at hcp
    rw [if_neg hq1] at hcp
    by_cases hq2 : startsWithS (fullNameOf sp ++ "/")
        (fullNameOf cps ++ "/") = true
    · rw [if_pos hq2] at hcp; simp at hcp
    rw [if_neg hq2] at hcp
    cases hdr : Tree.resolve root cwd (fullNameOf cps) with
    | some pr =>
      obtain ⟨dp, dn⟩ := pr
      rw [hdr] at hcp
      have hcp2 : (if dn.is_directory then
          (match addChildAt root dp (cloneNode sn none) with
          | some t2 => ((.ok, t2) : OpOut × Node)
          | none => (.ok, root))
        else (.overwrite, root)) = (.ok, root') := hcp
      have hdn : nodeAt root dp = some dn := Tree.resolve_nodeAt hdr
      have hfr : dn.child sn.name = none :=
        hfresh dp dn (by rw [hdest]; exact hdr)
      by_cases hdir : dn.is_directory = true
      · rw [if_pos hdir] at hcp2
        cases hac : addChildAt root dp (cloneNode sn none) with
        | none =>
          rw [hac] at hcp2
          have hcp3 : ((.ok, root) : OpOut × Node) = (.ok, root') := hcp2
          have heq2 : _ = root' := congrArg Prod.snd hcp3
          rw [← heq2]
          exact hu
        | some t2 =>
          rw [hac] at hcp2
          have hcp3 : ((.ok, t2) : OpOut × Node) = (.ok, root') := hcp2
          have heq2 : _ = root' := congrArg Prod.snd hcp3
          rw [← heq2]
          have hacs : addChildAt root dp sn = some t2 := hac
          refine addChildAt_uniq hacs hu hsnu ?_
          intro m hm
          rw [hdn] at hm
          cases hm
          exact hfr
      · rw [if_neg hdir] at hcp2
        simp at hcp2
    | none =>
      rw [hdr] at hcp
      have hcp2 : (match Tree.insert root (dirname (fullNameOf cps))
          (cloneNode sn (some (basename (fullNameOf cps)))) with
        | .ok t2 => ((.ok, t2) : OpOut × Node)
        | .error e => (.exc e, root)) = (.ok, root') := hcp
      have hcx : cps ≠ [] := by
        intro h; subst h
        rw [show fullNameOf ([] : List String) = "/" from rfl,
          resolve_slash] at hdr
        exact absurd hdr (by simp)
      have hnone : nodeAt root cps = none := by
        have hrc := resolve_canonical root cwd cps hprops hcx
        rw [hrc] at hdr
        cases hnc : nodeAt root cps with
        | none => rfl
        | some m => rw [hnc] at hdr; exact absurd hdr (by simp)
      have hne' : ∀ e ∈ cps, e.data ≠ [] :=
        fun e he => data_ne_of_ne_empty (fun h => (hprops e he).1 (Or.inl h))
      have hns : ∀ e ∈ cps, '/' ∉ e.data := fun e he => (hprops e he).2.2
      rw [dirname_fullNameOf cps hcx hne' hns,
        basename_fullNameOf cps hcx hne' hns] at hcp2
      cases hins : Tree.insert root (fullNameOf cps.dropLast)
          (cloneNode sn (some (cps.getLastD ""))) with
      | error e =>
        rw [hins] at hcp2
        have hcp3 : ((.exc e, root) : OpOut × Node) = (.ok, root') := hcp2
        exact absurd (congrArg Prod.fst hcp3) (by simp)
      | ok t2 =>
        rw [hins] at hcp2
        have hcp3 : ((.ok, t2) : OpOut × Node) = (.ok, root') := hcp2
        have heq2 : _ = root' := congrArg Prod.snd hcp3
        rw [← heq2]
        have hins' : insertGo root (splitSlash (fullNameOf cps.dropLast))
            (cloneNode sn (some (cps.getLastD ""))) = .ok t2 := hins
        have hfilt : (splitSlash (fullNameOf cps.dropLast)).filter
            (fun e => e != "") = cps.dropLast :=
          filter_splitSlash_fullNameOf cps.dropLast
            (fun e he => hne' e ((List.dropLast_prefix cps).subset he))
            (fun e he => hns e ((List.dropLast_prefix cps).subset he))
        have hnm : (cloneNode sn (some (cps.getLastD ""))).name
            = cps.getLastD "" := Node.name_setName sn _
        have hclu : uniqNames (cloneNode sn (some (cps.getLastD ""))) = true := by
          have hq : uniqNames (sn.setName (cps.getLastD "")) = true := by
            rw [uniqNames_setName]; exact hsnu
          exact hq
        refine insertGo_uniq hins' hu hclu ?_
        rw [hfilt, hnm, dropLast_append_getLastD cps "" hcx]
        exact hnone
  · -- mv
    intro root cwd src dst sp sn root' hu hsrc hfresh hmv
    have hsn : nodeAt root sp = some sn := Tree.resolve_nodeAt hsrc
    have hsnu : uniqNames sn = true := uniq_nodeAt hu hsn
    have ht1u : uniqNames (rmNode root sp) = true := rmNode_uniq sp root hu
    obtain ⟨cps, hdest, hprops⟩ := resolve_path_spec cwd dst
    rw [do_mv_eq hsrc, hdest] at hmv
    by_cases hq1 : fullNameOf sp = fullNameOf cps
    · rw [if_pos hq1] at hmv; simp at hmv
    rw [if_neg hq1] at hmv
    by_cases hq2 : startsWithS (fullNameOf sp ++ "/")
        (fullNameOf cps ++ "/") = true
    · rw [if_pos hq2] at hmv; simp at hmv
    rw [if_neg hq2] at hmv
    cases hdr : Tree.resolve root cwd (fullNameOf cps) with
    | some pr =>
      obtain ⟨dp, dn⟩ := pr
      rw [hdr] at hmv
      have hmv2 : (if dn.is_directory then
          (match addChildAt (rmNode root sp) dp sn with
          | some t2 => ((.ok, t2) : OpOut × Node)
          | none => (.ok, rmNode root sp))
        else (.overwrite, root)) = (.ok, root') := hmv
      have hdn : nodeAt root dp = some dn := Tree.resolve_nodeAt hdr
      have hfr : dn.child sn.name = none :=
        hfresh dp dn (by rw [hdest]; exact hdr)
      by_cases hdir : dn.is_directory = true
      · rw [if_pos hdir] at hmv2
        cases hac : addChildAt (rmNode root sp) dp sn with
        | none =>
          rw [hac] at hmv2
          have hmv3 : ((.ok, rmNode root sp) : OpOut × Node)
              = (.ok, root') := hmv2
          have heq2 : _ = root' := congrArg Prod.snd hmv3
          rw [← heq2]
          exact ht1u
        | some t2 =>
          rw [hac] at hmv2
          have hmv3 : ((.ok, t2) : OpOut × Node) = (.ok, root') := hmv2
          have heq2 : _ = root' := congrArg Prod.snd hmv3
          rw [← heq2]
          refine addChildAt_uniq hac ht1u hsnu ?_
          intro m hm
          rcases rmNode_child_none sp root hu dp sn.name dn hdn hfr
            with h1 | ⟨m', hm', hms'⟩
          · rw [h1] at hm; exact absurd hm (by simp)
          · rw [hm'] at hm
            cases hm
            exact hms'
      · rw [if_neg hdir] at hmv2
        simp at hmv2
    | none =>
      rw [hdr] at hmv
      have hmv2 : (match Tree.insert (rmNode root sp)
          (dirname (fullNameOf cps))
          (sn.setName (basename (fullNameOf cps))) with
        | .ok t2 => ((.ok, t2) : OpOut × Node)
        | .error e => (.exc e, rmNode root sp)) = (.ok, root') := hmv
      have hcx : cps ≠ [] := by
        intro h; subst h
        rw [show fullNameOf ([] : List String) = "/" from rfl,
          resolve_slash] at hdr
        exact absurd hdr (by simp)
      have hnone : nodeAt root cps = none := by
        have hrc := resolve_canonical root cwd cps hprops hcx
        rw [hrc] at hdr
        cases hnc : nodeAt root cps with
        | none => rfl
        | some m => rw [hnc] at hdr; exact absurd hdr (by simp)
      have hne' : ∀ e ∈ cps, e.data ≠ [] :=
        fun e he => data_ne_of_ne_empty (fun h => (hprops e he).1 (Or.inl h))
      have hns : ∀ e ∈ cps, '/' ∉ e.data := fun e he => (hprops e he).2.2
      rw [dirname_fullNameOf cps hcx hne' hns,
        basename_fullNameOf cps hcx hne' hns] at hmv2
      cases hins : Tree.insert (rmNode root sp) (fullNameOf cps.dropLast)
          (sn.setName (cps.getLastD "")) with
      | error e =>
        rw [hins] at hmv2
        have hmv3 : ((.exc e, rmNode root sp) : OpOut × Node)
            = (.ok, root') := hmv2
        exact absurd (congrArg Prod.fst hmv3) (by simp)
      | ok t2 =>
        rw [hins] at hmv2
        have hmv3 : ((.ok, t2) : OpOut × Node) = (.ok, root') := hmv2
        have heq2 : _ = root' := congrArg Prod.snd hmv3
        rw [← heq2]
        have hins' : insertGo (rmNode root sp)
            (splitSlash (fullNameOf cps.dropLast))
            (sn.setName (cps.getLastD "")) = .ok t2 := hins
        have hfilt : (splitSlash (fullNameOf cps.dropLast)).filter
            (fun e => e != "") = cps.dropLast :=
          filter_splitSlash_fullNameOf cps.dropLast
            (fun e he => hne' e ((List.dropLast_prefix cps).subset he))
            (fun e he => hns e ((List.dropLast_prefix cps).subset he))
        have hclu : uniqNames (sn.setName (cps.getLastD "")) = true := by
          rw [uniqNames_setName]; exact hsnu
        refine insertGo_uniq hins' ht1u hclu ?_
        rw [hfilt, Node.name_setName, dropLast_append_getLastD cps "" hcx]
        exact rmNode_nodeAt_none hu hnone

/-- Witness for C6 (amended): `rm /a` on `{"a": 1, "b": {"a": 7}}` and
`mv /a /c` on `{"a": 1, "c": {}}` both yield duplicate-free trees. -/
theorem sibling_uniqueness_preservation_witness :
    uniqNames (.DictNode "" [.DictNode "b" [.ValueNode "a" 7]]) = true ∧
    uniqNames (.DictNode "" [.DictNode "c" [.ValueNode "a" 1]]) = true :=
  ⟨sibling_uniqueness_preservation.1
      (.DictNode "" [.ValueNode "a" 1, .DictNode "b" [.ValueNode "a" 7]])
      [] "/a" .ok (.DictNode "" [.DictNode "b" [.ValueNode "a" 7]]) rfl rfl,
   sibling_uniqueness_preservation.2.2.2
      (.DictNode "" [.ValueNode "a" 1, .DictNode "c" []])
      [] "/a" "/c" ["a"] (.ValueNode "a" 1)
      (.DictNode "" [.DictNode "c" [.ValueNode "a" 1]])
      rfl rfl
      (fun dp dn h => by
        have h' : (some ((["c"], Node.DictNode "c" []))
            : Option (List String × Node)) = some (dp, dn) := h
        have h2 : Node.DictNode "c" [] = dn :=
          congrArg Prod.snd (Option.some.inj h')
        rw [← h2]
        rfl)
      rfl⟩

/-! ## C1: the round-trip law -/

/-- Pairwise-distinct keys of a `dict` level (automatic for a Python
`dict`; our association lists must state it). -/
def distinctKeysB : PyDict → Bool
  | [] => true
  | (k, _) :: rest => !(rest.any fun p => p.1 == k) && distinctKeysB rest

/-- The dot-joins of all nonempty prefixes of a chunk list:
`prefixJoins [a, b] = [a, a.b]`. -/
def prefixJoins : List String → List String
  | [] => []
  | c :: rest => c :: (prefixJoins rest).map fun s => c ++ "." ++ s

mutual

/-- Freedom from dotted-key/Group ambiguity, as described by the claim: at
every level the keys are pairwise distinct and no proper dot-prefix of a
dotted Leaf key occurs as a key of the same level; nested mappings satisfy
the same recursively. -/
def noAmbigD (d : PyDict) : Bool :=
  distinctKeysB d && noAmbigItems d d
termination_by (sizeOf d, 2)
decreasing_by all_goals omega

def noAmbigItems (lvl : PyDict) : PyDict → Bool
  | [] => true
  | (k, v) :: rest => noAmbigEntryV lvl k v && noAmbigItems lvl rest
termination_by l => (sizeOf l, 1)
decreasing_by all_goals (simp_wf; omega)

def noAmbigEntryV (lvl : PyDict) (k : String) : SDVal → Bool
  | .vleaf _ =>
    !(hasDot k) ||
      (prefixJoins (splitDot k).dropLast).all fun p => (lookupD lvl p).isNone
  | .vdict items => noAmbigD items
termination_by v => (sizeOf v, 0)
decreasing_by all_goals (simp_wf; omega)

end

mutual

/-- One-way inclusion of nested mappings up to ordering: every binding of
the first mapping is matched by a lookup in the second with an equivalent
value.  `dictLe d e && dictLe e d` is mapping equality up to ordering. -/
def valLe : SDVal → SDVal → Bool
  | .vleaf x, .vleaf y => x == y
  | .vdict d, .vdict e => dictLe d e
  | _, _ => false

def dictLe : PyDict → PyDict → Bool
  | [], _ => true
  | (k, v) :: rest, e =>
    (match lookupD e k with
     | some w => valLe v w
     | none => false) && dictLe rest e

end

/-- The merged `state_dict` of a directory node's children (for the root
this is `root_state_dict`). -/
def serC (n : Node) : PyDict :=
  state_dict_children n.children

mutual

/-- The serialization-disjointness invariant of built trees: the
`state_dict` contributions of any node's children have pairwise disjoint
key sets, recursively. -/
def serOk : Node → Bool
  | .ValueNode _ _ => true
  | .DictNode _ cs => serOkList cs
  | .PartialNode _ cs => serOkList cs

def serOkList : List Node → Bool
  | [] => true
  | c :: cs =>
    serOk c &&
    ((c.state_dict).all fun p =>
      !(cs.any fun d => (d.state_dict).any fun q => q.1 == p.1)) &&
    serOkList cs

end

theorem lookupD_eq_none : ∀ {d : PyDict} {k : String},
    lookupD d k = none ↔ ∀ p ∈ d, p.1 ≠ k := by
  intro d k
  induction d with
  | nil => simp [lookupD]
  | cons p rest ih =>
    obtain ⟨k', v⟩ := p
    show (if k' = k then some v else lookupD rest k) = none ↔ _
    by_cases hk : k' = k
    · rw [if_pos hk]
      simp [hk]
    · rw [if_neg hk]
      rw [ih]
      simp only [List.mem_cons]
      constructor
      · rintro h p (rfl | hp)
        · exact hk
        · exact h p hp
      · intro h p hp
        exact h p (Or.inr hp)

theorem lookupD_append (d e : PyDict) (k : String) :
    lookupD (d ++ e) k
      = match lookupD d k with
        | some v => some v
        | none => lookupD e k := by
  induction d with
  | nil => rfl
  | cons p rest ih =>
    obtain ⟨k', v⟩ := p
    show (if k' = k then some v else lookupD (rest ++ e) k) = _
    by_cases hk : k' = k
    · rw [if_pos hk]
      rw [show lookupD ((k', v) :: rest) k = if k' = k then some v
        else lookupD rest k from rfl, if_pos hk]
    · rw [if_neg hk, ih]
      rw [show lookupD ((k', v) :: rest) k = if k' = k then some v
        else lookupD rest k from rfl, if_neg hk]

theorem lookupD_some_mem : ∀ {d : PyDict} {k : String} {v : SDVal},
    lookupD d k = some v → (k, v) ∈ d := by
  intro d k v
  induction d with
  | nil => intro h; exact absurd h (by simp [lookupD])
  | cons p rest ih =>
    obtain ⟨k', v'⟩ := p
    intro h
    rw [show lookupD ((k', v') :: rest) k = if k' = k then some v'
      else lookupD rest k from rfl] at h
    by_cases hk : k' = k
    · rw [if_pos hk] at h
      cases h
      subst hk
      exact List.mem_cons_self _ _
    · rw [if_neg hk] at h
      exact List.mem_cons_of_mem _ (ih h)

theorem distinctKeys_cons_iff {k : String} {v : SDVal} {rest : PyDict} :
    distinctKeysB ((k, v) :: rest) = true ↔
      (∀ p ∈ rest, p.1 ≠ k) ∧ distinctKeysB rest = true := by
  show (!(rest.any fun p => p.1 == k) && distinctKeysB rest) = true ↔ _
  rw [Bool.and_eq_true, Bool.not_eq_eq_eq_not, Bool.not_true,
    List.any_eq_false]
  simp

theorem mem_lookupD_distinct : ∀ {d : PyDict} {k : String} {v : SDVal},
    distinctKeysB d = true → (k, v) ∈ d → lookupD d k = some v := by
  intro d k v
  induction d with
  | nil => intro _ h; exact absurd h (by simp)
  | cons p rest ih =>
    obtain ⟨k', v'⟩ := p
    intro hd hm
    obtain ⟨h1, h2⟩ := distinctKeys_cons_iff.mp hd
    rw [show lookupD ((k', v') :: rest) k = if k' = k then some v'
      else lookupD rest k from rfl]
    rcases List.mem_cons.mp hm with he | hm'
    · obtain ⟨rfl, rfl⟩ := Prod.mk.injEq .. |>.mp he.symm
      rw [if_pos rfl]
    · by_cases hk : k' = k
      · exact absurd (show ((k, v) : String × SDVal).1 = k' by rw [hk])
          (by simpa using h1 (k, v) hm')
      · rw [if_neg hk]
        exact ih h2 hm'

theorem update1_fresh {d : PyDict} {k : String} (v : SDVal)
    (h : lookupD d k = none) : update1 d k v = d ++ [(k, v)] := by
  induction d with
  | nil => rfl
  | cons p rest ih =>
    obtain ⟨k', v'⟩ := p
    rw [show lookupD ((k', v') :: rest) k = if k' = k then some v'
      else lookupD rest k from rfl] at h
    by_cases hk : k' = k
    · rw [if_pos hk] at h; exact absurd h (by simp)
    · rw [if_neg hk] at h
      show (if k' = k then (k, v) :: rest else (k', v') :: update1 rest k v)
        = (k', v') :: rest ++ [(k, v)]
      rw [if_neg hk, ih h]
      rfl

theorem dictUpdate_fresh : ∀ {e d : PyDict},
    distinctKeysB e = true → (∀ p ∈ e, lookupD d p.1 = none) →
    dictUpdate d e = d ++ e := by
  intro e
  induction e with
  | nil => intro d _ _; simp [dictUpdate]
  | cons p e' ih =>
    intro d hd hf
    obtain ⟨k, v⟩ := p
    obtain ⟨h1, h2⟩ := distinctKeys_cons_iff.mp hd
    show dictUpdate (update1 d k v) e' = d ++ (k, v) :: e'
    rw [update1_fresh v (hf (k, v) (List.mem_cons_self _ _))]
    rw [ih h2 ?_]
    · rw [List.append_assoc]
      rfl
    · intro q hq
      rw [lookupD_append]
      rw [hf q (List.mem_cons_of_mem _ hq)]
      show lookupD [(k, v)] q.1 = none
      rw [show lookupD [(k, v)] q.1 = if k = q.1 then some v
        else lookupD [] q.1 from rfl, if_neg ?_]
      · rfl
      · intro he
        exact h1 q hq he.symm

theorem string_append_cancel_left {a b c : String}
    (h : a ++ b = a ++ c) : b = c := by
  apply String.ext
  have hd : a.data ++ b.data = a.data ++ c.data := by
    rw [← String.data_append, ← String.data_append, h]
  exact List.append_cancel_left hd

theorem joinDot_single (a : String) : joinDot [a] = a := by
  apply String.ext
  show List.intercalate ['.'] [a.data] = a.data
  simp [List.intercalate]

theorem splitDot_ne_nil (s : String) : splitDot s ≠ [] := by
  unfold splitDot
  intro h
  exact List.splitOnP_ne_nil _ _ (List.map_eq_nil.mp h)

theorem serOkList_cons_iff {c : Node} {cs : List Node} :
    serOkList (c :: cs) = true ↔
      serOk c = true ∧
      (∀ p ∈ c.state_dict, ∀ d ∈ cs, ∀ q ∈ d.state_dict, q.1 ≠ p.1) ∧
      serOkList cs = true := by
  show (serOk c &&
      ((c.state_dict).all fun p =>
        !(cs.any fun d => (d.state_dict).any fun q => q.1 == p.1)) &&
      serOkList cs) = true ↔ _
  rw [Bool.and_eq_true, Bool.and_eq_true, List.all_eq_true]
  constructor
  · rintro ⟨⟨h1, h2⟩, h3⟩
    refine ⟨h1, ?_, h3⟩
    intro p hp d hd q hq
    have hx := h2 p hp
    rw [Bool.not_eq_eq_eq_not, Bool.not_true, List.any_eq_false] at hx
    have hx2 := hx d hd
    cases hb : (d.state_dict.any fun q => q.1 == p.1) with
    | true => exact absurd hb hx2
    | false =>
      have hq3 := (List.any_eq_false.mp hb) q hq
      simpa using hq3
  · rintro ⟨h1, h2, h3⟩
    refine ⟨⟨h1, ?_⟩, h3⟩
    intro p hp
    rw [Bool.not_eq_eq_eq_not, Bool.not_true, List.any_eq_false]
    intro d hd hany
    obtain ⟨q, hq, hqe⟩ := List.any_eq_true.mp hany
    exact h2 p hp d hd q hq (by simpa using hqe)

theorem serOk_children {n : Node} (h : serOk n = true) :
    serOkList n.children = true := by
  cases n with
  | ValueNode nm v => rfl
  | DictNode nm cs => exact h
  | PartialNode nm cs => exact h

theorem serOkList_mem : ∀ {cs : List Node} {c : Node},
    serOkList cs = true → c ∈ cs → serOk c = true := by
  intro cs
  induction cs with
  | nil => intro c _ h; exact absurd h (by simp)
  | cons x rest ih =>
    intro c h hm
    obtain ⟨h1, _, h3⟩ := serOkList_cons_iff.mp h
    rcases List.mem_cons.mp hm with rfl | hm'
    · exact h1
    · exact ih h3 hm'

theorem state_dict_children_cons (c : Node) (cs : List Node) :
    state_dict_children (c :: cs) = state_dict_go c.state_dict cs := rfl

theorem state_dict_go_cons (acc : PyDict) (c : Node) (cs : List Node) :
    state_dict_go acc (c :: cs)
      = state_dict_go (dictUpdate acc c.state_dict) cs := rfl

theorem distinctKeys_append : ∀ {A B : PyDict},
    distinctKeysB A = true → distinctKeysB B = true →
    (∀ p ∈ A, ∀ q ∈ B, q.1 ≠ p.1) → distinctKeysB (A ++ B) = true := by
  intro A
  induction A with
  | nil => intro B _ hB _; exact hB
  | cons p rest ih =>
    intro B hA hB hdisj
    obtain ⟨k, v⟩ := p
    obtain ⟨h1, h2⟩ := distinctKeys_cons_iff.mp hA
    refine distinctKeys_cons_iff.mpr ⟨?_, ih h2 hB ?_⟩
    · intro q hq
      rcases List.mem_append.mp hq with hq' | hq'
      · exact h1 q hq'
      · exact hdisj (k, v) (List.mem_cons_self _ _) q hq'
    · intro p' hp' q hq
      exact hdisj p' (List.mem_cons_of_mem _ hp') q hq

theorem distinctKeys_map_prefix (nm : String) : ∀ {l : PyDict},
    distinctKeysB l = true →
    distinctKeysB (l.map fun p => (nm ++ "." ++ p.1, p.2)) = true := by
  intro l
  induction l with
  | nil => intro _; rfl
  | cons p rest ih =>
    intro h
    obtain ⟨k, v⟩ := p
    obtain ⟨h1, h2⟩ := distinctKeys_cons_iff.mp h
    rw [List.map_cons]
    refine distinctKeys_cons_iff.mpr ⟨?_, ih h2⟩
    intro q hq
    obtain ⟨q₀, hq₀, rfl⟩ := List.mem_map.mp hq
    intro he
    exact h1 q₀ hq₀ (string_append_cancel_left he)

/-- With pairwise-disjoint, individually duplicate-free contributions, the
`ret.update(...)` loop of `state_dict` is plain concatenation. -/
theorem state_dict_go_flat : ∀ (cs : List Node) (acc : PyDict),
    serOkList cs = true →
    (∀ c ∈ cs, distinctKeysB c.state_dict = true) →
    (∀ c ∈ cs, ∀ p ∈ c.state_dict, lookupD acc p.1 = none) →
    state_dict_go acc cs = acc ++ (cs.map Node.state_dict).flatten := by
  intro cs
  induction cs with
  | nil => intro acc _ _ _; simp [state_dict_go]
  | cons c cs' ih =>
    intro acc hok hdist hfresh
    obtain ⟨h1, hdisj, h3⟩ := serOkList_cons_iff.mp hok
    rw [state_dict_go_cons]
    rw [dictUpdate_fresh (hdist c (List.mem_cons_self _ _))
      (fun p hp => hfresh c (List.mem_cons_self _ _) p hp)]
    rw [ih (acc ++ c.state_dict) h3
      (fun d hd => hdist d (List.mem_cons_of_mem _ hd)) ?_]
    · rw [List.map_cons, List.flatten_cons, List.append_assoc]
    · intro d hd p hp
      rw [lookupD_append,
        hfresh d (List.mem_cons_of_mem _ hd) p hp]
      rw [lookupD_eq_none]
      intro q hq
      exact Ne.symm (hdisj q hq d hd p hp)

theorem state_dict_value (nm : String) (v : Val) :
    (Node.ValueNode nm v).state_dict = [(nm, .vleaf v)] := rfl

theorem state_dict_dict (nm : String) (cs : List Node) :
    (Node.DictNode nm cs).state_dict
      = [(nm, .vdict (state_dict_children cs))] := rfl

theorem state_dict_partial_node (nm : String) (cs : List Node) :
    (Node.PartialNode nm cs).state_dict
      = (state_dict_children cs).map fun p => (nm ++ "." ++ p.1, p.2) := rfl

/-- Under the disjointness invariant, the merged children mapping is the
plain concatenation of the children's `state_dict`s, it is duplicate-free,
and so is each contribution. -/
theorem ser_master : ∀ (N : Nat), ∀ (cs : List Node), sizeOf cs ≤ N →
    serOkList cs = true →
    state_dict_children cs = (cs.map Node.state_dict).flatten ∧
    distinctKeysB ((cs.map Node.state_dict).flatten) = true ∧
    (∀ c ∈ cs, distinctKeysB c.state_dict = true) := by
  intro N
  induction N with
  | zero =>
    intro cs h
    exfalso
    cases cs <;> simp at h
  | succ N ih =>
    intro cs hsz hok
    cases cs with
    | nil => exact ⟨rfl, rfl, by simp⟩
    | cons c cs' =>
      obtain ⟨h1, hdisj, h3⟩ := serOkList_cons_iff.mp hok
      have hszc : sizeOf cs' ≤ N := by
        have hs2 := List.cons.sizeOf_spec c cs'
        omega
      have hdist_each : ∀ d ∈ c :: cs', distinctKeysB d.state_dict = true := by
        intro d hd
        have hokd : serOk d = true := serOkList_mem hok hd
        have hszd : sizeOf d < sizeOf (c :: cs') := List.sizeOf_lt_of_mem hd
        cases d with
        | ValueNode nm v => rfl
        | DictNode nm ds => rfl
        | PartialNode nm ds =>
          have hszds : sizeOf ds ≤ N := by
            have hs1 := Node.PartialNode.sizeOf_spec nm ds
            omega
          obtain ⟨hflat, hdistf, _⟩ := ih ds hszds hokd
          rw [state_dict_partial_node, hflat]
          exact distinctKeys_map_prefix nm hdistf
      have hgo : state_dict_children (c :: cs')
          = (List.map Node.state_dict (c :: cs')).flatten := by
        rw [state_dict_children_cons,
          state_dict_go_flat cs' c.state_dict h3
            (fun d hd => hdist_each d (List.mem_cons_of_mem _ hd)) ?_]
        · rw [List.map_cons, List.flatten_cons]
        · intro d hd p hp
          rw [lookupD_eq_none]
          intro q hq
          exact Ne.symm (hdisj q hq d hd p hp)
      obtain ⟨hf2, hdcs', hd2⟩ := ih cs' hszc h3
      refine ⟨hgo, ?_, hdist_each⟩
      rw [List.map_cons, List.flatten_cons]
      refine distinctKeys_append (hdist_each c (List.mem_cons_self _ _))
        hdcs' ?_
      intro p hp q hq
      obtain ⟨l, hl, hql⟩ := List.mem_flatten.mp hq
      obtain ⟨d, hd, rfl⟩ := List.mem_map.mp hl
      exact hdisj p hp d hd q hql

theorem serOkList_single {n : Node} (h : serOk n = true) :
    serOkList [n] = true :=
  serOkList_cons_iff.mpr ⟨h, by simp, rfl⟩

theorem serC_eq_flat {n : Node} (h : serOk n = true) :
    serC n = (n.children.map Node.state_dict).flatten :=
  (ser_master (sizeOf n.children) _ le_rfl (serOk_children h)).1

theorem serC_distinct {n : Node} (h : serOk n = true) :
    distinctKeysB (serC n) = true := by
  rw [serC_eq_flat h]
  exact (ser_master (sizeOf n.children) _ le_rfl (serOk_children h)).2.1

theorem state_dict_distinct {n : Node} (h : serOk n = true) :
    distinctKeysB n.state_dict = true :=
  (ser_master (sizeOf [n]) [n] le_rfl (serOkList_single h)).2.2 n
    (List.mem_singleton_self n)

theorem children_add_child {n : Node} (h : n.is_directory = true)
    (c : Node) : (n.add_child c).children = n.children ++ [c] := by
  cases n with
  | ValueNode nm v => exact absurd h (by simp [Node.is_directory])
  | DictNode nm cs => rfl
  | PartialNode nm cs => rfl

theorem is_directory_withChildren (n : Node) (cs : List Node) :
    (n.withChildren cs).is_directory = n.is_directory := by
  cases n <;> rfl

theorem isPartialNode_withChildren (n : Node) (cs : List Node) :
    (n.withChildren cs).isPartialNode = n.isPartialNode := by
  cases n <;> rfl

theorem find?_decomp : ∀ {cs : List Node} {nm : String} {old : Node},
    cs.find? (fun c => c.name == nm) = some old →
    ∃ A B, cs = A ++ old :: B ∧ (∀ d ∈ A, d.name ≠ nm) ∧
      ∀ c', replaceChild cs nm c' = A ++ c' :: B := by
  intro cs
  induction cs with
  | nil => intro nm old h; exact absurd h (by simp)
  | cons x rest ih =>
    intro nm old h
    by_cases hx : (x.name == nm) = true
    · rw [List.find?_cons, hx] at h
      have h2 : some x = some old := h
      cases h2
      refine ⟨[], rest, rfl, by simp, ?_⟩
      intro c'
      show (if x.name == nm then c' :: rest
        else x :: replaceChild rest nm c') = [] ++ c' :: rest
      rw [if_pos hx]
      rfl
    · rw [Bool.not_eq_true] at hx
      rw [List.find?_cons, hx] at h
      have h0 : List.find? (fun c => c.name == nm) rest = some old := h
      obtain ⟨A, B, h1, h2, h3⟩ := ih h0
      refine ⟨x :: A, B, by rw [h1]; rfl, ?_, ?_⟩
      · intro d hd
        rcases List.mem_cons.mp hd with rfl | hd'
        · simpa using hx
        · exact h2 d hd'
      · intro c'
        show (if x.name == nm then c' :: rest
          else x :: replaceChild rest nm c') = (x :: A) ++ c' :: B
        rw [if_neg (by rw [hx]; exact Bool.false_ne_true), h3 c']
        rfl

theorem lookupD_map_prefixed (nm k : String) : ∀ (l : PyDict),
    lookupD (l.map fun p => (nm ++ "." ++ p.1, p.2)) (nm ++ "." ++ k)
      = lookupD l k := by
  intro l
  induction l with
  | nil => rfl
  | cons p rest ih =>
    obtain ⟨k', v⟩ := p
    show (if nm ++ "." ++ k' = nm ++ "." ++ k then some v
      else lookupD (rest.map fun p => (nm ++ "." ++ p.1, p.2))
        (nm ++ "." ++ k)) = _
    by_cases hk : k' = k
    · subst hk
      rw [if_pos rfl]
      rw [show lookupD ((k', v) :: rest) k' = if k' = k' then some v
        else lookupD rest k' from rfl, if_pos rfl]
    · rw [if_neg (fun he => hk (string_append_cancel_left he)), ih]
      rw [show lookupD ((k', v) :: rest) k = if k' = k then some v
        else lookupD rest k from rfl, if_neg hk]

theorem lookupD_map_prefix_none {nm k : String}
    (h : ∀ k', k ≠ nm ++ "." ++ k') : ∀ (l : PyDict),
    lookupD (l.map fun p => (nm ++ "." ++ p.1, p.2)) k = none := by
  intro l
  induction l with
  | nil => rfl
  | cons p rest ih =>
    obtain ⟨k', v⟩ := p
    show (if nm ++ "." ++ k' = k then some v
      else lookupD (rest.map fun p => (nm ++ "." ++ p.1, p.2)) k) = none
    rw [if_neg (fun he => h k' he.symm), ih]

theorem serOkList_append_one : ∀ {cs : List Node} {c : Node},
    serOkList cs = true → serOk c = true →
    (∀ q ∈ c.state_dict, ∀ d ∈ cs, ∀ p ∈ d.state_dict, p.1 ≠ q.1) →
    serOkList (cs ++ [c]) = true := by
  intro cs
  induction cs with
  | nil =>
    intro c _ hc _
    exact serOkList_single hc
  | cons x rest ih =>
    intro c h hc hf
    obtain ⟨h1, h2, h3⟩ := serOkList_cons_iff.mp h
    refine serOkList_cons_iff.mpr ⟨h1, ?_,
      ih h3 hc (fun q hq d hd p hp =>
        hf q hq d (List.mem_cons_of_mem _ hd) p hp)⟩
    intro p hp d hd q hq
    rcases List.mem_append.mp hd with hd' | hd'
    · exact h2 p hp d hd' q hq
    · rw [List.mem_singleton.mp hd'] at hq
      exact Ne.symm (hf q hq x (List.mem_cons_self _ _) p hp)

theorem serOkList_replace : ∀ {A : List Node} {B : List Node}
    {old new : Node} {K : String},
    serOkList (A ++ old :: B) = true → serOk new = true →
    (∀ k q, (k, q) ∈ new.state_dict →
      (∃ q', (k, q') ∈ old.state_dict) ∨ k = K) →
    (∀ d ∈ A ++ old :: B, ∀ p ∈ d.state_dict, p.1 ≠ K) →
    serOkList (A ++ new :: B) = true := by
  intro A
  induction A with
  | nil =>
    intro B old new K h hnew hkeys hfresh
    obtain ⟨h1, h2, h3⟩ := serOkList_cons_iff.mp h
    refine serOkList_cons_iff.mpr ⟨hnew, ?_, h3⟩
    intro p hp d hd q hq
    obtain ⟨k, v⟩ := p
    rcases hkeys k v hp with ⟨q', hq'⟩ | rfl
    · exact h2 (k, q') hq' d hd q hq
    · exact hfresh d (List.mem_cons_of_mem _ hd) q hq
  | cons a A' ih =>
    intro B old new K h hnew hkeys hfresh
    obtain ⟨h1, h2, h3⟩ := serOkList_cons_iff.mp h
    refine serOkList_cons_iff.mpr ⟨h1, ?_,
      ih h3 hnew hkeys
        (fun d hd p hp => hfresh d (List.mem_cons_of_mem _ hd) p hp)⟩
    intro p hp d hd q hq
    rcases List.mem_append.mp hd with hd' | hd'
    · exact h2 p hp d (List.mem_append_left _ hd') q hq
    · rcases List.mem_cons.mp hd' with rfl | hd''
      · obtain ⟨k, v⟩ := q
        rcases hkeys k v hq with ⟨q', hq'⟩ | rfl
        · exact h2 p hp old (by simp) (k, q') hq'
        · exact Ne.symm (hfresh a (List.mem_cons_self _ _) p hp)
      · exact h2 p hp d (by simp [hd'']) q hq

theorem serOk_of_children {n : Node} {cs : List Node}
    (hd : n.is_directory = true) (h : serOkList cs = true) :
    serOk (n.withChildren cs) = true := by
  cases n with
  | ValueNode nm v => exact absurd hd (by simp [Node.is_directory])
  | DictNode nm cs0 => exact h
  | PartialNode nm cs0 => exact h

theorem mem_serC {P d : Node} {p : String × SDVal}
    (hok : serOk P = true) (hd : d ∈ P.children) (hp : p ∈ d.state_dict) :
    p ∈ serC P := by
  rw [serC_eq_flat hok]
  exact List.mem_flatten.mpr
    ⟨d.state_dict, List.mem_map.mpr ⟨d, hd, rfl⟩, hp⟩

theorem lookupD_ne_none_of_mem {d : PyDict} {p : String × SDVal}
    (h : p ∈ d) : lookupD d p.1 ≠ none := by
  intro hn
  exact lookupD_eq_none.mp hn p h rfl

theorem state_dict_of_partial_node {n : Node} (h : n.isPartialNode = true) :
    n.state_dict = (serC n).map fun p => (n.name ++ "." ++ p.1, p.2) := by
  cases n with
  | ValueNode nm v => exact absurd h (by simp [Node.isPartialNode])
  | DictNode nm cs => exact absurd h (by simp [Node.isPartialNode])
  | PartialNode nm cs => rfl

theorem serC_withChildren {n : Node} (hd : n.is_directory = true)
    (cs : List Node) : serC (n.withChildren cs) = state_dict_children cs := by
  unfold serC
  rw [Node.children_withChildren hd]

theorem serC_partial (nm : String) (cs : List Node) :
    serC (Node.PartialNode nm cs) = state_dict_children cs := rfl


theorem node_child_decomp {n : Node} {nm : String} {old : Node}
    (hdir : n.is_directory = true) (h : n.child nm = some old) :
    ∃ A B, n.children = A ++ old :: B ∧ (∀ d ∈ A, d.name ≠ nm) ∧
      ∀ c', (n.replace_child nm c').children = A ++ c' :: B := by
  obtain ⟨A, B, h1, h2, h3⟩ := find?_decomp h
  refine ⟨A, B, h1, h2, ?_⟩
  intro c'
  show (n.withChildren (replaceChild n.children nm c')).children = _
  rw [Node.children_withChildren hdir]
  exact h3 c'

/-- The dotted-key insertion walk: under the disjointness invariant and
freshness of every dot-prefix of the key, it succeeds, preserves the
parent's identity and invariant, and adds exactly the binding
`joinDot chunks ↦ x` to the parent's merged mapping. -/
theorem insert_dotted_master : ∀ (chunks : List String) (P : Node) (x : Val),
    chunks ≠ [] → P.is_directory = true → serOk P = true →
    (∀ j, 1 ≤ j → j < chunks.length →
      lookupD (serC P) (joinDot (chunks.take j)) = none) →
    lookupD (serC P) (joinDot chunks) = none →
    ∃ P', insert_dotted P chunks x = .ok P' ∧
      P'.name = P.name ∧ P'.is_directory = true ∧
      P'.isPartialNode = P.isPartialNode ∧ serOk P' = true ∧
      ∀ k, lookupD (serC P') k
        = if k = joinDot chunks then some (.vleaf x)
          else lookupD (serC P) k := by
  intro chunks
  induction chunks with
  | nil => intro P x hne; exact absurd rfl hne
  | cons c rest ih =>
    intro P x hne hdir hok hpre hfinal
    cases rest with
    | nil =>
      have hfin' : lookupD (serC P) c = none := by
        rw [← joinDot_single c]; exact hfinal
      have hokl' : serOkList (P.children ++ [.ValueNode c x]) = true := by
        refine serOkList_append_one (serOk_children hok) rfl ?_
        intro q hq d hd p hp
        rw [List.mem_singleton.mp hq]
        exact lookupD_eq_none.mp hfin' p (mem_serC hok hd hp)
      have hok' : serOk (P.add_child (.ValueNode c x)) = true := by
        have h := serOk_of_children hdir hokl'
        exact h
      have hser' : serC (P.add_child (.ValueNode c x))
          = serC P ++ [(c, .vleaf x)] := by
        rw [serC_eq_flat hok', children_add_child hdir,
          List.map_append, List.flatten_append, ← serC_eq_flat hok]
        simp [state_dict_value]
      refine ⟨P.add_child (.ValueNode c x), rfl, Node.name_add_child _ _,
        ?_, ?_, hok', ?_⟩
      · show (P.withChildren (P.children ++ [.ValueNode c x])).is_directory
          = true
        rw [is_directory_withChildren]; exact hdir
      · show (P.withChildren (P.children ++ [.ValueNode c x])).isPartialNode
          = P.isPartialNode
        rw [isPartialNode_withChildren]
      · intro k
        rw [hser', lookupD_append]
        by_cases hk : k = joinDot [c]
        · rw [if_pos hk, hk, joinDot_single, hfin']
          show (if c = c then some (SDVal.vleaf x) else lookupD [] c)
            = some (.vleaf x)
          rw [if_pos rfl]
        · rw [if_neg hk]
          cases hl : lookupD (serC P) k with
          | some v => rfl
          | none =>
            show (if c = k then some (SDVal.vleaf x) else lookupD [] k)
              = none
            rw [if_neg (fun he => hk (by rw [joinDot_single, ← he]))]
            rfl
    | cons c2 rest' =>
      have hKey : joinDot (c :: c2 :: rest')
          = c ++ "." ++ joinDot (c2 :: rest') := joinDot_cons_cons c c2 rest'
      have hfin1 : lookupD (serC P) c = none := by
        have h := hpre 1 le_rfl (by simp)
        rw [show (c :: c2 :: rest').take 1 = [c] from rfl,
          joinDot_single] at h
        exact h
      have h0 : insert_dotted P (c :: c2 :: rest') x
          = (match P.child c with
            | none => do
              let sub ← insert_dotted (.PartialNode c []) (c2 :: rest') x
              pure (P.add_child sub)
            | some next =>
              match next with
              | .PartialNode nm cs => do
                let sub ← insert_dotted (.PartialNode nm cs) (c2 :: rest') x
                pure (P.replace_child c sub)
              | _ => throw .assertionError) := rfl
      cases hchn : P.child c with
      | none =>
        rw [hchn] at h0
        have h1 : insert_dotted P (c :: c2 :: rest') x
            = (insert_dotted (.PartialNode c []) (c2 :: rest') x).bind
              (fun sub => pure (P.add_child sub)) := h0
        obtain ⟨sub, hsub_eq, hname, hdirs, hpart, hoks, hchar⟩ :=
          ih (.PartialNode c []) x (by simp) rfl rfl
            (fun j hj1 hj2 => rfl) rfl
        have hname' : sub.name = c := hname
        have hpart' : sub.isPartialNode = true := hpart
        have hchar' : ∀ k, lookupD (serC sub) k
            = if k = joinDot (c2 :: rest') then some (SDVal.vleaf x)
              else none := hchar
        have hsd : sub.state_dict
            = (serC sub).map fun p => (c ++ "." ++ p.1, p.2) := by
          rw [state_dict_of_partial_node hpart', hname']
        have h2 : insert_dotted P (c :: c2 :: rest') x
            = .ok (P.add_child sub) := by
          rw [h1, hsub_eq]
          rfl
        have hsubkeys : ∀ q ∈ sub.state_dict,
            q.1 = joinDot (c :: c2 :: rest') := by
          intro q hq
          rw [hsd] at hq
          obtain ⟨⟨k', q'⟩, hm, rfl⟩ := List.mem_map.mp hq
          show c ++ "." ++ k' = _
          have hne' := lookupD_ne_none_of_mem hm
          rw [hchar'] at hne'
          by_cases hk' : k' = joinDot (c2 :: rest')
          · rw [hk', ← hKey]
          · rw [if_neg hk'] at hne'
            exact absurd rfl hne'
        have hokl' : serOkList (P.children ++ [sub]) = true := by
          refine serOkList_append_one (serOk_children hok) hoks ?_
          intro q hq d hd p hp
          rw [hsubkeys q hq]
          exact lookupD_eq_none.mp hfinal p (mem_serC hok hd hp)
        have hok' : serOk (P.add_child sub) = true := by
          have h := serOk_of_children hdir hokl'
          exact h
        have hser' : serC (P.add_child sub) = serC P ++ sub.state_dict := by
          rw [serC_eq_flat hok', children_add_child hdir,
            List.map_append, List.flatten_append, ← serC_eq_flat hok]
          simp
        refine ⟨P.add_child sub, h2, Node.name_add_child _ _, ?_, ?_,
          hok', ?_⟩
        · show (P.withChildren (P.children ++ [sub])).is_directory = true
          rw [is_directory_withChildren]; exact hdir
        · show (P.withChildren (P.children ++ [sub])).isPartialNode
            = P.isPartialNode
          rw [isPartialNode_withChildren]
        · intro k
          rw [hser', lookupD_append]
          by_cases hk : k = joinDot (c :: c2 :: rest')
          · rw [if_pos hk, hk, hfinal, hsd, hKey,
              lookupD_map_prefixed c (joinDot (c2 :: rest')) (serC sub),
              hchar', if_pos rfl]
          · rw [if_neg hk]
            cases hl : lookupD (serC P) k with
            | some v => rfl
            | none =>
              rw [hsd]
              by_cases hex : ∃ k', k = c ++ "." ++ k'
              · obtain ⟨k', rfl⟩ := hex
                rw [lookupD_map_prefixed c k' (serC sub), hchar',
                  if_neg (fun he => hk (by rw [he, ← hKey]))]
              · exact lookupD_map_prefix_none
                  (fun k' he => hex ⟨k', he⟩) (serC sub)
      | some next =>
        have hnext_mem : next ∈ P.children := List.mem_of_find?_eq_some hchn
        have hnext_name : next.name = c := Node.child_name hchn
        cases next with
        | ValueNode nm v =>
          exfalso
          have hm : ((nm, SDVal.vleaf v) : String × SDVal)
              ∈ (Node.ValueNode nm v).state_dict := by
            rw [state_dict_value]; simp
          have hnn := lookupD_ne_none_of_mem (mem_serC hok hnext_mem hm)
          rw [show ((nm, SDVal.vleaf v) : String × SDVal).1 = nm from rfl,
            show nm = c from hnext_name] at hnn
          exact hnn hfin1
        | DictNode nm cs =>
          exfalso
          have hm : ((nm, SDVal.vdict (state_dict_children cs))
              : String × SDVal) ∈ (Node.DictNode nm cs).state_dict := by
            rw [state_dict_dict]; simp
          have hnn := lookupD_ne_none_of_mem (mem_serC hok hnext_mem hm)
          rw [show ((nm, SDVal.vdict (state_dict_children cs))
              : String × SDVal).1 = nm from rfl,
            show nm = c from hnext_name] at hnn
          exact hnn hfin1
        | PartialNode nm cs =>
          have hcm : c = nm := (show nm = c from hnext_name).symm
          subst hcm
          rw [hchn] at h0
          have h1 : insert_dotted P (c :: c2 :: rest') x
              = (insert_dotted (.PartialNode c cs) (c2 :: rest') x).bind
                (fun sub => pure (P.replace_child c sub)) := h0
          have hoknext : serOk (Node.PartialNode c cs) = true :=
            serOkList_mem (serOk_children hok) hnext_mem
          have htrans : ∀ k',
              lookupD (serC (Node.PartialNode c cs)) k' ≠ none →
              lookupD (serC P) (c ++ "." ++ k') ≠ none := by
            intro k' hk'
            cases hl : lookupD (serC (Node.PartialNode c cs)) k' with
            | none => exact absurd hl hk'
            | some w =>
              have hm := lookupD_some_mem hl
              have hm2 : ((c ++ "." ++ k', w) : String × SDVal)
                  ∈ (Node.PartialNode c cs).state_dict := by
                rw [state_dict_partial_node]
                exact List.mem_map.mpr ⟨(k', w), hm, rfl⟩
              exact lookupD_ne_none_of_mem (mem_serC hok hnext_mem hm2)
          have hpre2 : ∀ j, 1 ≤ j → j < (c2 :: rest').length →
              lookupD (serC (Node.PartialNode c cs))
                (joinDot ((c2 :: rest').take j)) = none := by
            intro j hj1 hj2
            cases hlf : lookupD (serC (Node.PartialNode c cs))
                (joinDot ((c2 :: rest').take j)) with
            | none => rfl
            | some w =>
              exfalso
              have hne' := htrans _ (by rw [hlf]; simp)
              cases j with
              | zero => exact absurd hj1 (by simp)
              | succ j'' =>
                have hjoin : joinDot ((c :: c2 :: rest').take (j'' + 2))
                    = c ++ "." ++ joinDot ((c2 :: rest').take (j'' + 1)) := by
                  rw [show (c :: c2 :: rest').take (j'' + 2)
                      = c :: (c2 :: rest').take (j'' + 1) from rfl,
                    show (c2 :: rest').take (j'' + 1)
                      = c2 :: rest'.take j'' from rfl]
                  exact joinDot_cons_cons _ _ _
                have hp2 := hpre (j'' + 2) (by omega)
                  (by simp only [List.length_cons] at hj2 ⊢; omega)
                rw [hjoin] at hp2
                exact hne' hp2
          have hfin2 : lookupD (serC (Node.PartialNode c cs))
              (joinDot (c2 :: rest')) = none := by
            cases hlf : lookupD (serC (Node.PartialNode c cs))
                (joinDot (c2 :: rest')) with
            | none => rfl
            | some w =>
              exfalso
              have hne' := htrans _ (by rw [hlf]; simp)
              rw [← hKey] at hne'
              exact hne' hfinal
          obtain ⟨sub, hsub_eq, hname, hdirs, hpart, hoks, hchar⟩ :=
            ih (.PartialNode c cs) x (by simp) rfl hoknext hpre2 hfin2
          have hname' : sub.name = c := hname
          have hpart' : sub.isPartialNode = true := hpart
          have hchar' : ∀ k, lookupD (serC sub) k
              = if k = joinDot (c2 :: rest') then some (SDVal.vleaf x)
                else lookupD (serC (Node.PartialNode c cs)) k := hchar
          have hsd : sub.state_dict
              = (serC sub).map fun p => (c ++ "." ++ p.1, p.2) := by
            rw [state_dict_of_partial_node hpart', hname']
          have h2 : insert_dotted P (c :: c2 :: rest') x
              = .ok (P.replace_child c sub) := by
            rw [h1, hsub_eq]
            rfl
          obtain ⟨A, B, hAB, hAn, hrepl⟩ := node_child_decomp hdir hchn
          have hkeysch : ∀ k q, (k, q) ∈ sub.state_dict →
              (∃ q', (k, q') ∈ (Node.PartialNode c cs).state_dict) ∨
              k = joinDot (c :: c2 :: rest') := by
            intro k q hq
            rw [hsd] at hq
            obtain ⟨⟨k', q'⟩, hm, heq⟩ := List.mem_map.mp hq
            obtain ⟨hk1, hk2⟩ := Prod.mk.injEq .. |>.mp heq
            subst hk1
            have hne' := lookupD_ne_none_of_mem hm
            show (∃ q', (c ++ "." ++ k', q')
              ∈ (Node.PartialNode c cs).state_dict) ∨ _
            rw [hchar'] at hne'
            by_cases hk' : k' = joinDot (c2 :: rest')
            · right; rw [hk', ← hKey]
            · left
              rw [if_neg hk'] at hne'
              cases hl : lookupD (serC (Node.PartialNode c cs)) k' with
              | none => exact absurd hl hne'
              | some w =>
                refine ⟨w, ?_⟩
                rw [state_dict_partial_node]
                exact List.mem_map.mpr ⟨(k', w), lookupD_some_mem hl, rfl⟩
          have hfreshK : ∀ d ∈ A ++ Node.PartialNode c cs :: B,
              ∀ p ∈ d.state_dict, p.1 ≠ joinDot (c :: c2 :: rest') := by
            intro d hd p hp
            rw [← hAB] at hd
            exact lookupD_eq_none.mp hfinal p (mem_serC hok hd hp)
          have hokl0 : serOkList (A ++ Node.PartialNode c cs :: B)
              = true := by
            rw [← hAB]; exact serOk_children hok
          have hokl' : serOkList (A ++ sub :: B) = true :=
            serOkList_replace hokl0 hoks
              (fun k q hq => hkeysch k q hq) hfreshK
          have hchrepl : (P.replace_child c sub).children
              = A ++ sub :: B := hrepl sub
          have hok' : serOk (P.replace_child c sub) = true := by
            show serOk (P.withChildren (replaceChild P.children c sub))
              = true
            refine serOk_of_children hdir ?_
            have hc2 : (P.withChildren
                (replaceChild P.children c sub)).children
                = A ++ sub :: B := hchrepl
            rw [Node.children_withChildren hdir] at hc2
            rw [hc2]
            exact hokl'
          have hserP : serC P
              = (A.map Node.state_dict).flatten
                ++ ((Node.PartialNode c cs).state_dict
                  ++ (B.map Node.state_dict).flatten) := by
            rw [serC_eq_flat hok, hAB]
            simp
          have hserP' : serC (P.replace_child c sub)
              = (A.map Node.state_dict).flatten
                ++ (sub.state_dict ++ (B.map Node.state_dict).flatten) := by
            rw [serC_eq_flat hok', hchrepl]
            simp
          have hAnone : lookupD ((A.map Node.state_dict).flatten)
              (joinDot (c :: c2 :: rest')) = none := by
            rw [lookupD_eq_none]
            intro p hp
            obtain ⟨l, hl, hpl⟩ := List.mem_flatten.mp hp
            obtain ⟨d, hd, rfl⟩ := List.mem_map.mp hl
            exact hfreshK d (List.mem_append_left _ hd) p hpl
          refine ⟨P.replace_child c sub, h2, Node.name_withChildren _ _,
            ?_, ?_, hok', ?_⟩
          · show (P.withChildren
              (replaceChild P.children c sub)).is_directory = true
            rw [is_directory_withChildren]; exact hdir
          · show (P.withChildren
              (replaceChild P.children c sub)).isPartialNode
              = P.isPartialNode
            rw [isPartialNode_withChildren]
          · intro k
            have hmid : k ≠ joinDot (c :: c2 :: rest') →
                lookupD sub.state_dict k
                  = lookupD (Node.PartialNode c cs).state_dict k := by
              intro hk
              by_cases hex : ∃ k', k = c ++ "." ++ k'
              · obtain ⟨k', rfl⟩ := hex
                rw [hsd, state_dict_partial_node,
                  lookupD_map_prefixed c k' (serC sub),
                  lookupD_map_prefixed c k' (state_dict_children cs),
                  hchar', if_neg (fun he => hk (by rw [he, ← hKey]))]
                rfl
              · rw [hsd, state_dict_partial_node,
                  lookupD_map_prefix_none (fun k' he => hex ⟨k', he⟩),
                  lookupD_map_prefix_none (fun k' he => hex ⟨k', he⟩)]
            by_cases hk : k = joinDot (c :: c2 :: rest')
            · rw [if_pos hk, hserP', lookupD_append, hk, hAnone]
              rw [lookupD_append, hsd, hKey,
                lookupD_map_prefixed c (joinDot (c2 :: rest')) (serC sub),
                hchar', if_pos rfl]
            · rw [if_neg hk, hserP', hserP,
                lookupD_append ((A.map Node.state_dict).flatten)
                  (sub.state_dict ++ (B.map Node.state_dict).flatten) k,
                lookupD_append ((A.map Node.state_dict).flatten)
                  ((Node.PartialNode c cs).state_dict
                    ++ (B.map Node.state_dict).flatten) k]
              cases hfa : lookupD ((A.map Node.state_dict).flatten) k with
              | some v => rfl
              | none =>
                rw [lookupD_append, lookupD_append, hmid hk]

theorem dictLe_of : ∀ {d e : PyDict},
    (∀ p ∈ d, ∃ w, lookupD e p.1 = some w ∧ valLe p.2 w = true) →
    dictLe d e = true := by
  intro d
  induction d with
  | nil => intro e _; rfl
  | cons p rest ih =>
    intro e h
    obtain ⟨k, v⟩ := p
    obtain ⟨w, hw, hle⟩ := h (k, v) (List.mem_cons_self _ _)
    show ((match lookupD e k with
      | some w => valLe v w
      | none => false) && dictLe rest e) = true
    rw [hw, Bool.and_eq_true]
    exact ⟨hle, ih (fun q hq => h q (List.mem_cons_of_mem _ hq))⟩

theorem valLe_leaf_refl (x : Val) : valLe (.vleaf x) (.vleaf x) = true := by
  show (x == x) = true
  exact beq_self_eq_true x

theorem noAmbigEntryV_leaf (lvl : PyDict) (k : String) (x : Val) :
    noAmbigEntryV lvl k (.vleaf x)
      = (!(hasDot k) ||
        (prefixJoins (splitDot k).dropLast).all
          fun p => (lookupD lvl p).isNone) := by
  simp only [noAmbigEntryV]

theorem noAmbigEntryV_dict (lvl : PyDict) (k : String) (items : PyDict) :
    noAmbigEntryV lvl k (.vdict items) = noAmbigD items := by
  simp only [noAmbigEntryV]

theorem noAmbigItems_cons (lvl : PyDict) (k : String) (v : SDVal)
    (rest : PyDict) :
    noAmbigItems lvl ((k, v) :: rest)
      = (noAmbigEntryV lvl k v && noAmbigItems lvl rest) := by
  simp only [noAmbigItems]

theorem noAmbigD_eq (d : PyDict) :
    noAmbigD d = (distinctKeysB d && noAmbigItems d d) := by
  simp only [noAmbigD]

theorem build_item_leaf (P : Node) (k : String) (x : Val) :
    build_item P k (.vleaf x)
      = if hasDot k then insert_dotted P (splitDot k) x
        else pure (P.add_child (.ValueNode k x)) := rfl

theorem build_item_dict (P : Node) (k : String) (items : PyDict) :
    build_item P k (.vdict items)
      = (build_items (.DictNode k []) items).bind
        fun node => pure (P.add_child node) := rfl

theorem build_items_nil (P : Node) : build_items P [] = pure P := rfl

theorem build_items_cons (P : Node) (k : String) (v : SDVal)
    (rest : PyDict) :
    build_items P ((k, v) :: rest)
      = (build_items P rest).bind fun parent' => build_item parent' k v :=
  rfl

theorem state_dict_of_dict {n : Node} (hd : n.is_directory = true)
    (hp : n.isPartialNode = false) :
    n.state_dict = [(n.name, .vdict (serC n))] := by
  cases n with
  | ValueNode nm v => exact absurd hd (by simp [Node.is_directory])
  | DictNode nm cs => rfl
  | PartialNode nm cs => exact absurd hp (by simp [Node.isPartialNode])

theorem joinDot_take_mem_prefixJoins : ∀ (l : List String) (j : Nat),
    1 ≤ j → j < l.length → joinDot (l.take j) ∈ prefixJoins l.dropLast := by
  intro l
  induction l with
  | nil => intro j h1 h2; simp at h2
  | cons c rest ih =>
    intro j h1 h2
    cases rest with
    | nil => simp at h2; omega
    | cons r rs =>
      rw [List.dropLast_cons₂]
      show joinDot ((c :: r :: rs).take j)
        ∈ c :: (prefixJoins (r :: rs).dropLast).map fun s => c ++ "." ++ s
      cases j with
      | zero => omega
      | succ j' =>
        cases j' with
        | zero =>
          rw [show (c :: r :: rs).take 1 = [c] from rfl, joinDot_single]
          exact List.mem_cons_self _ _
        | succ j'' =>
          rw [show (c :: r :: rs).take (j'' + 2)
              = c :: (r :: rs).take (j'' + 1) from rfl,
            show (r :: rs).take (j'' + 1) = r :: rs.take j'' from rfl,
            joinDot_cons_cons]
          refine List.mem_cons_of_mem _ ?_
          refine List.mem_map.mpr ⟨joinDot (r :: rs.take j''), ?_, rfl⟩
          have := ih (j'' + 1) (by omega)
            (by simp only [List.length_cons] at h2 ⊢; omega)
          rw [show (r :: rs).take (j'' + 1) = r :: rs.take j'' from rfl]
            at this
          exact this

/-- Master lemma for `_from_state_dict`: processing a no-ambiguity batch of
items into a directory whose merged mapping avoids the batch's keys (and
whose keys all belong to the enclosing level `lvl`) succeeds, preserves the
invariant, binds every processed key to a value equivalent to its input,
and leaves every other key of the merged mapping unchanged.  The fuel `N`
drives the mutual induction between single items and item lists. -/
theorem build_master : ∀ (N : Nat),
    (∀ (v : SDVal) (lvl : PyDict) (k : String) (P : Node), sizeOf v ≤ N →
      P.is_directory = true → serOk P = true →
      noAmbigEntryV lvl k v = true →
      (∀ k', lookupD (serC P) k' ≠ none → lookupD lvl k' ≠ none) →
      lookupD (serC P) k = none →
      ∃ P' w, build_item P k v = .ok P' ∧
        P'.name = P.name ∧ P'.is_directory = true ∧
        P'.isPartialNode = P.isPartialNode ∧ serOk P' = true ∧
        valLe v w = true ∧ valLe w v = true ∧
        ∀ k'', lookupD (serC P') k''
          = if k'' = k then some w else lookupD (serC P) k'') ∧
    (∀ (items lvl : PyDict) (P : Node), sizeOf items ≤ N →
      P.is_directory = true → serOk P = true →
      distinctKeysB items = true →
      noAmbigItems lvl items = true →
      (∀ p ∈ items, p ∈ lvl) →
      (∀ p ∈ items, lookupD (serC P) p.1 = none) →
      (∀ k', lookupD (serC P) k' ≠ none → lookupD lvl k' ≠ none) →
      ∃ P', build_items P items = .ok P' ∧
        P'.name = P.name ∧ P'.is_directory = true ∧
        P'.isPartialNode = P.isPartialNode ∧ serOk P' = true ∧
        (∀ p ∈ items, ∃ w, lookupD (serC P') p.1 = some w ∧
          valLe p.2 w = true ∧ valLe w p.2 = true) ∧
        (∀ k', lookupD items k' = none →
          lookupD (serC P') k' = lookupD (serC P) k')) := by
  intro N
  induction N with
  | zero =>
    constructor
    · intro v lvl k P h
      exfalso
      have hpos : 0 < sizeOf v := by cases v <;> simp_arith
      omega
    · intro items lvl P h
      exfalso
      have hpos : 0 < sizeOf items := by cases items <;> simp_arith
      omega
  | succ N ih =>
    obtain ⟨ihBI, ihBIS⟩ := ih
    constructor
    · -- build_item
      intro v lvl k P hsz hdir hok hEntry hE hfreshk
      cases v with
      | vleaf x =>
        by_cases hdot : hasDot k = true
        · -- dotted Leaf key: the chunk walk
          have heqb : build_item P k (.vleaf x)
              = insert_dotted P (splitDot k) x := by
            rw [build_item_leaf, if_pos hdot]
          rw [noAmbigEntryV_leaf, hdot] at hEntry
          have hall : ((prefixJoins (splitDot k).dropLast).all
              fun p => (lookupD lvl p).isNone) = true := by
            simpa using hEntry
          have hpre : ∀ j, 1 ≤ j → j < (splitDot k).length →
              lookupD (serC P) (joinDot ((splitDot k).take j)) = none := by
            intro j hj1 hj2
            have hmem := joinDot_take_mem_prefixJoins (splitDot k) j hj1 hj2
            have hlvl : lookupD lvl (joinDot ((splitDot k).take j))
                = none := by
              have := List.all_eq_true.mp hall _ hmem
              exact Option.isNone_iff_eq_none.mp this
            cases hsp : lookupD (serC P) (joinDot ((splitDot k).take j)) with
            | none => rfl
            | some w =>
              exfalso
              exact hE _ (by rw [hsp]; simp) hlvl
          have hfin : lookupD (serC P) (joinDot (splitDot k)) = none := by
            rw [joinDot_splitDot]
            exact hfreshk
          obtain ⟨P', hP'eq, hn, hd, hp, hok', hchar⟩ :=
            insert_dotted_master (splitDot k) P x (splitDot_ne_nil k)
              hdir hok hpre hfin
          refine ⟨P', .vleaf x, ?_, hn, hd, hp, hok',
            valLe_leaf_refl x, valLe_leaf_refl x, ?_⟩
          · rw [heqb, hP'eq]
          · intro k''
            have := hchar k''
            rw [joinDot_splitDot] at this
            exact this
        · -- plain Leaf key: a fresh child, same as a one-chunk walk
          have heqb : build_item P k (.vleaf x)
              = insert_dotted P [k] x := by
            rw [build_item_leaf, if_neg hdot]
            rfl
          have hpre : ∀ j, 1 ≤ j → j < ([k] : List String).length →
              lookupD (serC P) (joinDot (([k] : List String).take j))
                = none := by
            intro j hj1 hj2
            exfalso
            simp at hj2
            omega
          have hfin : lookupD (serC P) (joinDot [k]) = none := by
            rw [joinDot_single]
            exact hfreshk
          obtain ⟨P', hP'eq, hn, hd, hp, hok', hchar⟩ :=
            insert_dotted_master [k] P x (by simp) hdir hok hpre hfin
          refine ⟨P', .vleaf x, ?_, hn, hd, hp, hok',
            valLe_leaf_refl x, valLe_leaf_refl x, ?_⟩
          · rw [heqb, hP'eq]
          · intro k''
            have := hchar k''
            rw [joinDot_single] at this
            exact this
      | vdict items =>
        rw [noAmbigEntryV_dict, noAmbigD_eq, Bool.and_eq_true] at hEntry
        obtain ⟨hdst, hnai⟩ := hEntry
        have hszit : sizeOf items ≤ N := by
          have hs := SDVal.vdict.sizeOf_spec items
          omega
        obtain ⟨node, hnode_eq, hnn, hnd, hnp, hnok, hitems1, hframe1⟩ :=
          ihBIS items items (.DictNode k []) hszit rfl rfl hdst hnai
            (fun p hp => hp) (fun p hp => rfl)
            (fun k' h => absurd rfl h)
        have hnn' : node.name = k := hnn
        have hnp' : node.isPartialNode = false := hnp
        have hnsd : node.state_dict = [(k, .vdict (serC node))] := by
          rw [state_dict_of_dict hnd hnp', hnn']
        have h2 : build_item P k (.vdict items) = .ok (P.add_child node) := by
          rw [build_item_dict, hnode_eq]
          rfl
        have hokl' : serOkList (P.children ++ [node]) = true := by
          refine serOkList_append_one (serOk_children hok) hnok ?_
          intro q hq d hd' p hp
          rw [hnsd] at hq
          rw [List.mem_singleton.mp hq]
          exact lookupD_eq_none.mp hfreshk p (mem_serC hok hd' hp)
        have hok' : serOk (P.add_child node) = true := by
          have h := serOk_of_children hdir hokl'
          exact h
        have hser' : serC (P.add_child node) = serC P ++ node.state_dict := by
          rw [serC_eq_flat hok', children_add_child hdir,
            List.map_append, List.flatten_append, ← serC_eq_flat hok]
          simp
        have hvle : valLe (.vdict items) (.vdict (serC node)) = true := by
          show dictLe items (serC node) = true
          refine dictLe_of (fun p hp => ?_)
          obtain ⟨w, hw, hle, _⟩ := hitems1 p hp
          exact ⟨w, hw, hle⟩
        have hwle : valLe (.vdict (serC node)) (.vdict items) = true := by
          show dictLe (serC node) items = true
          refine dictLe_of (fun p hp => ?_)
          have hlook : lookupD (serC node) p.1 = some p.2 :=
            mem_lookupD_distinct (serC_distinct hnok) (by
              obtain ⟨a, b⟩ := p
              exact hp)
          cases hit : lookupD items p.1 with
          | none =>
            exfalso
            have := hframe1 p.1 hit
            rw [hlook] at this
            have hnone : lookupD (serC (Node.DictNode k [])) p.1 = none := rfl
            rw [hnone] at this
            exact absurd this (by simp)
          | some v'' =>
            obtain ⟨w', hw', _, hle'⟩ := hitems1 (p.1, v'')
              (lookupD_some_mem hit)
            rw [hlook] at hw'
            have hwp : w' = p.2 := by
              have := hw'.symm
              simpa using this
            refine ⟨v'', rfl, ?_⟩
            rw [← hwp]
            exact hle'
        refine ⟨P.add_child node, .vdict (serC node), h2,
          Node.name_add_child _ _, ?_, ?_, hok', hvle, hwle, ?_⟩
        · show (P.withChildren (P.children ++ [node])).is_directory = true
          rw [is_directory_withChildren]; exact hdir
        · show (P.withChildren (P.children ++ [node])).isPartialNode
            = P.isPartialNode
          rw [isPartialNode_withChildren]
        · intro k''
          rw [hser', lookupD_append, hnsd]
          by_cases hk : k'' = k
          · rw [if_pos hk, hk, hfreshk]
            show (if k = k then some (SDVal.vdict (serC node))
              else lookupD [] k) = _
            rw [if_pos rfl]
          · rw [if_neg hk]
            cases hl : lookupD (serC P) k'' with
            | some v => rfl
            | none =>
              show (if k = k'' then some (SDVal.vdict (serC node))
                else lookupD [] k'') = none
              rw [if_neg (fun he => hk he.symm)]
              rfl
    · -- build_items
      intro items lvl P hsz hdir hok hdst hnai hmem hfresh hE
      cases items with
      | nil =>
        exact ⟨P, rfl, rfl, hdir, rfl, hok, by simp, fun k' _ => rfl⟩
      | cons p rest =>
        obtain ⟨k, v⟩ := p
        have hs1 := List.cons.sizeOf_spec (k, v) rest
        have hs2 := Prod.mk.sizeOf_spec k v
        obtain ⟨hd1, hd2⟩ := distinctKeys_cons_iff.mp hdst
        rw [noAmbigItems_cons, Bool.and_eq_true] at hnai
        obtain ⟨hnaE, hnaR⟩ := hnai
        obtain ⟨P₁, hP1eq, hn1, hdir1, hp1, hok1, hitems1, hframe1⟩ :=
          ihBIS rest lvl P (by omega) hdir hok hd2 hnaR
            (fun q hq => hmem q (List.mem_cons_of_mem _ hq))
            (fun q hq => hfresh q (List.mem_cons_of_mem _ hq)) hE
        have hrestk : lookupD rest k = none := by
          rw [lookupD_eq_none]
          exact hd1
        have hfreshk1 : lookupD (serC P₁) k = none := by
          rw [hframe1 k hrestk]
          exact hfresh (k, v) (List.mem_cons_self _ _)
        have hE1 : ∀ k', lookupD (serC P₁) k' ≠ none →
            lookupD lvl k' ≠ none := by
          intro k' hk'
          cases hr : lookupD rest k' with
          | some w =>
            exact lookupD_ne_none_of_mem
              (hmem (k', w) (List.mem_cons_of_mem _ (lookupD_some_mem hr)))
          | none =>
            rw [hframe1 k' hr] at hk'
            exact hE k' hk'
        obtain ⟨P₂, w, hP2eq, hn2, hdir2, hp2, hok2, hvle, hwle, hchar2⟩ :=
          ihBI v lvl k P₁ (by omega) hdir1 hok1 hnaE hE1 hfreshk1
        have h2 : build_items P ((k, v) :: rest) = .ok P₂ := by
          rw [build_items_cons, hP1eq]
          show build_item P₁ k v = .ok P₂
          exact hP2eq
        refine ⟨P₂, h2, by rw [hn2, hn1], hdir2, by rw [hp2, hp1],
          hok2, ?_, ?_⟩
        · intro q hq
          rcases List.mem_cons.mp hq with rfl | hq'
          · refine ⟨w, ?_, hvle, hwle⟩
            rw [hchar2, if_pos rfl]
          · obtain ⟨w', hw', hle1, hle2⟩ := hitems1 q hq'
            refine ⟨w', ?_, hle1, hle2⟩
            rw [hchar2, if_neg (hd1 q hq'), hw']
        · intro k' hk'
          have hk'' : k ≠ k' ∧ lookupD rest k' = none := by
            have hx : (if k = k' then some v else lookupD rest k')
                = none := hk'
            by_cases he : k = k'
            · rw [if_pos he] at hx; exact absurd hx (by simp)
            · rw [if_neg he] at hx; exact ⟨he, hx⟩
          rw [hchar2, if_neg (fun he => hk''.1 he.symm), hframe1 k' hk''.2]

/-- **C1 (round-trip law).**  For every flat mapping `M` free of
dotted-key/Group ambiguity (at every level the keys are pairwise distinct
and no proper dot-prefix of a dotted Leaf key occurs as a key of that
level), building the tree succeeds and serializing it yields a mapping
equal to `M`: the two one-way inclusions `dictLe` (every binding present
in the other side with a recursively equivalent value) together say same
key set and same value at every key, ignoring ordering. -/
theorem round_trip_law (M : PyDict) (hna : noAmbigD M = true) :
    ∃ t, Tree.from_state_dict M = .ok t ∧
      dictLe M (root_state_dict t) = true ∧
      dictLe (root_state_dict t) M = true := by
  rw [noAmbigD_eq, Bool.and_eq_true] at hna
  obtain ⟨hdst, hnai⟩ := hna
  obtain ⟨t, hteq, hn0, hd0, hp0, htok, hitems, hframe⟩ :=
    (build_master (sizeOf M)).2 M M (.DictNode "" []) le_rfl rfl rfl
      hdst hnai (fun p hp => hp) (fun p hp => rfl)
      (fun k' h => absurd rfl h)
  have hroot : root_state_dict t = serC t := rfl
  refine ⟨t, hteq, ?_, ?_⟩
  · rw [hroot]
    refine dictLe_of (fun p hp => ?_)
    obtain ⟨w, hw, hle, _⟩ := hitems p hp
    exact ⟨w, hw, hle⟩
  · rw [hroot]
    refine dictLe_of (fun p hp => ?_)
    have hlook : lookupD (serC t) p.1 = some p.2 :=
      mem_lookupD_distinct (serC_distinct htok)
        (by obtain ⟨a, b⟩ := p; exact hp)
    cases hit : lookupD M p.1 with
    | none =>
      exfalso
      have h0 := hframe p.1 hit
      rw [hlook] at h0
      have hz : lookupD (serC (Node.DictNode "" [])) p.1 = none := rfl
      rw [hz] at h0
      exact absurd h0 (by simp)
    | some v'' =>
      obtain ⟨w', hw', _, hle'⟩ := hitems (p.1, v'') (lookupD_some_mem hit)
      rw [hlook] at hw'
      have hwp : w' = p.2 := by simpa using hw'.symm
      refine ⟨v'', rfl, ?_⟩
      rw [← hwp]
      exact hle'

/-- Witness for C1 on `{"a": 1, "b.c": 2, "d": {"e": 3}}`. -/
theorem round_trip_law_witness :
    ∃ t, Tree.from_state_dict
        [("a", .vleaf 1), ("b.c", .vleaf 2), ("d", .vdict [("e", .vleaf 3)])]
      = .ok t ∧
      dictLe [("a", .vleaf 1), ("b.c", .vleaf 2),
        ("d", .vdict [("e", .vleaf 3)])] (root_state_dict t) = true ∧
      dictLe (root_state_dict t)
        [("a", .vleaf 1), ("b.c", .vleaf 2),
          ("d", .vdict [("e", .vleaf 3)])] = true :=
  round_trip_law
    [("a", .vleaf 1), ("b.c", .vleaf 2), ("d", .vdict [("e", .vleaf 3)])]
    (by simp [noAmbigD, noAmbigItems, noAmbigEntryV, distinctKeysB,
      hasDot, lookupD, prefixJoins, splitDot])

/-! ## C9 (amended): copy independence -/

/-- Overwrite the most recently attached child — the last one — of the
directory at the given path by `c'`: the handle the shell has on a node
that `cp` has just attached, independent of any same-named siblings. -/
def replace_last_child_at (root : Node) : List String → Node → Node
  | [], c' => root.withChildren (root.children.dropLast ++ [c'])
  | nm :: rest, c' =>
    match root.child nm with
    | some ch => root.replace_child nm (replace_last_child_at ch rest c')
    | none => root

theorem withChildren_withChildren (n : Node) (a b : List Node) :
    (n.withChildren a).withChildren b = n.withChildren b := by
  cases n <;> rfl

theorem child_some_dir {n c : Node} {s : String} (h : n.child s = some c) :
    n.is_directory = true := by
  cases n with
  | ValueNode nm v => exact absurd h (by simp [Node.child, Node.children])
  | DictNode nm cs => rfl
  | PartialNode nm cs => rfl

theorem replaceChild_cons (x : Node) (rest : List Node) (nm : String)
    (c' : Node) :
    replaceChild (x :: rest) nm c'
      = if x.name == nm then c' :: rest else x :: replaceChild rest nm c' :=
  rfl

/-- Replacing the first `nm`-named child twice keeps only the second
replacement (the position is preserved by the first). -/
theorem replaceChild_replaceChild : ∀ {cs : List Node} {nm : String}
    {u u'' : Node}, u.name = nm →
    replaceChild (replaceChild cs nm u) nm u'' = replaceChild cs nm u'' := by
  intro cs
  induction cs with
  | nil => intro nm u u'' _; rfl
  | cons x rest ih =>
    intro nm u u'' hu
    cases hx : (x.name == nm) with
    | true =>
      rw [replaceChild_cons, if_pos hx, replaceChild_cons,
        if_pos (by rw [hu]; exact beq_self_eq_true _),
        replaceChild_cons, if_pos hx]
    | false =>
      rw [replaceChild_cons,
        if_neg (by rw [hx]; exact Bool.false_ne_true),
        replaceChild_cons,
        if_neg (by rw [hx]; exact Bool.false_ne_true), ih hu,
        replaceChild_cons,
        if_neg (by rw [hx]; exact Bool.false_ne_true)]

/-- Replacing the first `e`-named child in a list whose only `e`-named
element is the appended last one replaces exactly that last element. -/
theorem replaceChild_append_fresh : ∀ {cs : List Node} {e : String}
    {sub sub'' : Node},
    (∀ d ∈ cs, (d.name == e) = false) → (sub.name == e) = true →
    replaceChild (cs ++ [sub]) e sub'' = cs ++ [sub''] := by
  intro cs
  induction cs with
  | nil =>
    intro e sub sub'' _ hs
    show (if sub.name == e then sub'' :: [] else sub :: replaceChild [] e sub'')
      = [sub'']
    rw [if_pos hs]
  | cons x rest ih =>
    intro e sub sub'' hf hs
    show (if x.name == e then sub'' :: (rest ++ [sub])
      else x :: replaceChild (rest ++ [sub]) e sub'') = x :: (rest ++ [sub''])
    have hx : (x.name == e) = false := hf x (List.mem_cons_self _ _)
    have hx' : ¬ (x.name == e) = true := by
      rw [hx]
      exact Bool.false_ne_true
    rw [if_neg hx', ih (fun d hd => hf d (List.mem_cons_of_mem _ hd)) hs]

/-- After a successful attach, the destination node reads back with the
new child appended. -/
theorem addChildAt_at : ∀ {dp : List String} {root d c t' : Node},
    nodeAt root dp = some d → addChildAt root dp c = some t' →
    nodeAt t' dp = some (d.add_child c) := by
  intro dp
  induction dp with
  | nil =>
    intro root d c t' hd h
    rw [nodeAt_nil] at hd
    cases hd
    rw [show addChildAt root [] c = some (root.add_child c) from rfl] at h
    cases h
    exact nodeAt_nil _
  | cons nm rest ih =>
    intro root d c t' hd h
    cases hc : root.child nm with
    | none => rw [nodeAt_cons_none hc] at hd; exact absurd hd (by simp)
    | some ch =>
      rw [nodeAt_cons_some hc] at hd
      rw [addChildAt_cons_some hc] at h
      cases ha : addChildAt ch rest c with
      | none => rw [ha] at h; exact absurd h (by simp)
      | some u =>
        rw [ha] at h
        simp only [Option.map_some', Option.some.injEq] at h
        subst h
        have hun : u.name = nm := by
          rw [addChildAt_name ha]; exact Node.child_name hc
        have hcu : (root.replace_child nm u).child nm = some u :=
          child_withChildren_replaceChild_eq hc hun
        rw [nodeAt_cons_some hcu]
        exact ih hd ha

/-- Overwriting the last child of the attach directory after an attach is
the same tree as attaching the overwritten node instead. -/
theorem addChildAt_replace_last : ∀ {dp : List String}
    {root d c c' t' t'' : Node},
    nodeAt root dp = some d → addChildAt root dp c = some t' →
    addChildAt root dp c' = some t'' →
    replace_last_child_at t' dp c' = t'' := by
  intro dp
  induction dp with
  | nil =>
    intro root d c c' t' t'' _ h h'
    rw [show addChildAt root [] c = some (root.add_child c) from rfl] at h
    rw [show addChildAt root [] c' = some (root.add_child c') from rfl] at h'
    cases h
    cases h'
    cases root with
    | ValueNode nm v => rfl
    | DictNode nm cs =>
      show Node.DictNode nm ((cs ++ [c]).dropLast ++ [c'])
        = Node.DictNode nm (cs ++ [c'])
      rw [List.dropLast_concat]
    | PartialNode nm cs =>
      show Node.PartialNode nm ((cs ++ [c]).dropLast ++ [c'])
        = Node.PartialNode nm (cs ++ [c'])
      rw [List.dropLast_concat]
  | cons nm rest ih =>
    intro root d c c' t' t'' hd h h'
    cases hc : root.child nm with
    | none => rw [nodeAt_cons_none hc] at hd; exact absurd hd (by simp)
    | some ch =>
      rw [nodeAt_cons_some hc] at hd
      rw [addChildAt_cons_some hc] at h
      rw [addChildAt_cons_some hc] at h'
      cases ha : addChildAt ch rest c with
      | none => rw [ha] at h; exact absurd h (by simp)
      | some u =>
        cases ha' : addChildAt ch rest c' with
        | none => rw [ha'] at h'; exact absurd h' (by simp)
        | some u'' =>
          rw [ha] at h
          rw [ha'] at h'
          simp only [Option.map_some', Option.some.injEq] at h h'
          subst h
          subst h'
          have hun : u.name = nm := by
            rw [addChildAt_name ha]; exact Node.child_name hc
          have hcu : (root.replace_child nm u).child nm = some u :=
            child_withChildren_replaceChild_eq hc hun
          have hstep : replace_last_child_at (root.replace_child nm u)
              (nm :: rest) c'
              = (root.replace_child nm u).replace_child nm
                (replace_last_child_at u rest c') := by
            show (match (root.replace_child nm u).child nm with
              | some ch2 => (root.replace_child nm u).replace_child nm
                  (replace_last_child_at ch2 rest c')
              | none => root.replace_child nm u) = _
            rw [hcu]
          rw [hstep, ih hd ha ha']
          show (root.withChildren (replaceChild root.children nm
              u)).withChildren
            (replaceChild ((root.withChildren
              (replaceChild root.children nm u)).children) nm u'')
            = root.withChildren (replaceChild root.children nm u'')
          rw [Node.children_withChildren (child_some_dir hc),
            replaceChild_replaceChild hun,
            withChildren_withChildren]

theorem add_child_getLast {d c : Node} (hdir : d.is_directory = true) :
    (d.add_child c).children.getLast? = some c := by
  rw [children_add_child hdir]
  exact List.getLast?_concat _

/-- The insert walk leaves the inserted node as the last child of the node
reached by its nonempty segments. -/
theorem insertGo_attach_parent :
    ∀ {parts : List String} {cur node t' : Node},
      insertGo cur parts node = .ok t' →
      ∃ d, nodeAt t' (parts.filter (fun e => e != "")) = some d ∧
        d.children.getLast? = some node := by
  intro parts
  induction parts with
  | nil =>
    intro cur node t' h
    have hdir := insertGo_ok_dir h
    rw [insertGo_nil_dir hdir] at h
    cases h
    refine ⟨cur.add_child node, ?_, add_child_getLast hdir⟩
    rw [show List.filter (fun e => e != "") ([] : List String) = []
      from rfl]
    exact nodeAt_nil _
  | cons e rest ih =>
    intro cur node t' h
    rw [insertGo_cons] at h
    by_cases he : e = ""
    · rw [if_pos he] at h
      obtain ⟨d, hd, hl⟩ := ih h
      refine ⟨d, ?_, hl⟩
      rw [show (e :: rest).filter (fun e => e != "")
        = rest.filter (fun e => e != "") from by simp [he]]
      exact hd
    · rw [if_neg he] at h
      have hf : (e :: rest).filter (fun e => e != "")
          = e :: rest.filter (fun e => e != "") := by simp [he]
      cases hc : cur.child e with
      | some next =>
        rw [hc] at h
        have h2 : (insertGo next rest node).map (cur.replace_child e)
            = .ok t' := h
        cases hi : insertGo next rest node with
        | error err => rw [hi] at h2; exact absurd h2 (by simp [Except.map])
        | ok next' =>
          rw [hi] at h2
          simp only [Except.map, Except.ok.injEq] at h2
          subst h2
          have hnn : next'.name = e := by
            rw [insertGo_name hi]; exact Node.child_name hc
          obtain ⟨d, hd, hl⟩ := ih hi
          refine ⟨d, ?_, hl⟩
          rw [hf, nodeAt_cons_some
            (show (cur.replace_child e next').child e = some next'
              from child_withChildren_replaceChild_eq hc hnn)]
          exact hd
      | none =>
        rw [hc] at h
        have hdir : cur.is_directory = true := by
          cases cur with
          | ValueNode nm v => exact absurd h (by simp)
          | DictNode nm cs => rfl
          | PartialNode nm cs => rfl
        have h' : (insertGo (.PartialNode e []) rest node).map cur.add_child
            = .ok t' := by
          cases cur with
          | ValueNode nm v => exact absurd h (by simp)
          | DictNode nm cs => exact h
          | PartialNode nm cs => exact h
        cases hi : insertGo (.PartialNode e []) rest node with
        | error err => rw [hi] at h'; exact absurd h' (by simp [Except.map])
        | ok sub =>
          rw [hi] at h'
          simp only [Except.map, Except.ok.injEq] at h'
          subst h'
          have hsn : sub.name = e := insertGo_name hi
          have hch : (cur.add_child sub).child e = some sub := by
            rw [child_add_child_none hdir hc, hsn]
            simp
          obtain ⟨d, hd, hl⟩ := ih hi
          refine ⟨d, ?_, hl⟩
          rw [hf, nodeAt_cons_some hch]
          exact hd

/-- Re-running the insert walk with a different payload attaches it at the
same place: overwriting the last child of the attach directory after an
insert equals inserting the other payload directly. -/
theorem insertGo_with :
    ∀ {parts : List String} {cur node t' : Node} (c' : Node),
      insertGo cur parts node = .ok t' →
      ∃ t'', insertGo cur parts c' = .ok t'' ∧
        replace_last_child_at t' (parts.filter (fun e => e != "")) c' = t'' := by
  intro parts
  induction parts with
  | nil =>
    intro cur node t' c' h
    have hdir := insertGo_ok_dir h
    rw [insertGo_nil_dir hdir] at h
    cases h
    refine ⟨cur.add_child c', insertGo_nil_dir hdir c', ?_⟩
    rw [show List.filter (fun e => e != "") ([] : List String) = []
      from rfl]
    show (cur.add_child node).withChildren
      ((cur.add_child node).children.dropLast ++ [c']) = cur.add_child c'
    have hcc : (cur.add_child node).children = cur.children ++ [node] :=
      children_add_child hdir node
    rw [hcc, List.dropLast_concat]
    show (cur.withChildren (cur.children ++ [node])).withChildren
      (cur.children ++ [c']) = cur.withChildren (cur.children ++ [c'])
    exact withChildren_withChildren _ _ _
  | cons e rest ih =>
    intro cur node t' c' h
    rw [insertGo_cons] at h
    by_cases he : e = ""
    · rw [if_pos he] at h
      obtain ⟨t'', h1, h2⟩ := ih c' h
      refine ⟨t'', ?_, ?_⟩
      · rw [insertGo_cons, if_pos he]
        exact h1
      · rw [show (e :: rest).filter (fun e => e != "")
          = rest.filter (fun e => e != "") from by simp [he]]
        exact h2
    · rw [if_neg he] at h
      have hf : (e :: rest).filter (fun e => e != "")
          = e :: rest.filter (fun e => e != "") := by simp [he]
      cases hc : cur.child e with
      | some next =>
        rw [hc] at h
        have h2 : (insertGo next rest node).map (cur.replace_child e)
            = .ok t' := h
        cases hi : insertGo next rest node with
        | error err => rw [hi] at h2; exact absurd h2 (by simp [Except.map])
        | ok next' =>
          rw [hi] at h2
          simp only [Except.map, Except.ok.injEq] at h2
          subst h2
          have hnn : next'.name = e := by
            rw [insertGo_name hi]; exact Node.child_name hc
          obtain ⟨next'', hn1, hn2⟩ := ih c' hi
          have hgoal : insertGo cur (e :: rest) c'
              = (insertGo next rest c').map (cur.replace_child e) := by
            rw [insertGo_cons, if_neg he, hc]
          refine ⟨cur.replace_child e next'', ?_, ?_⟩
          · rw [hgoal, hn1]
            rfl
          · rw [hf]
            have hcu : (cur.replace_child e next').child e = some next' :=
              child_withChildren_replaceChild_eq hc hnn
            have hstep : replace_last_child_at (cur.replace_child e next')
                (e :: rest.filter (fun x => x != "")) c'
                = (cur.replace_child e next').replace_child e
                  (replace_last_child_at next'
                    (rest.filter (fun x => x != "")) c') := by
              show (match (cur.replace_child e next').child e with
                | some ch2 => (cur.replace_child e next').replace_child e
                    (replace_last_child_at ch2
                      (rest.filter (fun x => x != "")) c')
                | none => cur.replace_child e next') = _
              rw [hcu]
            rw [hstep, hn2]
            show (cur.withChildren (replaceChild cur.children e
                next')).withChildren
              (replaceChild ((cur.withChildren
                (replaceChild cur.children e next')).children) e next'')
              = cur.withChildren (replaceChild cur.children e next'')
            rw [Node.children_withChildren (child_some_dir hc),
              replaceChild_replaceChild hnn,
              withChildren_withChildren]
      | none =>
        rw [hc] at h
        have hdir : cur.is_directory = true := by
          cases cur with
          | ValueNode nm v => exact absurd h (by simp)
          | DictNode nm cs => rfl
          | PartialNode nm cs => rfl
        have h' : (insertGo (.PartialNode e []) rest node).map cur.add_child
            = .ok t' := by
          cases cur with
          | ValueNode nm v => exact absurd h (by simp)
          | DictNode nm cs => exact h
          | PartialNode nm cs => exact h
        cases hi : insertGo (.PartialNode e []) rest node with
        | error err => rw [hi] at h'; exact absurd h' (by simp [Except.map])
        | ok sub =>
          rw [hi] at h'
          simp only [Except.map, Except.ok.injEq] at h'
          subst h'
          have hsn : sub.name = e := insertGo_name hi
          obtain ⟨sub'', hs1, hs2⟩ := ih c' hi
          have hgoal : insertGo cur (e :: rest) c'
              = (insertGo (.PartialNode e []) rest c').map cur.add_child := by
            rw [insertGo_cons, if_neg he, hc]
            cases cur with
            | ValueNode nm v => exact absurd hdir (by simp [Node.is_directory])
            | DictNode nm cs => rfl
            | PartialNode nm cs => rfl
          refine ⟨cur.add_child sub'', ?_, ?_⟩
          · rw [hgoal, hs1]
            rfl
          · rw [hf]
            have hch : (cur.add_child sub).child e = some sub := by
              rw [child_add_child_none hdir hc, hsn]
              simp
            have hstep : replace_last_child_at (cur.add_child sub)
                (e :: rest.filter (fun x => x != "")) c'
                = (cur.add_child sub).replace_child e
                  (replace_last_child_at sub
                    (rest.filter (fun x => x != "")) c') := by
              show (match (cur.add_child sub).child e with
                | some ch2 => (cur.add_child sub).replace_child e
                    (replace_last_child_at ch2
                      (rest.filter (fun x => x != "")) c')
                | none => cur.add_child sub) = _
              rw [hch]
            rw [hstep, hs2]
            have hfresh : ∀ d ∈ cur.children, (d.name == e) = false := by
              intro d hd
              cases hb : (d.name == e) with
              | false => rfl
              | true => exact absurd hb (List.find?_eq_none.mp hc d hd)
            have hcc : (cur.add_child sub).children
                = cur.children ++ [sub] := children_add_child hdir sub
            show (cur.add_child sub).withChildren
              (replaceChild ((cur.add_child sub).children) e sub'')
              = cur.add_child sub''
            rw [hcc, replaceChild_append_fresh hfresh
              (by rw [hsn]; exact beq_self_eq_true _)]
            show (cur.withChildren (cur.children ++ [sub])).withChildren
              (cur.children ++ [sub'']) = cur.withChildren
              (cur.children ++ [sub''])
            exact withChildren_withChildren _ _ _

/-- C9: after a successful `cp` whose source resolves at a non-root path,
the original node is still at its path, every ancestor path still
resolves (no pruning at the source), and the clone — attached as the last
child of the directory that received it — is an independent copy:
overwriting any value inside the attached clone changes nothing at or
below the original source path. -/
theorem cp_copy_independence
    (root : Node) (cwd : List String) (src dst : String)
    (sp : List String) (sn : Node) (root' : Node)
    (hsrc : Tree.resolve root cwd src = some (sp, sn))
    (hnr : sp ≠ [])
    (hcp : do_cp root cwd src dst = (.ok, root')) :
    nodeAt root' sp = some sn ∧
    (∀ q, q <+: sp → (nodeAt root' q).isSome) ∧
    (∃ dpath d nm', nodeAt root' dpath = some d ∧
      d.children.getLast? = some (sn.setName nm') ∧
      ∀ π w rr,
        nodeAt (replace_last_child_at root' dpath
            (setValueAt (sn.setName nm') π w)) (sp ++ rr)
          = nodeAt root' (sp ++ rr)) := by
  have hsn : nodeAt root sp = some sn := Tree.resolve_nodeAt hsrc
  obtain ⟨cps, hcps, hseg⟩ := resolve_path_spec cwd dst
  rw [do_cp_eq hsrc, hcps] at hcp
  by_cases hq1 : fullNameOf sp = fullNameOf cps
  · rw [if_pos hq1] at hcp
    simp at hcp
  rw [if_neg hq1] at hcp
  by_cases hq2 : startsWithS (fullNameOf sp ++ "/") (fullNameOf cps ++ "/")
      = true
  · rw [if_pos hq2] at hcp
    simp at hcp
  rw [if_neg hq2] at hcp
  have hnpre : ¬ sp <+: cps := by
    intro hpre
    obtain ⟨extra, hex⟩ := hpre
    cases extra with
    | nil =>
      apply hq1
      rw [← hex, List.append_nil]
    | cons a t =>
      apply hq2
      rw [← hex]
      exact startsWithS_fullNameOf_append sp (a :: t) hnr (by simp)
  cases hdest : Tree.resolve root cwd (fullNameOf cps) with
  | some pr =>
    obtain ⟨dp, dn⟩ := pr
    rw [hdest] at hcp
    have hcp2 : (if dn.is_directory then
        match addChildAt root dp (cloneNode sn none) with
        | some t2 => ((.ok : OpOut), t2)
        | none => ((.ok : OpOut), root)
      else ((.overwrite : OpOut), root)) = ((.ok : OpOut), root') := hcp
    have hdp : nodeAt root dp = some dn := Tree.resolve_nodeAt hdest
    have hnspdp : ¬ sp <+: dp := by
      by_cases hc0 : cps = []
      · subst hc0
        rw [show fullNameOf ([] : List String) = "/" from rfl,
          resolve_slash] at hdest
        simp only [Option.some.injEq, Prod.mk.injEq] at hdest
        obtain ⟨h1, h2⟩ := hdest
        rw [← h1]
        intro hpre
        exact hnr (List.prefix_nil.mp hpre)
      · rw [resolve_canonical root cwd cps hseg hc0] at hdest
        cases hnc : nodeAt root cps with
        | none => rw [hnc] at hdest; exact absurd hdest (by simp)
        | some m =>
          rw [hnc] at hdest
          simp only [Option.map_some', Option.some.injEq,
            Prod.mk.injEq] at hdest
          obtain ⟨h1, h2⟩ := hdest
          rw [← h1]
          exact hnpre
    by_cases hdir : dn.is_directory = true
    · rw [if_pos hdir] at hcp2
      cases hac : addChildAt root dp (cloneNode sn none) with
      | none =>
        obtain ⟨t', ht'⟩ := addChildAt_isSome hdp (cloneNode sn none)
        rw [hac] at ht'
        exact absurd ht' (by simp)
      | some t2 =>
        rw [hac] at hcp2
        have hcp3 : ((.ok : OpOut), t2) = ((.ok : OpOut), root') := hcp2
        have heq2 : t2 = root' := congrArg Prod.snd hcp3
        subst heq2
        have hacs : addChildAt root dp sn = some t2 := hac
        refine ⟨addChildAt_preserves hacs sp sn hsn hnspdp, ?_, ?_⟩
        · intro q hq
          exact addChildAt_isSome_pres hacs q
            (nodeAt_prefix_isSome hq (by rw [hsn]; rfl))
        · refine ⟨dp, dn.add_child sn, sn.name, addChildAt_at hdp hacs,
            ?_, ?_⟩
          · rw [Node.setName_self]
            exact add_child_getLast hdir
          · intro π w rr
            rw [Node.setName_self]
            obtain ⟨t3, ht3⟩ := addChildAt_isSome hdp (setValueAt sn π w)
            rw [addChildAt_replace_last hdp hacs ht3]
            rw [nodeAt_append, nodeAt_append,
              addChildAt_preserves ht3 sp sn hsn hnspdp,
              addChildAt_preserves hacs sp sn hsn hnspdp]
    · rw [if_neg hdir] at hcp2
      simp at hcp2
  | none =>
    rw [hdest] at hcp
    have hcp2 : (match Tree.insert root (dirname (fullNameOf cps))
        (cloneNode sn (some (basename (fullNameOf cps)))) with
      | .ok t2 => ((.ok : OpOut), t2)
      | .error e => ((.exc e : OpOut), root)) = ((.ok : OpOut), root') := hcp
    have hcx : cps ≠ [] := by
      intro h0
      subst h0
      rw [show fullNameOf ([] : List String) = "/" from rfl,
        resolve_slash] at hdest
      exact absurd hdest (by simp)
    have hne' : ∀ e ∈ cps, e.data ≠ [] := fun e he =>
      data_ne_of_ne_empty (fun h0 => (hseg e he).1 (Or.inl h0))
    have hns : ∀ e ∈ cps, '/' ∉ e.data := fun e he => (hseg e he).2.2
    have hnone : nodeAt root cps = none := by
      rw [resolve_canonical root cwd cps hseg hcx] at hdest
      cases hnc : nodeAt root cps with
      | none => rfl
      | some m => rw [hnc] at hdest; exact absurd hdest (by simp)
    rw [dirname_fullNameOf cps hcx hne' hns,
      basename_fullNameOf cps hcx hne' hns] at hcp2
    cases hins : Tree.insert root (fullNameOf cps.dropLast)
        (cloneNode sn (some (cps.getLastD ""))) with
    | error e =>
      rw [hins] at hcp2
      have hcp3 : ((.exc e : OpOut), root) = ((.ok : OpOut), root') := hcp2
      exact absurd hcp3 (by simp)
    | ok t2 =>
      rw [hins] at hcp2
      have hcp3 : ((.ok : OpOut), t2) = ((.ok : OpOut), root') := hcp2
      have heq2 : t2 = root' := congrArg Prod.snd hcp3
      subst heq2
      have hins' : insertGo root (splitSlash (fullNameOf cps.dropLast))
          (sn.setName (cps.getLastD "")) = .ok t2 := hins
      have hfilt : (splitSlash (fullNameOf cps.dropLast)).filter
            (fun e => e != "") = cps.dropLast :=
        filter_splitSlash_fullNameOf cps.dropLast
          (fun e he => hne' e ((List.dropLast_prefix cps).subset he))
          (fun e he => hns e ((List.dropLast_prefix cps).subset he))
      have hndl : ¬ sp <+: cps.dropLast := fun hpre =>
        hnpre (hpre.trans (List.dropLast_prefix cps))
      refine ⟨insertGo_preserves hins' sp sn hsn
          (by rw [hfilt]; exact hndl), ?_, ?_⟩
      · intro q hq
        exact insertGo_isSome hins' q
          (nodeAt_prefix_isSome hq (by rw [hsn]; rfl))
      · obtain ⟨d, hdip, hlast⟩ := insertGo_attach_parent hins'
        rw [hfilt] at hdip
        refine ⟨cps.dropLast, d, cps.getLastD "", hdip, hlast, ?_⟩
        intro π w rr
        obtain ⟨t3, h1, h2⟩ :=
          insertGo_with (setValueAt (sn.setName (cps.getLastD "")) π w) hins'
        rw [hfilt] at h2
        rw [h2]
        rw [nodeAt_append, nodeAt_append,
          insertGo_preserves h1 sp sn hsn (by rw [hfilt]; exact hndl),
          insertGo_preserves hins' sp sn hsn (by rw [hfilt]; exact hndl)]

theorem cp_copy_independence_witness :
    nodeAt (Node.DictNode "" [.DictNode "a" [.ValueNode "b" 5],
        .DictNode "c" [.DictNode "a" [.ValueNode "b" 5]]]) ["a"]
      = some (Node.DictNode "a" [.ValueNode "b" 5]) ∧
    (∀ q, q <+: ["a"] →
      (nodeAt (Node.DictNode "" [.DictNode "a" [.ValueNode "b" 5],
        .DictNode "c" [.DictNode "a" [.ValueNode "b" 5]]]) q).isSome) ∧
    (∃ dpath d nm',
      nodeAt (Node.DictNode "" [.DictNode "a" [.ValueNode "b" 5],
        .DictNode "c" [.DictNode "a" [.ValueNode "b" 5]]]) dpath
        = some d ∧
      d.children.getLast?
        = some ((Node.DictNode "a" [.ValueNode "b" 5]).setName nm') ∧
      ∀ π w rr,
        nodeAt (replace_last_child_at
            (Node.DictNode "" [.DictNode "a" [.ValueNode "b" 5],
              .DictNode "c" [.DictNode "a" [.ValueNode "b" 5]]]) dpath
            (setValueAt ((Node.DictNode "a" [.ValueNode "b" 5]).setName nm')
              π w)) (["a"] ++ rr)
          = nodeAt (Node.DictNode "" [.DictNode "a" [.ValueNode "b" 5],
              .DictNode "c" [.DictNode "a" [.ValueNode "b" 5]]])
            (["a"] ++ rr)) :=
  cp_copy_independence
    (.DictNode "" [.DictNode "a" [.ValueNode "b" 5], .DictNode "c" []])
    [] "/a" "/c" ["a"] (.DictNode "a" [.ValueNode "b" 5])
    (.DictNode "" [.DictNode "a" [.ValueNode "b" 5],
      .DictNode "c" [.DictNode "a" [.ValueNode "b" 5]]])
    rfl (by simp) rfl
